import Mathlib

/-!
Shallow embedding of `EigenvalueDecomposition.hpp` (ublasJama): symmetric
Householder tridiagonalization (`tred2`), symmetric tridiagonal QL (`tql2`),
nonsymmetric Hessenberg reduction (`orthes`), Hessenberg-to-Schur reduction
with eigenvector back-substitution (`hqr2`), the block-diagonal accessor
(`getD`) and the two constructors.

Modelling choices:
* The working scalar type is an abstract linearly ordered field `K` together
  with abstract `sqrt`, `hypot` and a machine epsilon `eps` (class `NumModel`),
  constrained only by sign facts that `std::sqrt`, `boost::math::hypot` and
  `std::numeric_limits::epsilon` satisfy on their used domains.  All structural
  claims are proved for every such model.
* Vectors and matrices are total functions `Int → K` and `Int → Int → K`
  (C++ `int` indexing), updated pointwise; loops are translated to recursions
  on an explicit iteration count computed from the C++ loop bounds.
* The two potentially unbounded loops (the QL do-while of `tql2`, the outer
  deflation loop of `hqr2`) take a fuel parameter; exhausting it yields the
  result `fuelOut`.
* Divisions inside `tred2`, `tql2`, `orthes` and inside the complex-vector
  back-substitution block of `hqr2` (the "2x2 complex solve") are checked:
  a zero divisor yields `divZero`.  All remaining divisions of `hqr2` are
  outside the scope of the safety claim and use the ambient total field
  division.
* The size check `BOOST_UBLAS_CHECK(size1 == size2, bad_size())` is the
  `badSize` result.
* `boost::numeric::ublas::is_symmetric` is modelled, per its interface
  contract, as exact elementwise equality of the matrix with its transpose
  over the index square `[0, n)`.
-/

set_option linter.unusedSectionVars false

/-- A fraction of integers with positive denominator, not necessarily in
lowest terms: a kernel-computable representation of a rational number. -/
structure PreF where
  nu : Int
  de : Int
  pos : 0 < de

/-- The rational value of a fraction. -/
def PreF.toRat (a : PreF) : ℚ := (a.nu : ℚ) / (a.de : ℚ)

theorem PreF.de_ne (a : PreF) : ((a.de : ℚ)) ≠ 0 := by
  exact_mod_cast ne_of_gt a.pos

/-- Equality of fractions by cross-multiplication. -/
def PreF.equiv (a b : PreF) : Prop := a.nu * b.de = b.nu * a.de

theorem PreF.equiv_iff (a b : PreF) : a.equiv b ↔ a.toRat = b.toRat := by
  rw [PreF.equiv, PreF.toRat, PreF.toRat, div_eq_div_iff a.de_ne b.de_ne]
  constructor
  · intro h; exact_mod_cast congrArg (fun z : Int => (z : ℚ)) h
  · intro h; exact_mod_cast h

instance PreF.setoid : Setoid PreF where
  r := PreF.equiv
  iseqv := by
    refine ⟨fun a => ?_, fun {a b} h => ?_, fun {a b c} h1 h2 => ?_⟩
    · rfl
    · rw [PreF.equiv_iff] at h ⊢; exact h.symm
    · rw [PreF.equiv_iff] at h1 h2 ⊢; exact h1.trans h2

/-- Kernel-computable rationals: integer fractions up to cross-multiplication.
Arithmetic and comparisons reduce inside the kernel (plain `Int` operations),
so runs of the embedding over `Fr` can be checked by `decide`/`rfl`. -/
def Fr : Type := Quotient PreF.setoid

namespace Fr

def mk (a : PreF) : Fr := Quotient.mk PreF.setoid a

/-- The rational value of a kernel-computable rational. -/
def toRat : Fr → ℚ :=
  Quotient.lift PreF.toRat (fun a b h => (PreF.equiv_iff a b).mp h)

@[simp] theorem toRat_mk (a : PreF) : toRat (mk a) = a.toRat := rfl

theorem toRat_injective : Function.Injective toRat := by
  intro x y
  refine Quotient.inductionOn₂ x y (fun a b h => ?_)
  exact Quotient.sound ((PreF.equiv_iff a b).mpr h)

/-! Arithmetic. -/

protected def addP (a b : PreF) : PreF :=
  ⟨a.nu * b.de + b.nu * a.de, a.de * b.de, mul_pos a.pos b.pos⟩

theorem addP_toRat (a b : PreF) :
    (Fr.addP a b).toRat = a.toRat + b.toRat := by
  rw [Fr.addP, PreF.toRat, PreF.toRat, PreF.toRat]
  push_cast
  rw [div_add_div _ _ a.de_ne b.de_ne]
  ring_nf

protected def mulP (a b : PreF) : PreF :=
  ⟨a.nu * b.nu, a.de * b.de, mul_pos a.pos b.pos⟩

theorem mulP_toRat (a b : PreF) :
    (Fr.mulP a b).toRat = a.toRat * b.toRat := by
  rw [Fr.mulP, PreF.toRat, PreF.toRat, PreF.toRat]
  push_cast
  rw [div_mul_div_comm]

protected def negP (a : PreF) : PreF := ⟨-a.nu, a.de, a.pos⟩

theorem negP_toRat (a : PreF) : (Fr.negP a).toRat = -a.toRat := by
  rw [Fr.negP, PreF.toRat, PreF.toRat]
  push_cast
  rw [neg_div]

protected def invP (a : PreF) : PreF :=
  if h : 0 < a.nu then ⟨a.de, a.nu, h⟩
  else if h' : a.nu < 0 then ⟨-a.de, -a.nu, neg_pos.mpr h'⟩
  else ⟨0, 1, one_pos⟩

theorem invP_toRat (a : PreF) : (Fr.invP a).toRat = (a.toRat)⁻¹ := by
  rw [Fr.invP]
  by_cases h : 0 < a.nu
  · rw [dif_pos h, PreF.toRat, PreF.toRat, inv_div]
  · rw [dif_neg h]
    by_cases h' : a.nu < 0
    · rw [dif_pos h', PreF.toRat, PreF.toRat, inv_div]
      push_cast
      rw [neg_div_neg_eq]
    · have h0 : a.nu = 0 := le_antisymm (not_lt.mp h) (not_lt.mp h')
      rw [dif_neg h', PreF.toRat, PreF.toRat, h0]
      norm_num

instance : Add Fr :=
  ⟨Quotient.map₂ Fr.addP (fun a a' ha b b' hb =>
    (PreF.equiv_iff _ _).mpr (by
      rw [addP_toRat, addP_toRat, (PreF.equiv_iff _ _).mp ha,
        (PreF.equiv_iff _ _).mp hb]))⟩

instance : Mul Fr :=
  ⟨Quotient.map₂ Fr.mulP (fun a a' ha b b' hb =>
    (PreF.equiv_iff _ _).mpr (by
      rw [mulP_toRat, mulP_toRat, (PreF.equiv_iff _ _).mp ha,
        (PreF.equiv_iff _ _).mp hb]))⟩

instance : Neg Fr :=
  ⟨Quotient.map Fr.negP (fun a a' ha =>
    (PreF.equiv_iff _ _).mpr (by
      rw [negP_toRat, negP_toRat, (PreF.equiv_iff _ _).mp ha]))⟩

instance : Inv Fr :=
  ⟨Quotient.map Fr.invP (fun a a' ha =>
    (PreF.equiv_iff _ _).mpr (by
      rw [invP_toRat, invP_toRat, (PreF.equiv_iff _ _).mp ha]))⟩

instance : Sub Fr := ⟨fun x y => x + -y⟩
instance : Div Fr := ⟨fun x y => x * y⁻¹⟩

/-- Cast of an integer. -/
def ofInt (n : Int) : Fr := mk ⟨n, 1, one_pos⟩

instance : NatCast Fr := ⟨fun n => ofInt n⟩
instance : IntCast Fr := ⟨fun n => ofInt n⟩
instance : Zero Fr := ⟨ofInt 0⟩
instance : One Fr := ⟨ofInt 1⟩

instance : SMul Nat Fr := ⟨fun n x => (n : Fr) * x⟩
instance : SMul Int Fr := ⟨fun n x => (n : Fr) * x⟩

/-- Cast of a rational. -/
def ofRat (q : ℚ) : Fr := mk ⟨q.num, q.den, Int.natCast_pos.mpr q.pos⟩

instance : RatCast Fr := ⟨ofRat⟩
instance : NNRatCast Fr := ⟨fun q => ofRat q⟩
instance : SMul ℚ Fr := ⟨fun q x => (q : Fr) * x⟩
instance : SMul ℚ≥0 Fr := ⟨fun q x => ((q : ℚ) : Fr) * x⟩

/-- Structural power. -/
def powNat (x : Fr) : Nat → Fr
  | 0 => 1
  | n + 1 => powNat x n * x

instance : Pow Fr Nat := ⟨powNat⟩

/-- Structural integer power. -/
def powInt (x : Fr) : Int → Fr
  | .ofNat n => powNat x n
  | .negSucc n => (powNat x (n + 1))⁻¹

instance : Pow Fr Int := ⟨powInt⟩

/-! Value-preservation of every operation. -/

theorem toRat_add (x y : Fr) : toRat (x + y) = toRat x + toRat y := by
  refine Quotient.inductionOn₂ x y (fun a b => ?_)
  exact addP_toRat a b

theorem toRat_mul (x y : Fr) : toRat (x * y) = toRat x * toRat y := by
  refine Quotient.inductionOn₂ x y (fun a b => ?_)
  exact mulP_toRat a b

theorem toRat_neg (x : Fr) : toRat (-x) = -toRat x := by
  refine Quotient.inductionOn x (fun a => ?_)
  exact negP_toRat a

theorem toRat_inv (x : Fr) : toRat x⁻¹ = (toRat x)⁻¹ := by
  refine Quotient.inductionOn x (fun a => ?_)
  exact invP_toRat a

theorem toRat_sub (x y : Fr) : toRat (x - y) = toRat x - toRat y := by
  show toRat (x + -y) = _
  rw [toRat_add, toRat_neg, sub_eq_add_neg]

theorem toRat_div (x y : Fr) : toRat (x / y) = toRat x / toRat y := by
  show toRat (x * y⁻¹) = _
  rw [toRat_mul, toRat_inv, div_eq_mul_inv]

theorem toRat_ofInt (n : Int) : toRat (ofInt n) = (n : ℚ) := by
  rw [ofInt, toRat_mk, PreF.toRat]
  norm_num

theorem toRat_natCast (n : Nat) : toRat (n : Fr) = (n : ℚ) := by
  show toRat (ofInt n) = _
  rw [toRat_ofInt]
  norm_num

theorem toRat_intCast (n : Int) : toRat (n : Fr) = (n : ℚ) := toRat_ofInt n

theorem toRat_zero : toRat (0 : Fr) = 0 := by
  show toRat (ofInt 0) = 0
  rw [toRat_ofInt]; norm_num

theorem toRat_one : toRat (1 : Fr) = 1 := by
  show toRat (ofInt 1) = 1
  rw [toRat_ofInt]; norm_num

theorem toRat_ratCast (q : ℚ) : toRat (q : Fr) = q := by
  show toRat (ofRat q) = q
  rw [ofRat, toRat_mk, PreF.toRat]
  exact_mod_cast Rat.num_div_den q

theorem toRat_nsmul (n : Nat) (x : Fr) : toRat (n • x) = n • toRat x := by
  show toRat ((n : Fr) * x) = _
  rw [toRat_mul, toRat_natCast, nsmul_eq_mul]

theorem toRat_zsmul (n : Int) (x : Fr) : toRat (n • x) = n • toRat x := by
  show toRat ((n : Fr) * x) = _
  rw [toRat_mul, toRat_intCast, zsmul_eq_mul]

theorem toRat_qsmul (q : ℚ) (x : Fr) : toRat (q • x) = q • toRat x := by
  show toRat ((q : Fr) * x) = _
  rw [toRat_mul, toRat_ratCast]
  rw [Rat.smul_def, Rat.cast_id]

theorem toRat_nnqsmul (q : ℚ≥0) (x : Fr) : toRat (q • x) = q • toRat x := by
  show toRat (((q : ℚ) : Fr) * x) = _
  rw [toRat_mul, toRat_ratCast, NNRat.smul_def]

theorem toRat_npow (x : Fr) (n : Nat) : toRat (x ^ n) = toRat x ^ n := by
  show toRat (powNat x n) = _
  induction n with
  | zero => rw [powNat, pow_zero, toRat_one]
  | succ n ih => rw [powNat, toRat_mul, ih, pow_succ]

theorem toRat_zpow (x : Fr) (n : Int) : toRat (x ^ n) = toRat x ^ n := by
  show toRat (powInt x n) = _
  cases n with
  | ofNat n =>
    rw [powInt]
    rw [show ((Int.ofNat n : Int) : ℤ) = (n : ℤ) from rfl, zpow_natCast]
    exact toRat_npow x n
  | negSucc n =>
    rw [powInt, zpow_negSucc, toRat_inv]
    rw [show powNat x (n + 1) = x ^ (n + 1) from rfl, toRat_npow]

theorem toRat_nnratCast (q : ℚ≥0) : toRat (q : Fr) = (q : ℚ) := by
  show toRat (ofRat (q : ℚ)) = _
  exact toRat_ratCast (q : ℚ)

/-! The order, with kernel-computable decisions. -/

/-- Comparison by cross-multiplication. -/
protected def leP (a b : PreF) : Bool := decide (a.nu * b.de ≤ b.nu * a.de)

theorem leP_iff (a b : PreF) : Fr.leP a b = true ↔ a.toRat ≤ b.toRat := by
  rw [Fr.leP, decide_eq_true_eq, PreF.toRat, PreF.toRat,
    div_le_div_iff₀ (by exact_mod_cast a.pos) (by exact_mod_cast b.pos)]
  constructor
  · intro h; exact_mod_cast h
  · intro h; exact_mod_cast h

/-- The Boolean comparison on `Fr`. -/
def leB : Fr → Fr → Bool :=
  Quotient.lift₂ Fr.leP (fun a b a' b' ha hb => by
    have ha' := (PreF.equiv_iff _ _).mp ha
    have hb' := (PreF.equiv_iff _ _).mp hb
    have h1 := leP_iff a b
    have h2 := leP_iff a' b'
    rw [ha', hb'] at h1
    rw [Bool.eq_iff_iff, h1, h2])

instance : LE Fr := ⟨fun x y => leB x y = true⟩
instance : LT Fr := ⟨fun x y => ¬ leB y x = true⟩

theorem le_char (x y : Fr) : x ≤ y ↔ toRat x ≤ toRat y := by
  refine Quotient.inductionOn₂ x y (fun a b => ?_)
  exact leP_iff a b

theorem lt_char (x y : Fr) : x < y ↔ toRat x < toRat y := by
  show ¬ leB y x = true ↔ _
  have := le_char y x
  rw [show (y ≤ x) = (leB y x = true) from rfl] at this
  rw [this, not_le]

instance : Max Fr := ⟨fun x y => if leB x y then y else x⟩
instance : Min Fr := ⟨fun x y => if leB x y then x else y⟩

theorem toRat_max (x y : Fr) :
    toRat (max x y) = max (toRat x) (toRat y) := by
  show toRat (if leB x y then y else x) = _
  by_cases h : leB x y = true
  · rw [if_pos h, max_eq_right ((le_char x y).mp h)]
  · have hle : toRat y ≤ toRat x := by
      have := (le_char x y).not.mp h
      linarith [not_le.mp this]
    rw [if_neg h, max_eq_left hle]

theorem toRat_min (x y : Fr) :
    toRat (min x y) = min (toRat x) (toRat y) := by
  show toRat (if leB x y then x else y) = _
  by_cases h : leB x y = true
  · rw [if_pos h, min_eq_left ((le_char x y).mp h)]
  · have hle : toRat y ≤ toRat x := by
      have := (le_char x y).not.mp h
      linarith [not_le.mp this]
    rw [if_neg h, min_eq_right hle]

instance decLE : DecidableRel (fun x y : Fr => x ≤ y) := fun x y =>
  decidable_of_iff (leB x y = true) Iff.rfl

instance decLT : DecidableRel (fun x y : Fr => x < y) := fun x y =>
  decidable_of_iff (¬ leB y x = true) Iff.rfl

instance : DecidableEq Fr := fun x y =>
  decidable_of_iff (leB x y = true ∧ leB y x = true)
    (by
      rw [show (leB x y = true) = (x ≤ y) from rfl,
        show (leB y x = true) = (y ≤ x) from rfl, le_char, le_char]
      constructor
      · rintro ⟨h1, h2⟩; exact toRat_injective (le_antisymm h1 h2)
      · rintro rfl; exact ⟨le_refl _, le_refl _⟩)

instance : LinearOrder Fr where
  le := (· ≤ ·)
  lt := (· < ·)
  le_refl x := by rw [le_char]
  le_trans x y z h1 h2 := by
    rw [le_char] at h1 h2 ⊢
    exact h1.trans h2
  le_antisymm x y h1 h2 := by
    rw [le_char] at h1 h2
    exact toRat_injective (le_antisymm h1 h2)
  le_total x y := by
    rw [le_char, le_char]
    exact le_total _ _
  lt_iff_le_not_le x y := by
    rw [lt_char, le_char, le_char]
    exact lt_iff_le_not_le
  min := min
  max := max
  min_def x y := by
    show (if leB x y then x else y) = if x ≤ y then x else y
    by_cases h : leB x y = true
    · rw [if_pos h]; exact (if_pos h).symm
    · rw [if_neg h]; exact (if_neg h).symm
  max_def x y := by
    show (if leB x y then y else x) = if x ≤ y then y else x
    by_cases h : leB x y = true
    · rw [if_pos h]; exact (if_pos h).symm
    · rw [if_neg h]; exact (if_neg h).symm
  decidableLE := inferInstance
  decidableLT := inferInstance
  decidableEq := inferInstance

/-- The field structure, transferred along `toRat`. -/
def frField : Field Fr :=
  Function.Injective.field toRat toRat_injective toRat_zero toRat_one
    toRat_add toRat_mul toRat_neg toRat_sub toRat_inv toRat_div
    toRat_nsmul toRat_zsmul toRat_nnqsmul toRat_qsmul toRat_npow toRat_zpow
    toRat_natCast toRat_intCast toRat_nnratCast toRat_ratCast

instance : Field Fr := frField

instance : LinearOrderedField Fr where
  __ := frField
  __ := (inferInstance : LinearOrder Fr)
  add_le_add_left x y h c :=
    (le_char _ _).mpr (by
      rw [toRat_add, toRat_add]
      exact add_le_add_left ((le_char _ _).mp h) _)
  zero_le_one :=
    (le_char _ _).mpr (by
      rw [toRat_zero, toRat_one]
      exact zero_le_one)
  mul_pos x y hx hy :=
    (lt_char _ _).mpr (by
      rw [toRat_zero, toRat_mul]
      have hx' := (lt_char _ _).mp hx
      have hy' := (lt_char _ _).mp hy
      rw [toRat_zero] at hx' hy'
      exact mul_pos hx' hy')

end Fr

namespace Evd

/-- Result of a (possibly failing) computation: success, the constructor's
size-mismatch error, a checked division by zero, or fuel exhaustion of one of
the two unbounded iterations. -/
inductive DRes (σ : Type) where
  | ok : σ → DRes σ
  | badSize : DRes σ
  | divZero : DRes σ
  | fuelOut : DRes σ
deriving Repr

def DRes.bind {σ τ : Type} : DRes σ → (σ → DRes τ) → DRes τ
  | .ok a, f => f a
  | .badSize, _ => .badSize
  | .divZero, _ => .divZero
  | .fuelOut, _ => .fuelOut

@[simp] theorem DRes.bind_ok {σ τ : Type} (a : σ) (f : σ → DRes τ) :
    DRes.bind (.ok a) f = f a := rfl

@[simp] theorem DRes.bind_badSize {σ τ : Type} (f : σ → DRes τ) :
    DRes.bind (.badSize : DRes σ) f = .badSize := rfl

@[simp] theorem DRes.bind_divZero {σ τ : Type} (f : σ → DRes τ) :
    DRes.bind (.divZero : DRes σ) f = .divZero := rfl

@[simp] theorem DRes.bind_fuelOut {σ τ : Type} (f : σ → DRes τ) :
    DRes.bind (.fuelOut : DRes σ) f = .fuelOut := rfl

/-- Ascending counted loop (`for (i = lo; i <= hi; ++i)` with
`c = hi - lo + 1` iterations), short-circuiting on failure. -/
def loopUp {σ : Type} (f : Int → σ → DRes σ) : Nat → Int → σ → DRes σ
  | 0, _, s => .ok s
  | c + 1, i, s => DRes.bind (f i s) (loopUp f c (i + 1))

/-- Descending counted loop (`for (i = hi; i >= lo; --i)`). -/
def loopDn {σ : Type} (f : Int → σ → DRes σ) : Nat → Int → σ → DRes σ
  | 0, _, s => .ok s
  | c + 1, i, s => DRes.bind (f i s) (loopDn f c (i - 1))

/-- Pure ascending counted loop. -/
def loopUpP {σ : Type} (f : Int → σ → σ) : Nat → Int → σ → σ
  | 0, _, s => s
  | c + 1, i, s => loopUpP f c (i + 1) (f i s)

/-- Pure descending counted loop. -/
def loopDnP {σ : Type} (f : Int → σ → σ) : Nat → Int → σ → σ
  | 0, _, s => s
  | c + 1, i, s => loopDnP f c (i - 1) (f i s)

/-- Ascending accumulating fold over indices (read-only loops). -/
def foldUpA {α : Type} (f : Int → α → α) : Nat → Int → α → α
  | 0, _, a => a
  | c + 1, i, a => foldUpA f c (i + 1) (f i a)

/-- Descending accumulating fold over indices. -/
def foldDnA {α : Type} (f : Int → α → α) : Nat → Int → α → α
  | 0, _, a => a
  | c + 1, i, a => foldDnA f c (i - 1) (f i a)

/-- Pointwise update of a vector. -/
def vset {K : Type} (v : Int → K) (i : Int) (x : K) : Int → K :=
  fun j => if j = i then x else v j

/-- Pointwise update of a matrix. -/
def mset {K : Type} (M : Int → Int → K) (i j : Int) (x : K) : Int → Int → K :=
  fun a b => if a = i ∧ b = j then x else M a b

@[simp] theorem vset_same {K : Type} (v : Int → K) (i : Int) (x : K) :
    vset v i x i = x := by simp [vset]

theorem vset_ne {K : Type} (v : Int → K) {i j : Int} (x : K) (h : j ≠ i) :
    vset v i x j = v j := by simp [vset, h]

@[simp] theorem mset_same {K : Type} (M : Int → Int → K) (i j : Int) (x : K) :
    mset M i j x i j = x := by simp [mset]

theorem mset_ne {K : Type} (M : Int → Int → K) {i j a b : Int} (x : K)
    (h : ¬(a = i ∧ b = j)) : mset M i j x a b = M a b := by simp [mset, h]

/-- Abstract numeric primitives used by the algorithms: `std::sqrt`,
`boost::math::hypot<T>` and `std::numeric_limits<T>::epsilon()`, constrained
only by the sign/order facts the algorithms rely on (and which the IEEE
functions satisfy on the arguments at which the code calls them). -/
class NumModel (K : Type) [LinearOrderedField K] where
  sqrt : K → K
  hypot : K → K → K
  eps : K
  eps_pos : 0 < eps
  sqrt_nonneg : ∀ x : K, 0 ≤ x → 0 ≤ sqrt x
  sqrt_pos : ∀ x : K, 0 < x → 0 < sqrt x
  le_hypot_left : ∀ a b : K, |a| ≤ hypot a b
  le_hypot_right : ∀ a b : K, |b| ≤ hypot a b

/-- A computable model over `ℚ`: placeholder `sqrt`/`hypot`/`eps` satisfying
the interface laws, used to run the embedding on concrete inputs. -/
instance : NumModel ℚ where
  sqrt := fun _ => 1
  hypot := fun a b => |a| + |b|
  eps := 1 / 1000
  eps_pos := by norm_num
  sqrt_nonneg := fun _ _ => by norm_num
  sqrt_pos := fun _ _ => by norm_num
  le_hypot_left := fun a b => le_add_of_nonneg_right (abs_nonneg b)
  le_hypot_right := fun a b => le_add_of_nonneg_left (abs_nonneg a)

/-- The same computable model over the kernel-computable rationals `Fr`,
used for witness runs checked by `decide`. -/
instance : NumModel Fr where
  sqrt := fun _ => 1
  hypot := fun a b => |a| + |b|
  eps := 1 / 1000
  eps_pos := by decide
  sqrt_nonneg := fun _ _ => zero_le_one
  sqrt_pos := fun _ _ => one_pos
  le_hypot_left := fun a b => le_add_of_nonneg_right (abs_nonneg b)
  le_hypot_right := fun a b => le_add_of_nonneg_left (abs_nonneg a)

/-- Mutable working state of a decomposition: the eigenvalue vectors `d`, `e`,
the Householder scratch vector `ort`, the matrices `V` and `H`, the `hqr2`
function-level locals `p q r s x y z w t exshift iter` and the active
deflation index `en` (the local `n` of `hqr2`). -/
structure St (K : Type) where
  d : Int → K
  e : Int → K
  ort : Int → K
  V : Int → Int → K
  H : Int → Int → K
  p : K
  q : K
  r : K
  s : K
  x : K
  y : K
  z : K
  w : K
  t : K
  exshift : K
  iter : Int
  en : Int

variable {K : Type} [LinearOrderedField K] [NumModel K]

/-! Field setters for `St` (one imperative assignment each) and their
projection lemmas. -/

def sD (st : St K) (v : Int → K) : St K := {st with d := v}

def sE (st : St K) (v : Int → K) : St K := {st with e := v}

def sOrt (st : St K) (v : Int → K) : St K := {st with ort := v}

def sV (st : St K) (v : Int → Int → K) : St K := {st with V := v}

def sH (st : St K) (v : Int → Int → K) : St K := {st with H := v}

def sP (st : St K) (v : K) : St K := {st with p := v}

def sQ (st : St K) (v : K) : St K := {st with q := v}

def sR (st : St K) (v : K) : St K := {st with r := v}

def sS (st : St K) (v : K) : St K := {st with s := v}

def sX (st : St K) (v : K) : St K := {st with x := v}

def sY (st : St K) (v : K) : St K := {st with y := v}

def sZ (st : St K) (v : K) : St K := {st with z := v}

def sW (st : St K) (v : K) : St K := {st with w := v}

def sT (st : St K) (v : K) : St K := {st with t := v}

def sExshift (st : St K) (v : K) : St K := {st with exshift := v}

def sIter (st : St K) (v : Int) : St K := {st with iter := v}

def sEn (st : St K) (v : Int) : St K := {st with en := v}

@[simp] theorem sD_d (st : St K) (v : Int → K) : (sD st v).d = v := rfl

@[simp] theorem sD_e (st : St K) (v : Int → K) : (sD st v).e = st.e := rfl

@[simp] theorem sD_ort (st : St K) (v : Int → K) : (sD st v).ort = st.ort := rfl

@[simp] theorem sD_V (st : St K) (v : Int → K) : (sD st v).V = st.V := rfl

@[simp] theorem sD_H (st : St K) (v : Int → K) : (sD st v).H = st.H := rfl

@[simp] theorem sD_p (st : St K) (v : Int → K) : (sD st v).p = st.p := rfl

@[simp] theorem sD_q (st : St K) (v : Int → K) : (sD st v).q = st.q := rfl

@[simp] theorem sD_r (st : St K) (v : Int → K) : (sD st v).r = st.r := rfl

@[simp] theorem sD_s (st : St K) (v : Int → K) : (sD st v).s = st.s := rfl

@[simp] theorem sD_x (st : St K) (v : Int → K) : (sD st v).x = st.x := rfl

@[simp] theorem sD_y (st : St K) (v : Int → K) : (sD st v).y = st.y := rfl

@[simp] theorem sD_z (st : St K) (v : Int → K) : (sD st v).z = st.z := rfl

@[simp] theorem sD_w (st : St K) (v : Int → K) : (sD st v).w = st.w := rfl

@[simp] theorem sD_t (st : St K) (v : Int → K) : (sD st v).t = st.t := rfl

@[simp] theorem sD_exshift (st : St K) (v : Int → K) : (sD st v).exshift = st.exshift := rfl

@[simp] theorem sD_iter (st : St K) (v : Int → K) : (sD st v).iter = st.iter := rfl

@[simp] theorem sD_en (st : St K) (v : Int → K) : (sD st v).en = st.en := rfl

@[simp] theorem sE_d (st : St K) (v : Int → K) : (sE st v).d = st.d := rfl

@[simp] theorem sE_e (st : St K) (v : Int → K) : (sE st v).e = v := rfl

@[simp] theorem sE_ort (st : St K) (v : Int → K) : (sE st v).ort = st.ort := rfl

@[simp] theorem sE_V (st : St K) (v : Int → K) : (sE st v).V = st.V := rfl

@[simp] theorem sE_H (st : St K) (v : Int → K) : (sE st v).H = st.H := rfl

@[simp] theorem sE_p (st : St K) (v : Int → K) : (sE st v).p = st.p := rfl

@[simp] theorem sE_q (st : St K) (v : Int → K) : (sE st v).q = st.q := rfl

@[simp] theorem sE_r (st : St K) (v : Int → K) : (sE st v).r = st.r := rfl

@[simp] theorem sE_s (st : St K) (v : Int → K) : (sE st v).s = st.s := rfl

@[simp] theorem sE_x (st : St K) (v : Int → K) : (sE st v).x = st.x := rfl

@[simp] theorem sE_y (st : St K) (v : Int → K) : (sE st v).y = st.y := rfl

@[simp] theorem sE_z (st : St K) (v : Int → K) : (sE st v).z = st.z := rfl

@[simp] theorem sE_w (st : St K) (v : Int → K) : (sE st v).w = st.w := rfl

@[simp] theorem sE_t (st : St K) (v : Int → K) : (sE st v).t = st.t := rfl

@[simp] theorem sE_exshift (st : St K) (v : Int → K) : (sE st v).exshift = st.exshift := rfl

@[simp] theorem sE_iter (st : St K) (v : Int → K) : (sE st v).iter = st.iter := rfl

@[simp] theorem sE_en (st : St K) (v : Int → K) : (sE st v).en = st.en := rfl

@[simp] theorem sOrt_d (st : St K) (v : Int → K) : (sOrt st v).d = st.d := rfl

@[simp] theorem sOrt_e (st : St K) (v : Int → K) : (sOrt st v).e = st.e := rfl

@[simp] theorem sOrt_ort (st : St K) (v : Int → K) : (sOrt st v).ort = v := rfl

@[simp] theorem sOrt_V (st : St K) (v : Int → K) : (sOrt st v).V = st.V := rfl

@[simp] theorem sOrt_H (st : St K) (v : Int → K) : (sOrt st v).H = st.H := rfl

@[simp] theorem sOrt_p (st : St K) (v : Int → K) : (sOrt st v).p = st.p := rfl

@[simp] theorem sOrt_q (st : St K) (v : Int → K) : (sOrt st v).q = st.q := rfl

@[simp] theorem sOrt_r (st : St K) (v : Int → K) : (sOrt st v).r = st.r := rfl

@[simp] theorem sOrt_s (st : St K) (v : Int → K) : (sOrt st v).s = st.s := rfl

@[simp] theorem sOrt_x (st : St K) (v : Int → K) : (sOrt st v).x = st.x := rfl

@[simp] theorem sOrt_y (st : St K) (v : Int → K) : (sOrt st v).y = st.y := rfl

@[simp] theorem sOrt_z (st : St K) (v : Int → K) : (sOrt st v).z = st.z := rfl

@[simp] theorem sOrt_w (st : St K) (v : Int → K) : (sOrt st v).w = st.w := rfl

@[simp] theorem sOrt_t (st : St K) (v : Int → K) : (sOrt st v).t = st.t := rfl

@[simp] theorem sOrt_exshift (st : St K) (v : Int → K) : (sOrt st v).exshift = st.exshift := rfl

@[simp] theorem sOrt_iter (st : St K) (v : Int → K) : (sOrt st v).iter = st.iter := rfl

@[simp] theorem sOrt_en (st : St K) (v : Int → K) : (sOrt st v).en = st.en := rfl

@[simp] theorem sV_d (st : St K) (v : Int → Int → K) : (sV st v).d = st.d := rfl

@[simp] theorem sV_e (st : St K) (v : Int → Int → K) : (sV st v).e = st.e := rfl

@[simp] theorem sV_ort (st : St K) (v : Int → Int → K) : (sV st v).ort = st.ort := rfl

@[simp] theorem sV_V (st : St K) (v : Int → Int → K) : (sV st v).V = v := rfl

@[simp] theorem sV_H (st : St K) (v : Int → Int → K) : (sV st v).H = st.H := rfl

@[simp] theorem sV_p (st : St K) (v : Int → Int → K) : (sV st v).p = st.p := rfl

@[simp] theorem sV_q (st : St K) (v : Int → Int → K) : (sV st v).q = st.q := rfl

@[simp] theorem sV_r (st : St K) (v : Int → Int → K) : (sV st v).r = st.r := rfl

@[simp] theorem sV_s (st : St K) (v : Int → Int → K) : (sV st v).s = st.s := rfl

@[simp] theorem sV_x (st : St K) (v : Int → Int → K) : (sV st v).x = st.x := rfl

@[simp] theorem sV_y (st : St K) (v : Int → Int → K) : (sV st v).y = st.y := rfl

@[simp] theorem sV_z (st : St K) (v : Int → Int → K) : (sV st v).z = st.z := rfl

@[simp] theorem sV_w (st : St K) (v : Int → Int → K) : (sV st v).w = st.w := rfl

@[simp] theorem sV_t (st : St K) (v : Int → Int → K) : (sV st v).t = st.t := rfl

@[simp] theorem sV_exshift (st : St K) (v : Int → Int → K) : (sV st v).exshift = st.exshift := rfl

@[simp] theorem sV_iter (st : St K) (v : Int → Int → K) : (sV st v).iter = st.iter := rfl

@[simp] theorem sV_en (st : St K) (v : Int → Int → K) : (sV st v).en = st.en := rfl

@[simp] theorem sH_d (st : St K) (v : Int → Int → K) : (sH st v).d = st.d := rfl

@[simp] theorem sH_e (st : St K) (v : Int → Int → K) : (sH st v).e = st.e := rfl

@[simp] theorem sH_ort (st : St K) (v : Int → Int → K) : (sH st v).ort = st.ort := rfl

@[simp] theorem sH_V (st : St K) (v : Int → Int → K) : (sH st v).V = st.V := rfl

@[simp] theorem sH_H (st : St K) (v : Int → Int → K) : (sH st v).H = v := rfl

@[simp] theorem sH_p (st : St K) (v : Int → Int → K) : (sH st v).p = st.p := rfl

@[simp] theorem sH_q (st : St K) (v : Int → Int → K) : (sH st v).q = st.q := rfl

@[simp] theorem sH_r (st : St K) (v : Int → Int → K) : (sH st v).r = st.r := rfl

@[simp] theorem sH_s (st : St K) (v : Int → Int → K) : (sH st v).s = st.s := rfl

@[simp] theorem sH_x (st : St K) (v : Int → Int → K) : (sH st v).x = st.x := rfl

@[simp] theorem sH_y (st : St K) (v : Int → Int → K) : (sH st v).y = st.y := rfl

@[simp] theorem sH_z (st : St K) (v : Int → Int → K) : (sH st v).z = st.z := rfl

@[simp] theorem sH_w (st : St K) (v : Int → Int → K) : (sH st v).w = st.w := rfl

@[simp] theorem sH_t (st : St K) (v : Int → Int → K) : (sH st v).t = st.t := rfl

@[simp] theorem sH_exshift (st : St K) (v : Int → Int → K) : (sH st v).exshift = st.exshift := rfl

@[simp] theorem sH_iter (st : St K) (v : Int → Int → K) : (sH st v).iter = st.iter := rfl

@[simp] theorem sH_en (st : St K) (v : Int → Int → K) : (sH st v).en = st.en := rfl

@[simp] theorem sP_d (st : St K) (v : K) : (sP st v).d = st.d := rfl

@[simp] theorem sP_e (st : St K) (v : K) : (sP st v).e = st.e := rfl

@[simp] theorem sP_ort (st : St K) (v : K) : (sP st v).ort = st.ort := rfl

@[simp] theorem sP_V (st : St K) (v : K) : (sP st v).V = st.V := rfl

@[simp] theorem sP_H (st : St K) (v : K) : (sP st v).H = st.H := rfl

@[simp] theorem sP_p (st : St K) (v : K) : (sP st v).p = v := rfl

@[simp] theorem sP_q (st : St K) (v : K) : (sP st v).q = st.q := rfl

@[simp] theorem sP_r (st : St K) (v : K) : (sP st v).r = st.r := rfl

@[simp] theorem sP_s (st : St K) (v : K) : (sP st v).s = st.s := rfl

@[simp] theorem sP_x (st : St K) (v : K) : (sP st v).x = st.x := rfl

@[simp] theorem sP_y (st : St K) (v : K) : (sP st v).y = st.y := rfl

@[simp] theorem sP_z (st : St K) (v : K) : (sP st v).z = st.z := rfl

@[simp] theorem sP_w (st : St K) (v : K) : (sP st v).w = st.w := rfl

@[simp] theorem sP_t (st : St K) (v : K) : (sP st v).t = st.t := rfl

@[simp] theorem sP_exshift (st : St K) (v : K) : (sP st v).exshift = st.exshift := rfl

@[simp] theorem sP_iter (st : St K) (v : K) : (sP st v).iter = st.iter := rfl

@[simp] theorem sP_en (st : St K) (v : K) : (sP st v).en = st.en := rfl

@[simp] theorem sQ_d (st : St K) (v : K) : (sQ st v).d = st.d := rfl

@[simp] theorem sQ_e (st : St K) (v : K) : (sQ st v).e = st.e := rfl

@[simp] theorem sQ_ort (st : St K) (v : K) : (sQ st v).ort = st.ort := rfl

@[simp] theorem sQ_V (st : St K) (v : K) : (sQ st v).V = st.V := rfl

@[simp] theorem sQ_H (st : St K) (v : K) : (sQ st v).H = st.H := rfl

@[simp] theorem sQ_p (st : St K) (v : K) : (sQ st v).p = st.p := rfl

@[simp] theorem sQ_q (st : St K) (v : K) : (sQ st v).q = v := rfl

@[simp] theorem sQ_r (st : St K) (v : K) : (sQ st v).r = st.r := rfl

@[simp] theorem sQ_s (st : St K) (v : K) : (sQ st v).s = st.s := rfl

@[simp] theorem sQ_x (st : St K) (v : K) : (sQ st v).x = st.x := rfl

@[simp] theorem sQ_y (st : St K) (v : K) : (sQ st v).y = st.y := rfl

@[simp] theorem sQ_z (st : St K) (v : K) : (sQ st v).z = st.z := rfl

@[simp] theorem sQ_w (st : St K) (v : K) : (sQ st v).w = st.w := rfl

@[simp] theorem sQ_t (st : St K) (v : K) : (sQ st v).t = st.t := rfl

@[simp] theorem sQ_exshift (st : St K) (v : K) : (sQ st v).exshift = st.exshift := rfl

@[simp] theorem sQ_iter (st : St K) (v : K) : (sQ st v).iter = st.iter := rfl

@[simp] theorem sQ_en (st : St K) (v : K) : (sQ st v).en = st.en := rfl

@[simp] theorem sR_d (st : St K) (v : K) : (sR st v).d = st.d := rfl

@[simp] theorem sR_e (st : St K) (v : K) : (sR st v).e = st.e := rfl

@[simp] theorem sR_ort (st : St K) (v : K) : (sR st v).ort = st.ort := rfl

@[simp] theorem sR_V (st : St K) (v : K) : (sR st v).V = st.V := rfl

@[simp] theorem sR_H (st : St K) (v : K) : (sR st v).H = st.H := rfl

@[simp] theorem sR_p (st : St K) (v : K) : (sR st v).p = st.p := rfl

@[simp] theorem sR_q (st : St K) (v : K) : (sR st v).q = st.q := rfl

@[simp] theorem sR_r (st : St K) (v : K) : (sR st v).r = v := rfl

@[simp] theorem sR_s (st : St K) (v : K) : (sR st v).s = st.s := rfl

@[simp] theorem sR_x (st : St K) (v : K) : (sR st v).x = st.x := rfl

@[simp] theorem sR_y (st : St K) (v : K) : (sR st v).y = st.y := rfl

@[simp] theorem sR_z (st : St K) (v : K) : (sR st v).z = st.z := rfl

@[simp] theorem sR_w (st : St K) (v : K) : (sR st v).w = st.w := rfl

@[simp] theorem sR_t (st : St K) (v : K) : (sR st v).t = st.t := rfl

@[simp] theorem sR_exshift (st : St K) (v : K) : (sR st v).exshift = st.exshift := rfl

@[simp] theorem sR_iter (st : St K) (v : K) : (sR st v).iter = st.iter := rfl

@[simp] theorem sR_en (st : St K) (v : K) : (sR st v).en = st.en := rfl

@[simp] theorem sS_d (st : St K) (v : K) : (sS st v).d = st.d := rfl

@[simp] theorem sS_e (st : St K) (v : K) : (sS st v).e = st.e := rfl

@[simp] theorem sS_ort (st : St K) (v : K) : (sS st v).ort = st.ort := rfl

@[simp] theorem sS_V (st : St K) (v : K) : (sS st v).V = st.V := rfl

@[simp] theorem sS_H (st : St K) (v : K) : (sS st v).H = st.H := rfl

@[simp] theorem sS_p (st : St K) (v : K) : (sS st v).p = st.p := rfl

@[simp] theorem sS_q (st : St K) (v : K) : (sS st v).q = st.q := rfl

@[simp] theorem sS_r (st : St K) (v : K) : (sS st v).r = st.r := rfl

@[simp] theorem sS_s (st : St K) (v : K) : (sS st v).s = v := rfl

@[simp] theorem sS_x (st : St K) (v : K) : (sS st v).x = st.x := rfl

@[simp] theorem sS_y (st : St K) (v : K) : (sS st v).y = st.y := rfl

@[simp] theorem sS_z (st : St K) (v : K) : (sS st v).z = st.z := rfl

@[simp] theorem sS_w (st : St K) (v : K) : (sS st v).w = st.w := rfl

@[simp] theorem sS_t (st : St K) (v : K) : (sS st v).t = st.t := rfl

@[simp] theorem sS_exshift (st : St K) (v : K) : (sS st v).exshift = st.exshift := rfl

@[simp] theorem sS_iter (st : St K) (v : K) : (sS st v).iter = st.iter := rfl

@[simp] theorem sS_en (st : St K) (v : K) : (sS st v).en = st.en := rfl

@[simp] theorem sX_d (st : St K) (v : K) : (sX st v).d = st.d := rfl

@[simp] theorem sX_e (st : St K) (v : K) : (sX st v).e = st.e := rfl

@[simp] theorem sX_ort (st : St K) (v : K) : (sX st v).ort = st.ort := rfl

@[simp] theorem sX_V (st : St K) (v : K) : (sX st v).V = st.V := rfl

@[simp] theorem sX_H (st : St K) (v : K) : (sX st v).H = st.H := rfl

@[simp] theorem sX_p (st : St K) (v : K) : (sX st v).p = st.p := rfl

@[simp] theorem sX_q (st : St K) (v : K) : (sX st v).q = st.q := rfl

@[simp] theorem sX_r (st : St K) (v : K) : (sX st v).r = st.r := rfl

@[simp] theorem sX_s (st : St K) (v : K) : (sX st v).s = st.s := rfl

@[simp] theorem sX_x (st : St K) (v : K) : (sX st v).x = v := rfl

@[simp] theorem sX_y (st : St K) (v : K) : (sX st v).y = st.y := rfl

@[simp] theorem sX_z (st : St K) (v : K) : (sX st v).z = st.z := rfl

@[simp] theorem sX_w (st : St K) (v : K) : (sX st v).w = st.w := rfl

@[simp] theorem sX_t (st : St K) (v : K) : (sX st v).t = st.t := rfl

@[simp] theorem sX_exshift (st : St K) (v : K) : (sX st v).exshift = st.exshift := rfl

@[simp] theorem sX_iter (st : St K) (v : K) : (sX st v).iter = st.iter := rfl

@[simp] theorem sX_en (st : St K) (v : K) : (sX st v).en = st.en := rfl

@[simp] theorem sY_d (st : St K) (v : K) : (sY st v).d = st.d := rfl

@[simp] theorem sY_e (st : St K) (v : K) : (sY st v).e = st.e := rfl

@[simp] theorem sY_ort (st : St K) (v : K) : (sY st v).ort = st.ort := rfl

@[simp] theorem sY_V (st : St K) (v : K) : (sY st v).V = st.V := rfl

@[simp] theorem sY_H (st : St K) (v : K) : (sY st v).H = st.H := rfl

@[simp] theorem sY_p (st : St K) (v : K) : (sY st v).p = st.p := rfl

@[simp] theorem sY_q (st : St K) (v : K) : (sY st v).q = st.q := rfl

@[simp] theorem sY_r (st : St K) (v : K) : (sY st v).r = st.r := rfl

@[simp] theorem sY_s (st : St K) (v : K) : (sY st v).s = st.s := rfl

@[simp] theorem sY_x (st : St K) (v : K) : (sY st v).x = st.x := rfl

@[simp] theorem sY_y (st : St K) (v : K) : (sY st v).y = v := rfl

@[simp] theorem sY_z (st : St K) (v : K) : (sY st v).z = st.z := rfl

@[simp] theorem sY_w (st : St K) (v : K) : (sY st v).w = st.w := rfl

@[simp] theorem sY_t (st : St K) (v : K) : (sY st v).t = st.t := rfl

@[simp] theorem sY_exshift (st : St K) (v : K) : (sY st v).exshift = st.exshift := rfl

@[simp] theorem sY_iter (st : St K) (v : K) : (sY st v).iter = st.iter := rfl

@[simp] theorem sY_en (st : St K) (v : K) : (sY st v).en = st.en := rfl

@[simp] theorem sZ_d (st : St K) (v : K) : (sZ st v).d = st.d := rfl

@[simp] theorem sZ_e (st : St K) (v : K) : (sZ st v).e = st.e := rfl

@[simp] theorem sZ_ort (st : St K) (v : K) : (sZ st v).ort = st.ort := rfl

@[simp] theorem sZ_V (st : St K) (v : K) : (sZ st v).V = st.V := rfl

@[simp] theorem sZ_H (st : St K) (v : K) : (sZ st v).H = st.H := rfl

@[simp] theorem sZ_p (st : St K) (v : K) : (sZ st v).p = st.p := rfl

@[simp] theorem sZ_q (st : St K) (v : K) : (sZ st v).q = st.q := rfl

@[simp] theorem sZ_r (st : St K) (v : K) : (sZ st v).r = st.r := rfl

@[simp] theorem sZ_s (st : St K) (v : K) : (sZ st v).s = st.s := rfl

@[simp] theorem sZ_x (st : St K) (v : K) : (sZ st v).x = st.x := rfl

@[simp] theorem sZ_y (st : St K) (v : K) : (sZ st v).y = st.y := rfl

@[simp] theorem sZ_z (st : St K) (v : K) : (sZ st v).z = v := rfl

@[simp] theorem sZ_w (st : St K) (v : K) : (sZ st v).w = st.w := rfl

@[simp] theorem sZ_t (st : St K) (v : K) : (sZ st v).t = st.t := rfl

@[simp] theorem sZ_exshift (st : St K) (v : K) : (sZ st v).exshift = st.exshift := rfl

@[simp] theorem sZ_iter (st : St K) (v : K) : (sZ st v).iter = st.iter := rfl

@[simp] theorem sZ_en (st : St K) (v : K) : (sZ st v).en = st.en := rfl

@[simp] theorem sW_d (st : St K) (v : K) : (sW st v).d = st.d := rfl

@[simp] theorem sW_e (st : St K) (v : K) : (sW st v).e = st.e := rfl

@[simp] theorem sW_ort (st : St K) (v : K) : (sW st v).ort = st.ort := rfl

@[simp] theorem sW_V (st : St K) (v : K) : (sW st v).V = st.V := rfl

@[simp] theorem sW_H (st : St K) (v : K) : (sW st v).H = st.H := rfl

@[simp] theorem sW_p (st : St K) (v : K) : (sW st v).p = st.p := rfl

@[simp] theorem sW_q (st : St K) (v : K) : (sW st v).q = st.q := rfl

@[simp] theorem sW_r (st : St K) (v : K) : (sW st v).r = st.r := rfl

@[simp] theorem sW_s (st : St K) (v : K) : (sW st v).s = st.s := rfl

@[simp] theorem sW_x (st : St K) (v : K) : (sW st v).x = st.x := rfl

@[simp] theorem sW_y (st : St K) (v : K) : (sW st v).y = st.y := rfl

@[simp] theorem sW_z (st : St K) (v : K) : (sW st v).z = st.z := rfl

@[simp] theorem sW_w (st : St K) (v : K) : (sW st v).w = v := rfl

@[simp] theorem sW_t (st : St K) (v : K) : (sW st v).t = st.t := rfl

@[simp] theorem sW_exshift (st : St K) (v : K) : (sW st v).exshift = st.exshift := rfl

@[simp] theorem sW_iter (st : St K) (v : K) : (sW st v).iter = st.iter := rfl

@[simp] theorem sW_en (st : St K) (v : K) : (sW st v).en = st.en := rfl

@[simp] theorem sT_d (st : St K) (v : K) : (sT st v).d = st.d := rfl

@[simp] theorem sT_e (st : St K) (v : K) : (sT st v).e = st.e := rfl

@[simp] theorem sT_ort (st : St K) (v : K) : (sT st v).ort = st.ort := rfl

@[simp] theorem sT_V (st : St K) (v : K) : (sT st v).V = st.V := rfl

@[simp] theorem sT_H (st : St K) (v : K) : (sT st v).H = st.H := rfl

@[simp] theorem sT_p (st : St K) (v : K) : (sT st v).p = st.p := rfl

@[simp] theorem sT_q (st : St K) (v : K) : (sT st v).q = st.q := rfl

@[simp] theorem sT_r (st : St K) (v : K) : (sT st v).r = st.r := rfl

@[simp] theorem sT_s (st : St K) (v : K) : (sT st v).s = st.s := rfl

@[simp] theorem sT_x (st : St K) (v : K) : (sT st v).x = st.x := rfl

@[simp] theorem sT_y (st : St K) (v : K) : (sT st v).y = st.y := rfl

@[simp] theorem sT_z (st : St K) (v : K) : (sT st v).z = st.z := rfl

@[simp] theorem sT_w (st : St K) (v : K) : (sT st v).w = st.w := rfl

@[simp] theorem sT_t (st : St K) (v : K) : (sT st v).t = v := rfl

@[simp] theorem sT_exshift (st : St K) (v : K) : (sT st v).exshift = st.exshift := rfl

@[simp] theorem sT_iter (st : St K) (v : K) : (sT st v).iter = st.iter := rfl

@[simp] theorem sT_en (st : St K) (v : K) : (sT st v).en = st.en := rfl

@[simp] theorem sExshift_d (st : St K) (v : K) : (sExshift st v).d = st.d := rfl

@[simp] theorem sExshift_e (st : St K) (v : K) : (sExshift st v).e = st.e := rfl

@[simp] theorem sExshift_ort (st : St K) (v : K) : (sExshift st v).ort = st.ort := rfl

@[simp] theorem sExshift_V (st : St K) (v : K) : (sExshift st v).V = st.V := rfl

@[simp] theorem sExshift_H (st : St K) (v : K) : (sExshift st v).H = st.H := rfl

@[simp] theorem sExshift_p (st : St K) (v : K) : (sExshift st v).p = st.p := rfl

@[simp] theorem sExshift_q (st : St K) (v : K) : (sExshift st v).q = st.q := rfl

@[simp] theorem sExshift_r (st : St K) (v : K) : (sExshift st v).r = st.r := rfl

@[simp] theorem sExshift_s (st : St K) (v : K) : (sExshift st v).s = st.s := rfl

@[simp] theorem sExshift_x (st : St K) (v : K) : (sExshift st v).x = st.x := rfl

@[simp] theorem sExshift_y (st : St K) (v : K) : (sExshift st v).y = st.y := rfl

@[simp] theorem sExshift_z (st : St K) (v : K) : (sExshift st v).z = st.z := rfl

@[simp] theorem sExshift_w (st : St K) (v : K) : (sExshift st v).w = st.w := rfl

@[simp] theorem sExshift_t (st : St K) (v : K) : (sExshift st v).t = st.t := rfl

@[simp] theorem sExshift_exshift (st : St K) (v : K) : (sExshift st v).exshift = v := rfl

@[simp] theorem sExshift_iter (st : St K) (v : K) : (sExshift st v).iter = st.iter := rfl

@[simp] theorem sExshift_en (st : St K) (v : K) : (sExshift st v).en = st.en := rfl

@[simp] theorem sIter_d (st : St K) (v : Int) : (sIter st v).d = st.d := rfl

@[simp] theorem sIter_e (st : St K) (v : Int) : (sIter st v).e = st.e := rfl

@[simp] theorem sIter_ort (st : St K) (v : Int) : (sIter st v).ort = st.ort := rfl

@[simp] theorem sIter_V (st : St K) (v : Int) : (sIter st v).V = st.V := rfl

@[simp] theorem sIter_H (st : St K) (v : Int) : (sIter st v).H = st.H := rfl

@[simp] theorem sIter_p (st : St K) (v : Int) : (sIter st v).p = st.p := rfl

@[simp] theorem sIter_q (st : St K) (v : Int) : (sIter st v).q = st.q := rfl

@[simp] theorem sIter_r (st : St K) (v : Int) : (sIter st v).r = st.r := rfl

@[simp] theorem sIter_s (st : St K) (v : Int) : (sIter st v).s = st.s := rfl

@[simp] theorem sIter_x (st : St K) (v : Int) : (sIter st v).x = st.x := rfl

@[simp] theorem sIter_y (st : St K) (v : Int) : (sIter st v).y = st.y := rfl

@[simp] theorem sIter_z (st : St K) (v : Int) : (sIter st v).z = st.z := rfl

@[simp] theorem sIter_w (st : St K) (v : Int) : (sIter st v).w = st.w := rfl

@[simp] theorem sIter_t (st : St K) (v : Int) : (sIter st v).t = st.t := rfl

@[simp] theorem sIter_exshift (st : St K) (v : Int) : (sIter st v).exshift = st.exshift := rfl

@[simp] theorem sIter_iter (st : St K) (v : Int) : (sIter st v).iter = v := rfl

@[simp] theorem sIter_en (st : St K) (v : Int) : (sIter st v).en = st.en := rfl

@[simp] theorem sEn_d (st : St K) (v : Int) : (sEn st v).d = st.d := rfl

@[simp] theorem sEn_e (st : St K) (v : Int) : (sEn st v).e = st.e := rfl

@[simp] theorem sEn_ort (st : St K) (v : Int) : (sEn st v).ort = st.ort := rfl

@[simp] theorem sEn_V (st : St K) (v : Int) : (sEn st v).V = st.V := rfl

@[simp] theorem sEn_H (st : St K) (v : Int) : (sEn st v).H = st.H := rfl

@[simp] theorem sEn_p (st : St K) (v : Int) : (sEn st v).p = st.p := rfl

@[simp] theorem sEn_q (st : St K) (v : Int) : (sEn st v).q = st.q := rfl

@[simp] theorem sEn_r (st : St K) (v : Int) : (sEn st v).r = st.r := rfl

@[simp] theorem sEn_s (st : St K) (v : Int) : (sEn st v).s = st.s := rfl

@[simp] theorem sEn_x (st : St K) (v : Int) : (sEn st v).x = st.x := rfl

@[simp] theorem sEn_y (st : St K) (v : Int) : (sEn st v).y = st.y := rfl

@[simp] theorem sEn_z (st : St K) (v : Int) : (sEn st v).z = st.z := rfl

@[simp] theorem sEn_w (st : St K) (v : Int) : (sEn st v).w = st.w := rfl

@[simp] theorem sEn_t (st : St K) (v : Int) : (sEn st v).t = st.t := rfl

@[simp] theorem sEn_exshift (st : St K) (v : Int) : (sEn st v).exshift = st.exshift := rfl

@[simp] theorem sEn_iter (st : St K) (v : Int) : (sEn st v).iter = st.iter := rfl

@[simp] theorem sEn_en (st : St K) (v : Int) : (sEn st v).en = v := rfl

/-- Fresh state; value-initialized buffers are modelled as zero. -/
def initSt : St K :=
  { d := fun _ => 0, e := fun _ => 0, ort := fun _ => 0
    V := fun _ _ => 0, H := fun _ _ => 0
    p := 0, q := 0, r := 0, s := 0, x := 0, y := 0, z := 0, w := 0, t := 0
    exshift := 0, iter := 0, en := 0 }

/-- Checked scalar division: the source's `a / b` at the guarded sites. -/
def cdiv (a b : K) : DRes K :=
  if b = 0 then .divZero else .ok (a / b)

/-- Checked complex division `(xr + i*xi) / (yr + i*yi)` (the semantics of
`std::complex<T>::operator/=` in exact arithmetic). -/
def cdivC (xr xi yr yi : K) : DRes (K × K) :=
  if yr * yr + yi * yi = 0 then .divZero
  else .ok ((xr * yr + xi * yi) / (yr * yr + yi * yi),
            (xi * yr - xr * yi) / (yr * yr + yi * yi))

/-! ### tred2 — symmetric Householder reduction to tridiagonal form
    (source lines 211-325) -/

/-- Lines 219-221: `d(j) = V(n-1,j)`. -/
def tred2Init (n : Int) (s : St K) : St K :=
  loopUpP (fun j (t : St K) => sD t (vset t.d j (t.V (n - 1) j))) n.toNat 0 s

/-- Lines 231-233: `scale = Σ_{k<i} |d(k)|`. -/
def tred2Scale (i : Int) (s : St K) : K :=
  foldUpA (fun k acc => acc + |s.d k|) i.toNat 0 0

/-- Lines 234-240: degenerate (zero-scale) branch. -/
def tred2ZeroBr (i : Int) (s : St K) : St K :=
  let s := sE s (vset s.e i (s.d (i - 1)))
  loopUpP (fun j (t : St K) =>
      let t := sD t (vset t.d j (t.V (i - 1) j))
      let t := sV t (mset t.V i j 0)
      sV t (mset t.V j i 0)) i.toNat 0 s

/-- Lines 245-248: scale `d`, accumulating `h = Σ d(k)^2`. -/
def tred2KH (i : Int) (scale : K) (s : St K) : DRes (St K × K) :=
  loopUp (fun k (u : St K × K) =>
      DRes.bind (cdiv (u.1.d k) scale) fun dk =>
      .ok (sD u.1 (vset u.1.d k dk), u.2 + dk * dk)) i.toNat 0
    (s, (0 : K))

/-- Lines 263-272: apply the similarity transformation accumulation pass. -/
def tred2Sim (i : Int) (s : St K) : St K :=
  loopUpP (fun j (t : St K) =>
      let f := t.d j
      let t := sV t (mset t.V j i f)
      let g := t.e j + t.V j j * f
      let u := loopUpP (fun k (v : St K × K) =>
          (sE v.1 (vset v.1.e k (v.1.e k + v.1.V k j * f)),
           v.2 + v.1.V k j * v.1.d k)) (i - 1 - j).toNat (j + 1)
          ((t, g) : St K × K)
      sE u.1 (vset u.1.e j u.2)) i.toNat 0 s

/-- Lines 282-290: rank-2 update of `V` and reload of `d`. -/
def tred2Upd (i : Int) (s : St K) : St K :=
  loopUpP (fun j (t : St K) =>
      let f := t.d j
      let g := t.e j
      let t := loopUpP (fun k (u : St K) =>
          sV u (mset u.V k j (u.V k j - (f * u.e k + g * u.d k))))
          (i - j).toNat j t
      let t := sD t (vset t.d j (t.V (i - 1) j))
      sV t (mset t.V i j 0)) i.toNat 0 s

/-- Lines 241-291: the nonzero-scale branch of one Householder step. -/
def tred2MainBr (i : Int) (scale : K) (s : St K) : DRes (St K) :=
  DRes.bind (tred2KH i scale s) fun sh =>
  let s := sh.1
  let h := sh.2
  let f := s.d (i - 1)
  let g := if 0 < f then -(NumModel.sqrt h) else NumModel.sqrt h
  let s := sE s (vset s.e i (scale * g))
  let h := h - f * g
  let s := sD s (vset s.d (i - 1) (f - g))
  let s := loopUpP (fun j (t : St K) => sE t (vset t.e j 0)) i.toNat 0 s
  let s := tred2Sim i s
  DRes.bind (loopUp (fun j (u : St K × K) =>
      DRes.bind (cdiv (u.1.e j) h) fun ej =>
      .ok (sE u.1 (vset u.1.e j ej), u.2 + ej * u.1.d j)) i.toNat 0
      (s, (0 : K)))
    fun sf =>
  let s := sf.1
  DRes.bind (cdiv sf.2 (h + h)) fun hh =>
  let s := loopUpP (fun j (t : St K) => sE t (vset t.e j (t.e j - hh * t.d j)))
      i.toNat 0 s
  let s := tred2Upd i s
  .ok (sD s (vset s.d i h))

/-- Lines 225-293: one iteration of the Householder reduction (index `i`). -/
def tred2Step (i : Int) (s : St K) : DRes (St K) :=
  let scale := tred2Scale i s
  if scale = 0 then
    let s1 := tred2ZeroBr i s
    .ok (sD s1 (vset s1.d i 0))
  else
    tred2MainBr i scale s

/-- Lines 297-318: one iteration of the accumulation of transformations. -/
def tred2AccStep (n : Int) (i : Int) (s : St K) : DRes (St K) :=
  let s := sV s (mset s.V (n - 1) i (s.V i i))
  let s := sV s (mset s.V i i 1)
  let h := s.d (i + 1)
  DRes.bind
    (if h = 0 then .ok s
     else
       DRes.bind (loopUp (fun k (t : St K) =>
           DRes.bind (cdiv (t.V k (i + 1)) h) fun dk =>
           .ok (sD t (vset t.d k dk))) (i + 1).toNat 0 s) fun s =>
       .ok (loopUpP (fun j (t : St K) =>
           let g := foldUpA (fun k acc => acc + t.V k (i + 1) * t.V k j)
               (i + 1).toNat 0 0
           loopUpP (fun k (u : St K) => sV u (mset u.V k j (u.V k j - g * u.d k)))
               (i + 1).toNat 0 t) (i + 1).toNat 0 s))
    fun s =>
  .ok (loopUpP (fun k (t : St K) => sV t (mset t.V k (i + 1) 0)) (i + 1).toNat 0 s)

/-- Lines 319-324: final reload of `d` and reset of the last row of `V`. -/
def tred2Fin (n : Int) (s : St K) : St K :=
  let s := loopUpP (fun j (t : St K) =>
      let t := sD t (vset t.d j (t.V (n - 1) j))
      sV t (mset t.V (n - 1) j 0)) n.toNat 0 s
  let s := sV s (mset s.V (n - 1) (n - 1) 1)
  sE s (vset s.e 0 0)

/-- `tred2` (source lines 211-325). -/
def tred2 (n : Int) (s : St K) : DRes (St K) :=
  let s := tred2Init n s
  DRes.bind (loopDn tred2Step (n - 1).toNat (n - 1) s) fun s =>
  DRes.bind (loopUp (tred2AccStep n) (n - 1).toNat 0 s) fun s =>
  .ok (tred2Fin n s)

/-! ### tql2 — symmetric tridiagonal QL algorithm (source lines 329-446) -/

/-- Lines 337-340: shift the off-diagonal left by one. -/
def tql2ShiftE (n : Int) (s : St K) : St K :=
  let s := loopUpP (fun i (t : St K) => sE t (vset t.e (i - 1) (t.e i)))
      (n - 1).toNat 1 s
  sE s (vset s.e (n - 1) 0)

/-- Lines 350-356: search for the first small subdiagonal element at or
after `l` (exits with `m = n` when the count runs out, as the C++ loop). -/
def mSearch (e : Int → K) (bound : K) : Nat → Int → Int
  | 0, m => m
  | c + 1, m => if |e m| ≤ bound then m else mSearch e bound c (m + 1)

/-- Carried locals of the implicit-QL plane-rotation loop (lines 386-412);
`sv` is the C++ local `s`. -/
structure Rot (K : Type) where
  st : St K
  c : K
  c2 : K
  c3 : K
  sv : K
  s2 : K
  p : K

/-- Lines 392-412: one plane rotation at index `i`, updating `d`, `e` and
accumulating the rotation into `V`. -/
def tql2RotStep (n : Int) (i : Int) (u : Rot K) : DRes (Rot K) :=
  let c3 := u.c2
  let c2 := u.c
  let s2 := u.sv
  let g := u.c * u.st.e i
  let h := u.c * u.p
  let r := NumModel.hypot u.p (u.st.e i)
  let st := sE u.st (vset u.st.e (i + 1) (u.sv * r))
  DRes.bind (cdiv (st.e i) r) fun sv =>
  DRes.bind (cdiv u.p r) fun c =>
  let p := c * st.d i - sv * g
  let st := sD st (vset st.d (i + 1) (h + sv * (c * g + sv * st.d i)))
  let st := loopUpP (fun k (t : St K) =>
      let hk := t.V k (i + 1)
      let t := sV t (mset t.V k (i + 1) (sv * t.V k i + c * hk))
      sV t (mset t.V k i (c * t.V k i - sv * hk))) n.toNat 0 st
  .ok ⟨st, c, c2, c3, sv, s2, p⟩

/-- Lines 363-415: one pass of the QL do-while body at index `l` with small
subdiagonal index `m`; `f` is the function-level accumulator of lines 342/381
(the iteration counter of line 364 is incremented but never read and is
omitted). -/
def tql2Pass (n l m : Int) (s : St K) (f : K) : DRes (St K × K) :=
  let g := s.d l
  DRes.bind (cdiv (s.d (l + 1) - g) (2 * s.e l)) fun p0 =>
  let r0 := NumModel.hypot p0 1
  let r1 := if p0 < 0 then -r0 else r0
  DRes.bind (cdiv (s.e l) (p0 + r1)) fun dl =>
  let s := sD s (vset s.d l dl)
  let s := sD s (vset s.d (l + 1) (s.e l * (p0 + r1)))
  let dl1 := s.d (l + 1)
  let h := g - s.d l
  let s := loopUpP (fun i (t : St K) => sD t (vset t.d i (t.d i - h)))
      (n - (l + 2)).toNat (l + 2) s
  let f := f + h
  let p := s.d m
  let el1 := s.e (l + 1)
  DRes.bind (loopDn (tql2RotStep n) (m - l).toNat (m - 1) ⟨s, 1, 1, 1, 0, 0, p⟩)
    fun u =>
  let s := u.st
  DRes.bind (cdiv (-u.sv * u.s2 * u.c3 * el1 * s.e l) dl1) fun p2 =>
  let s := sE s (vset s.e l (u.sv * p2))
  let s := sD s (vset s.d l (u.c * p2))
  .ok (s, f)

/-- Lines 363-419: the do-while of `tql2`, with fuel. -/
def tql2DoWhile (n l m : Int) (bound : K) : Nat → St K × K → DRes (St K × K)
  | 0, _ => .fuelOut
  | fu + 1, sf =>
    DRes.bind (tql2Pass n l m sf.1 sf.2) fun sf2 =>
    if bound < |sf2.1.e l| then tql2DoWhile n l m bound fu sf2 else .ok sf2

/-- Lines 345-423: one iteration of the outer eigenvalue loop at index `l`;
the carried pair after the state is `(f, tst1)`. -/
def tql2LStep (n : Int) (fuel : Nat) (l : Int) (u : St K × K × K) :
    DRes (St K × K × K) :=
  let s := u.1
  let tst1 := max u.2.2 (|s.d l| + |s.e l|)
  let m := mSearch s.e ((NumModel.eps : K) * tst1) (n - l).toNat l
  DRes.bind
    (if l < m then tql2DoWhile n l m ((NumModel.eps : K) * tst1) fuel (s, u.2.1)
     else .ok (s, u.2.1)) fun sf =>
  let s := sf.1
  let s := sD s (vset s.d l (s.d l + sf.2))
  let s := sE s (vset s.e l 0)
  .ok (s, sf.2, tst1)

/-- Lines 430-435: selection of the minimal remaining eigenvalue. -/
def sortMin (d : Int → K) : Nat → Int → Int × K → Int × K
  | 0, _, kp => kp
  | c + 1, j, kp =>
    sortMin d c (j + 1) (if d j < kp.2 then (j, d j) else kp)

/-- Lines 427-445: one step of the final ascending selection sort, swapping
the matching columns of `V`. -/
def tql2SortStep (n : Int) (i : Int) (s : St K) : St K :=
  let kp := sortMin s.d (n - (i + 1)).toNat (i + 1) (i, s.d i)
  if kp.1 ≠ i then
    let s := sD s (vset s.d kp.1 (s.d i))
    let s := sD s (vset s.d i kp.2)
    loopUpP (fun j (t : St K) =>
        let pj := t.V j i
        let t := sV t (mset t.V j i (t.V j kp.1))
        sV t (mset t.V j kp.1 pj)) n.toNat 0 s
  else s

/-- `tql2` (source lines 329-446). -/
def tql2 (n : Int) (fuel : Nat) (s : St K) : DRes (St K) :=
  let s := tql2ShiftE n s
  DRes.bind (loopUp (tql2LStep n fuel) n.toNat 0 (s, (0 : K), (0 : K))) fun u =>
  .ok (loopUpP (tql2SortStep n) (n - 1).toNat 0 u.1)

/-! ### orthes — nonsymmetric reduction to Hessenberg form
    (source lines 450-541) -/

/-- Lines 465-468: `scale = Σ_{i=m..high} |H(i,m-1)|`. -/
def orthesScale (high m : Int) (s : St K) : K :=
  foldUpA (fun i acc => acc + |s.H i (m - 1)|) (high - m + 1).toNat m 0

/-- Lines 461-512: one Householder column elimination at index `m`. -/
def orthesStep (n high : Int) (m : Int) (s : St K) : DRes (St K) :=
  let scale := orthesScale high m s
  if scale = 0 then .ok s
  else
    DRes.bind (loopDn (fun i (u : St K × K) =>
        DRes.bind (cdiv (u.1.H i (m - 1)) scale) fun oi =>
        .ok (sOrt u.1 (vset u.1.ort i oi), u.2 + oi * oi))
        (high - m + 1).toNat high (s, (0 : K))) fun u =>
    let s := u.1
    let h := u.2
    let g := if 0 < s.ort m then -(NumModel.sqrt h) else NumModel.sqrt h
    let h := h - s.ort m * g
    let s := sOrt s (vset s.ort m (s.ort m - g))
    DRes.bind (loopUp (fun j (t : St K) =>
        let f := foldDnA (fun i acc => acc + t.ort i * t.H i j)
            (high - m + 1).toNat high 0
        DRes.bind (cdiv f h) fun f =>
        .ok (loopUpP (fun i (u2 : St K) =>
            sH u2 (mset u2.H i j (u2.H i j - f * u2.ort i)))
            (high - m + 1).toNat m t)) (n - m).toNat m s) fun s =>
    DRes.bind (loopUp (fun i (t : St K) =>
        let f := foldDnA (fun j acc => acc + t.ort j * t.H i j)
            (high - m + 1).toNat high 0
        DRes.bind (cdiv f h) fun f =>
        .ok (loopUpP (fun j (u2 : St K) =>
            sH u2 (mset u2.H i j (u2.H i j - f * u2.ort j)))
            (high - m + 1).toNat m t)) (high + 1).toNat 0 s) fun s =>
    let s := sOrt s (vset s.ort m (scale * s.ort m))
    .ok (sH s (mset s.H m (m - 1) (scale * g)))

/-- Lines 523-540: reapply the stored reflections in reverse order to
accumulate the orthogonal transform into `V` (Algol's `ortran`). -/
def ortranStep (high : Int) (m : Int) (s : St K) : DRes (St K) :=
  if s.H m (m - 1) = 0 then .ok s
  else
    let s := loopUpP (fun i (t : St K) => sOrt t (vset t.ort i (t.H i (m - 1))))
        (high - m).toNat (m + 1) s
    loopUp (fun j (t : St K) =>
        let g := foldUpA (fun i acc => acc + t.ort i * t.V i j)
            (high - m + 1).toNat m 0
        DRes.bind (cdiv g (t.ort m)) fun g1 =>
        DRes.bind (cdiv g1 (t.H m (m - 1))) fun g2 =>
        .ok (loopUpP (fun i (u2 : St K) =>
            sV u2 (mset u2.V i j (u2.V i j + g2 * u2.ort i)))
            (high - m + 1).toNat m t)) (high - m + 1).toNat m s

/-- `orthes` (source lines 450-541); `V` is set to `identity_matrix(n)`
between the reduction and the accumulation. -/
def orthes (n : Int) (s : St K) : DRes (St K) :=
  let high := n - 1
  DRes.bind (loopUp (orthesStep n high) (high - 1).toNat 1 s) fun s =>
  let s := sV s (fun i j => if i = j ∧ 0 ≤ i ∧ i < n then 1 else 0)
  loopDn (ortranStep high) (high - 1).toNat (high - 1) s

/-! ### hqr2 — nonsymmetric reduction from Hessenberg to real Schur form
    (source lines 546-995).  All state-carried C++ locals
    (`p q r s x y z w t exshift iter` and the active index `n`, stored as
    `en`) live in `St`. -/

/-- Lines 564-575: store roots isolated by `balanc` (vacuous for
`low = 0, high = nn-1`, kept as written) and accumulate the matrix norm. -/
def hqr2Norm (nn low high : Int) (s : St K) : St K × K :=
  loopUpP (fun i (u : St K × K) =>
      let s := if i < low ∨ high < i then
          let s1 := sD u.1 (vset u.1.d i (u.1.H i i))
          sE s1 (vset s1.e i 0)
        else u.1
      (s, foldUpA (fun j acc => acc + |s.H i j|)
          (nn - max (i - 1) 0).toNat (max (i - 1) 0) u.2))
    nn.toNat 0 (s, (0 : K))

/-- Lines 584-594: search downward from the active index for a small
subdiagonal element; the local `s` persists in the state. -/
def lSearch (norm : K) : Nat → Int → St K → Int × St K
  | 0, l, st => (l, st)
  | c + 1, l, st =>
    let sv := |st.H (l - 1) (l - 1)| + |st.H l l|
    let sv := if sv = 0 then norm else sv
    let st := sS st (sv)
    if |st.H l (l - 1)| < (NumModel.eps : K) * sv then (l, st)
    else lSearch norm c (l - 1) st

/-- Lines 599-604: deflate one real root. -/
def oneRoot (st : St K) : St K :=
  let n := st.en
  let st := sH st (mset st.H n n (st.H n n + st.exshift))
  let st := sD st (vset st.d n (st.H n n))
  let st := sE st (vset st.e n 0)
  sIter (sEn st (n - 1)) 0

/-- Lines 610-622: the prefix of the two-root deflation: discriminant
`q = p^2 + w`, `z = sqrt(|q|)`, exshift applied to the trailing 2x2 block,
`x = H(n,n)`. -/
def twoRootsPre (st0 : St K) : St K :=
  let n := st0.en
  let st := sW st0 (st0.H n (n - 1) * st0.H (n - 1) n)
  let st := sP st ((st.H (n - 1) (n - 1) - st.H n n) / 2)
  let st := sQ st (st.p * st.p + st.w)
  let st := sZ st (NumModel.sqrt (|st.q|))
  let st := sH st (mset st.H n n (st.H n n + st.exshift))
  let st := sH st (mset st.H (n - 1) (n - 1) (st.H (n - 1) (n - 1) + st.exshift))
  sX st (st.H n n)

/-- Lines 625-661: the real-pair branch of the two-root deflation. -/
def twoRootsReal (nn low high n : Int) (st1 : St K) : St K :=
  let st := sZ st1 (if 0 ≤ st1.p then st1.p + st1.z else st1.p - st1.z)
  let st := sD st (vset st.d (n - 1) (st.x + st.z))
  let st := sD st (vset st.d n (st.d (n - 1)))
  let st := if st.z ≠ 0 then sD st (vset st.d n (st.x - st.w / st.z))
    else st
  let st := sE st (vset st.e (n - 1) 0)
  let st := sE st (vset st.e n 0)
  let st := sX st (st.H n (n - 1))
  let st := sS st (|st.x| + |st.z|)
  let st := sP st (st.x / st.s)
  let st := sQ st (st.z / st.s)
  let st := sR st (NumModel.sqrt (st.p * st.p + st.q * st.q))
  let st := sP st (st.p / st.r)
  let st := sQ st (st.q / st.r)
  let st := loopUpP (fun j (t : St K) =>
      let t := sZ t (t.H (n - 1) j)
      let t := sH t (mset t.H (n - 1) j (t.q * t.z + t.p * t.H n j))
      let t := sH t (mset t.H n j (t.H n j * t.q))
      sH t (mset t.H n j (t.H n j - t.p * t.z)))
      (nn - (n - 1)).toNat (n - 1) st
  let st := loopUpP (fun i (t : St K) =>
      let t := sZ t (t.H i (n - 1))
      let t := sH t (mset t.H i (n - 1) (t.q * t.z + t.p * t.H i n))
      let t := sH t (mset t.H i n (t.H i n * t.q))
      sH t (mset t.H i n (t.H i n - t.p * t.z))) (n + 1).toNat 0 st
  loopUpP (fun i (t : St K) =>
      let t := sZ t (t.V i (n - 1))
      let t := sV t (mset t.V i (n - 1) (t.q * t.z + t.p * t.V i n))
      let t := sV t (mset t.V i n (t.V i n * t.q))
      sV t (mset t.V i n (t.V i n - t.p * t.z)))
      (high - low + 1).toNat low st

/-- Lines 664-668: the complex-pair branch of the two-root deflation. -/
def twoRootsCplx (n : Int) (st1 : St K) : St K :=
  let st := sD st1 (vset st1.d (n - 1) (st1.x + st1.p))
  let st := sD st (vset st.d n (st.x + st.p))
  let st := sE st (vset st.e (n - 1) st.z)
  sE st (vset st.e n (-st.z))

/-- Lines 608-676: deflate two roots — a real pair when the discriminant
`q` is nonnegative, otherwise a complex-conjugate pair recorded as
`e(n-1) = z`, `e(n) = -z`. -/
def twoRoots (nn low high : Int) (st0 : St K) : St K :=
  let n := st0.en
  let st := twoRootsPre st0
  let st := if 0 ≤ st.q then twoRootsReal nn low high n st
    else twoRootsCplx n st
  sIter (sEn st (n - 2)) 0

/-- Lines 682-724: form the shift, apply Wilkinson's ad hoc shift after 10
iterations and MATLAB's ad hoc shift after 30, and bump the counter. -/
def formShift (low l : Int) (st0 : St K) : St K :=
  let n := st0.en
  let st := sX st0 (st0.H n n)
  let st := sW (sY st 0) 0
  let st := if l < n then
      let st := sY st (st.H (n - 1) (n - 1))
      sW st (st.H n (n - 1) * st.H (n - 1) n)
    else st
  let st := if st.iter = 10 then
      let st := sExshift st (st.exshift + st.x)
      let st := loopUpP (fun i (t : St K) =>
          sH t (mset t.H i i (t.H i i - st.x))) (n - low + 1).toNat low st
      let st := sS st (|st.H n (n - 1)| + |st.H (n - 1) (n - 2)|)
      -- 0.75 = 3/4, -0.4375 = -(7/16)
      let st := sY st ((3 / 4 : K) * st.s)
      let st := sX st ((3 / 4 : K) * st.s)
      sW st (-(7 / 16 : K) * st.s * st.s)
    else st
  let st := if st.iter = 30 then
      let st := sS st ((st.y - st.x) / 2)
      let st := sS st (st.s * st.s)
      let st := sS st (st.s + st.w)
      if 0 < st.s then
        let st := sS st (NumModel.sqrt st.s)
        let st := if st.y < st.x then sS st (-st.s) else st
        let st := sS st (st.x - st.w / ((st.y - st.x) / 2 + st.s))
        let st := loopUpP (fun i (t : St K) =>
            sH t (mset t.H i i (t.H i i - st.s))) (n - low + 1).toNat low st
        let st := sExshift st (st.exshift + st.s)
        -- 0.964 = 241/250
        sW (sY (sX st (241 / 250 : K)) (241 / 250 : K)) (241 / 250 : K)
      else st
    else st
  sIter st (st.iter + 1)

/-- Lines 728-749: backward search for two consecutive small subdiagonal
elements locating the bulge-chase start. -/
def hqr2MSearch (l : Int) : Nat → Int → St K → Int × St K
  | 0, m, st => (m, st)
  | c + 1, m, st =>
    let st := sZ st (st.H m m)
    let st := sR st (st.x - st.z)
    let st := sS st (st.y - st.z)
    let st := sP st ((st.r * st.s - st.w) / st.H (m + 1) m + st.H m (m + 1))
    let st := sQ st (st.H (m + 1) (m + 1) - st.z - st.r - st.s)
    let st := sR st (st.H (m + 2) (m + 1))
    let st := sS st (|st.p| + |st.q| + |st.r|)
    let st := sP st (st.p / st.s)
    let st := sQ st (st.q / st.s)
    let st := sR st (st.r / st.s)
    if m = l then (m, st)
    else if |st.H m (m - 1)| * (|st.q| + |st.r|) <
        (NumModel.eps : K) *
          (|st.p| * (|st.H (m - 1) (m - 1)| + |st.z| + |st.H (m + 1) (m + 1)|))
      then (m, st)
    else hqr2MSearch l c (m - 1) st

/-- Lines 751-756: clear the entries below the bulge path. -/
def hqr2ZeroOut (m n : Int) (st : St K) : St K :=
  loopUpP (fun i (t : St K) =>
      let t := sH t (mset t.H i (i - 2) 0)
      if m + 2 < i then sH t (mset t.H i (i - 3) 0) else t)
    (n - (m + 2) + 1).toNat (m + 2) st

/-- Lines 774-826: the common tail of one bulge-chase column `k` (after the
`continue` test), applying the double-shift row/column/accumulation updates. -/
def hqr2KCore (nn low high l m n k : Int) (st : St K) : St K :=
  let st := sS st (NumModel.sqrt (st.p * st.p + st.q * st.q + st.r * st.r))
  let st := if st.p < 0 then sS st (-st.s) else st
  if st.s = 0 then st
  else
    let st := if k ≠ m then sH st (mset st.H k (k - 1) (-st.s * st.x))
      else if l ≠ m then sH st (mset st.H k (k - 1) (-(st.H k (k - 1))))
      else st
    let st := sP st (st.p + st.s)
    let st := sX st (st.p / st.s)
    let st := sY st (st.q / st.s)
    let st := sZ st (st.r / st.s)
    let st := sQ st (st.q / st.p)
    let st := sR st (st.r / st.p)
    let st := loopUpP (fun j (t : St K) =>
        let t := sP t (t.H k j + t.q * t.H (k + 1) j)
        let t := if k ≠ n - 1 then
            let t := sP t (t.p + t.r * t.H (k + 2) j)
            sH t (mset t.H (k + 2) j (t.H (k + 2) j - t.p * t.z))
          else t
        let t := sH t (mset t.H k j (t.H k j - t.p * t.x))
        sH t (mset t.H (k + 1) j (t.H (k + 1) j - t.p * t.y)))
        (nn - k).toNat k st
    let st := loopUpP (fun i (t : St K) =>
        let t := sP t (t.x * t.H i k + t.y * t.H i (k + 1))
        let t := if k ≠ n - 1 then
            let t := sP t (t.p + t.z * t.H i (k + 2))
            sH t (mset t.H i (k + 2) (t.H i (k + 2) - t.p * t.r))
          else t
        let t := sH t (mset t.H i k (t.H i k - t.p))
        sH t (mset t.H i (k + 1) (t.H i (k + 1) - t.p * t.q)))
        (min n (k + 3) + 1).toNat 0 st
    loopUpP (fun i (t : St K) =>
        let t := sP t (t.x * t.V i k + t.y * t.V i (k + 1))
        let t := if k ≠ n - 1 then
            let t := sP t (t.p + t.z * t.V i (k + 2))
            sV t (mset t.V i (k + 2) (t.V i (k + 2) - t.p * t.r))
          else t
        let t := sV t (mset t.V i k (t.V i k - t.p))
        sV t (mset t.V i (k + 1) (t.V i (k + 1) - t.p * t.q)))
        (high - low + 1).toNat low st

/-- Lines 760-827: one bulge-chase column, including the `continue` on a
vanishing column (line 768). -/
def hqr2KStep (nn low high l m n k : Int) (st : St K) : St K :=
  if k ≠ m then
    let st := sP st (st.H k (k - 1))
    let st := sQ st (st.H (k + 1) (k - 1))
    let st := sR st (if k ≠ n - 1 then st.H (k + 2) (k - 1) else 0)
    let st := sX st (|st.p| + |st.q| + |st.r|)
    if st.x = 0 then st
    else
      let st := sP st (st.p / st.x)
      let st := sQ st (st.q / st.x)
      let st := sR st (st.r / st.x)
      hqr2KCore nn low high l m n k st
  else hqr2KCore nn low high l m n k st

/-- Lines 580-829: one iteration of the outer deflation loop. -/
def hqr2OuterStep (nn low high : Int) (norm : K) (st : St K) : St K :=
  let n := st.en
  let ls := lSearch norm (n - low).toNat n st
  let l := ls.1
  let st := ls.2
  if l = n then oneRoot st
  else if l = n - 1 then twoRoots nn low high st
  else
    let st := formShift low l st
    let ms := hqr2MSearch l (n - 1 - l).toNat (n - 2) st
    let m := ms.1
    let st := hqr2ZeroOut m n ms.2
    loopUpP (hqr2KStep nn low high l m n) (n - m).toNat m st

/-- Lines 580-829: the outer `while (n >= low)` loop, with fuel. -/
def hqr2Loop (nn low high : Int) (norm : K) : Nat → St K → DRes (St K)
  | 0, st => if low ≤ st.en then .fuelOut else .ok st
  | fu + 1, st =>
    if low ≤ st.en then
      hqr2Loop nn low high norm fu (hqr2OuterStep nn low high norm st)
    else .ok st

/-- Lines 846-888: one row of real-eigenvector back-substitution at row `i`
for eigenvector index `n`; the carried `Int` is the block-local `l`. -/
def realVecStep (norm : K) (n : Int) (i : Int) (u : St K × Int) : St K × Int :=
  let st := u.1
  let l := u.2
  let st := sW st (st.H i i - st.p)
  let st := sR st (foldUpA (fun j acc => acc + st.H i j * st.H j n) (n - l + 1).toNat l 0)
  if st.e i < 0 then
    let st := sZ st (st.w)
    (sS st (st.r), l)
  else
    let l := i
    let st :=
      if st.e i = 0 then
        if st.w ≠ 0 then sH st (mset st.H i n (-st.r / st.w))
        else sH st (mset st.H i n (-st.r / ((NumModel.eps : K) * norm)))
      else
        let st := sX st (st.H i (i + 1))
        let st := sY st (st.H (i + 1) i)
        let st := sQ st ((st.d i - st.p) * (st.d i - st.p) + st.e i * st.e i)
        let st := sT st ((st.x * st.s - st.z * st.r) / st.q)
        let st := sH st (mset st.H i n st.t)
        if |st.z| < |st.x| then
          sH st (mset st.H (i + 1) n ((-st.r - st.w * st.t) / st.x))
        else
          sH st (mset st.H (i + 1) n ((-st.s - st.y * st.t) / st.z))
    let st := sT st (|st.H i n|)
    let st := if 1 < ((NumModel.eps : K) * st.t) * st.t then
        loopUpP (fun j (t2 : St K) =>
            sH t2 (mset t2.H j n (t2.H j n / st.t))) (n - i + 1).toNat i st
      else st
    (st, l)

/-- Lines 895-906: the triangular 2x2 start of a complex-vector
back-substitution (checked divisions: part of the complex solve). -/
def cplxVecPre (n : Int) (st : St K) : DRes (St K) :=
  if |st.H (n - 1) n| < |st.H n (n - 1)| then
    DRes.bind (cdiv st.q (st.H n (n - 1))) fun a =>
    let st := sH st (mset st.H (n - 1) (n - 1) a)
    DRes.bind (cdiv (-(st.H n n - st.p)) (st.H n (n - 1))) fun b =>
    .ok (sH st (mset st.H (n - 1) n b))
  else
    DRes.bind (cdivC 0 (-(st.H (n - 1) n)) (st.H (n - 1) (n - 1) - st.p) st.q)
      fun ab =>
    let st := sH st (mset st.H (n - 1) (n - 1) ab.1)
    .ok (sH st (mset st.H (n - 1) n ab.2))

/-- Lines 960-968: overflow control of the complex back-substitution. -/
def cplxOverflow (n i : Int) (st : St K) : DRes (St K) :=
  let st := sT st (max (|st.H i (n - 1)|) (|st.H i n|))
  if 1 < ((NumModel.eps : K) * st.t) * st.t then
    loopUp (fun j (t2 : St K) =>
        DRes.bind (cdiv (t2.H j (n - 1)) st.t) fun a =>
        let t2 := sH t2 (mset t2.H j (n - 1) a)
        DRes.bind (cdiv (t2.H j n) st.t) fun b =>
        .ok (sH t2 (mset t2.H j n b))) (n - i + 1).toNat i st
  else .ok st

/-- Lines 909-970: one row of complex-eigenvector back-substitution (the
2x2 complex solve; checked divisions). -/
def cplxVecStep (norm : K) (n : Int) (i : Int) (u : St K × Int) :
    DRes (St K × Int) :=
  let st := u.1
  let l := u.2
  let ra := foldUpA (fun j acc => acc + st.H i j * st.H j (n - 1))
      (n - l + 1).toNat l 0
  let sa := foldUpA (fun j acc => acc + st.H i j * st.H j n)
      (n - l + 1).toNat l 0
  let st := sW st (st.H i i - st.p)
  if st.e i < 0 then
    let st := sZ st (st.w)
    let st := sR st (ra)
    .ok (sS st (sa), l)
  else
    let l := i
    DRes.bind
      (if st.e i = 0 then
        DRes.bind (cdivC (-ra) (-sa) st.w st.q) fun ab =>
        let st := sH st (mset st.H i (n - 1) ab.1)
        .ok (sH st (mset st.H i n ab.2))
      else
        let st := sX st (st.H i (i + 1))
        let st := sY st (st.H (i + 1) i)
        let vr0 := (st.d i - st.p) * (st.d i - st.p) + st.e i * st.e i
            - st.q * st.q
        let vi := (st.d i - st.p) * 2 * st.q
        let vr := if vr0 = 0 ∧ vi = 0 then
            (NumModel.eps : K) * norm *
              (|st.w| + |st.q| + |st.x| + |st.y| + |st.z|)
          else vr0
        DRes.bind (cdivC (st.x * st.r - st.z * ra + st.q * sa)
            (st.x * st.s - st.z * sa - st.q * ra) vr vi) fun ab =>
        let st := sH st (mset st.H i (n - 1) ab.1)
        let st := sH st (mset st.H i n ab.2)
        if |st.z| + |st.q| < |st.x| then
          DRes.bind (cdiv (-ra - st.w * st.H i (n - 1) + st.q * st.H i n) st.x)
            fun h1 =>
          let st := sH st (mset st.H (i + 1) (n - 1) h1)
          DRes.bind (cdiv (-sa - st.w * st.H i n - st.q * st.H i (n - 1)) st.x)
            fun h2 =>
          .ok (sH st (mset st.H (i + 1) n h2))
        else
          DRes.bind (cdivC (-st.r - st.y * st.H i (n - 1))
              (-st.s - st.y * st.H i n) st.z st.q) fun ab2 =>
          let st := sH st (mset st.H (i + 1) (n - 1) ab2.1)
          .ok (sH st (mset st.H (i + 1) n ab2.2))) fun st =>
    DRes.bind (cplxOverflow n i st) fun st =>
    .ok (st, l)

/-- Lines 837-972: back-substitution for eigenvector index `n` (the reused
outer loop variable of line 837). -/
def phase2Step (norm : K) (n : Int) (st : St K) : DRes (St K) :=
  let st := sP st (st.d n)
  let st := sQ st (st.e n)
  if st.q = 0 then
    let st := sH st (mset st.H n n 1)
    .ok (loopDnP (realVecStep norm n) n.toNat (n - 1) (st, n)).1
  else if st.q < 0 then
    DRes.bind (cplxVecPre n st) fun st =>
    let st := sH st (mset st.H n (n - 1) 0)
    let st := sH st (mset st.H n n 1)
    DRes.bind (loopDn (cplxVecStep norm n) (n - 1).toNat (n - 2) (st, n - 1))
      fun u =>
    .ok u.1
  else .ok st

/-- Lines 974-994: copy vectors of isolated roots (vacuous for
`low = 0, high = nn-1`, kept as written) and back-transform into the
original basis. -/
def phase3 (nn low high : Int) (st : St K) : St K :=
  let st := loopUpP (fun i (t : St K) =>
      if i < low ∨ high < i then
        loopUpP (fun j (u : St K) => sV u (mset u.V i j (u.H i j)))
          (nn - i).toNat i t
      else t) nn.toNat 0 st
  loopDnP (fun j (t : St K) =>
      loopUpP (fun i (u : St K) =>
          let zv := foldUpA (fun k acc => acc + u.V i k * u.H k j)
              (min j high - low + 1).toNat low 0
          sZ (sV u (mset u.V i j zv)) zv) (high - low + 1).toNat low t)
      (nn - low).toNat (nn - 1) st

/-- `hqr2` (source lines 546-995). -/
def hqr2 (nn : Int) (fuel : Nat) (st : St K) : DRes (St K) :=
  let low := (0 : Int)
  let high := nn - 1
  let st := sIter (sZ (sS (sR (sQ (sP (sExshift (sEn st (nn - 1)) 0) 0) 0) 0) 0) 0) 0
  let pr := hqr2Norm nn low high st
  let st := pr.1
  let norm := pr.2
  DRes.bind (hqr2Loop nn low high norm fuel st) fun st =>
  if norm = 0 then .ok st
  else
    DRes.bind (loopDn (phase2Step norm) nn.toNat (nn - 1) st) fun st =>
    .ok (phase3 nn low high st)

/-! ### Constructors, accessors (source lines 125-185, 1001-1121) -/

/-- The symmetry test of `boost::numeric::ublas::is_symmetric` at
constructor line 1020: exact elementwise equality with the transpose
(the tolerance-free check also spelled out in the commented-out loop of
lines 1014-1019). -/
def symCheck (A : Int → Int → K) (n : Int) : Bool :=
  decide (∀ i ∈ Finset.Ico (0 : Int) n, ∀ j ∈ Finset.Ico (0 : Int) n,
    A i j = A j i)

/-- Copy of the `n × n` window of `A` into a freshly resized zero buffer
(the elementwise copies at lines 1023 and 1035-1039). -/
def copyIn (A : Int → Int → K) (n : Int) : Int → Int → K :=
  fun i j => if 0 ≤ i ∧ i < n ∧ 0 ≤ j ∧ j < n then A i j else 0

/-- The outcome of a completed construction: the dimension, the stored
symmetry flag (`isSymmetric()`) and the final working state, whose `d`, `e`
and `V` components are what `getRealEigenvalues()`, `getImagEigenvalues()`
and `getV()` return. -/
structure Res (K : Type) where
  n : Int
  issymmetric : Bool
  st : St K

/-- The general-matrix constructor (source lines 1006-1047): check the
shape, classify, and run exactly one of the two pipelines. -/
def construct (rows cols : Int) (A : Int → Int → K) (fuel : Nat) :
    DRes (Res K) :=
  if rows = cols then
    let n := cols
    if symCheck A n then
      DRes.bind (DRes.bind (tred2 n (sV initSt (copyIn A n))) (tql2 n fuel))
        fun st => .ok ⟨n, true, st⟩
    else
      DRes.bind (DRes.bind (orthes n (sH initSt (copyIn A n))) (hqr2 n fuel))
        fun st => .ok ⟨n, false, st⟩
  else .badSize

/-- The `SymmetricMatrix` constructor (source lines 1049-1065): the check is
skipped, the flag forced true (a `symmetric_matrix` is square by
construction, so the shape check of line 1051 always passes). -/
def constructSym (n : Int) (A : Int → Int → K) (fuel : Nat) : DRes (Res K) :=
  DRes.bind (DRes.bind (tred2 n (sV initSt (copyIn A n))) (tql2 n fuel))
    fun st => .ok ⟨n, true, st⟩

/-- One row of `getD` (source lines 1108-1115): write the diagonal entry and
conditionally one off-diagonal entry. -/
def getDBody (st : St K) (i : Int) (D : Int → Int → K) : Int → Int → K :=
  let D1 := mset D i i (st.d i)
  if 0 < st.e i then mset D1 i (i + 1) (st.e i)
  else if st.e i < 0 then mset D1 i (i - 1) (st.e i)
  else D1

/-- `getD` (source lines 1104-1117): synthesize the block-diagonal matrix
from `d` and `e` on a cleared `n × n` buffer. -/
def getD (n : Int) (st : St K) : Int → Int → K :=
  loopUpP (getDBody st) n.toNat 0 (fun _ _ => 0)

/-! Projections of a construction outcome, used to state hypothesis-free
facts about concrete runs. -/

/-- Did construction complete? -/
def resOk {K : Type} (x : DRes (Res K)) : Bool :=
  match x with
  | .ok _ => true
  | _ => false

/-- Did construction end in the checked-division error? -/
def resDivZero {K : Type} (x : DRes (Res K)) : Bool :=
  match x with
  | .divZero => true
  | _ => false

/-- The completed outcome (or a default). -/
def resGet {K : Type} (x : DRes (Res K)) (dflt : Res K) : Res K :=
  match x with
  | .ok r => r
  | _ => dflt

theorem resOk_eq_ok {K : Type} (x : DRes (Res K)) (dflt : Res K)
    (h : resOk x = true) : x = .ok (resGet x dflt) := by
  cases x <;> simp_all [resOk, resGet]

/-! ### Generic facts about the loop combinators -/

theorem bind_eq_ok {σ τ : Type} {x : DRes σ} {f : σ → DRes τ} {b : τ}
    (h : DRes.bind x f = .ok b) : ∃ a, x = .ok a ∧ f a = .ok b := by
  cases x <;> simp_all [DRes.bind]

theorem bind_ne_divZero {σ τ : Type} {x : DRes σ} {f : σ → DRes τ}
    (hx : x ≠ .divZero) (hf : ∀ a, x = .ok a → f a ≠ .divZero) :
    DRes.bind x f ≠ .divZero := by
  cases x <;> simp_all [DRes.bind]

/-- Ok-preservation with an indexed invariant for ascending loops. -/
theorem loopUp_ok_invar {σ : Type} (f : Int → σ → DRes σ) (P : Int → σ → Prop)
    (hf : ∀ i s, P i s → ∃ s', f i s = .ok s' ∧ P (i + 1) s') :
    ∀ c i s, P i s → ∃ s', loopUp f c i s = .ok s' ∧ P (i + c) s' := by
  intro c
  induction c with
  | zero => intro i s hP; exact ⟨s, rfl, by simpa using hP⟩
  | succ c ih =>
    intro i s hP
    obtain ⟨s1, hf1, hP1⟩ := hf i s hP
    obtain ⟨s', hl, hP'⟩ := ih (i + 1) s1 hP1
    refine ⟨s', ?_, ?_⟩
    · simp [loopUp, hf1, hl]
    · have : i + 1 + (c : Int) = i + ((c : Int) + 1) := by ring
      rw [this] at hP'
      simpa [Int.add_comm] using hP'

/-- Ok-preservation with an indexed invariant for descending loops. -/
theorem loopDn_ok_invar {σ : Type} (f : Int → σ → DRes σ) (P : Int → σ → Prop)
    (hf : ∀ i s, P i s → ∃ s', f i s = .ok s' ∧ P (i - 1) s') :
    ∀ c i s, P i s → ∃ s', loopDn f c i s = .ok s' ∧ P (i - c) s' := by
  intro c
  induction c with
  | zero => intro i s hP; exact ⟨s, rfl, by simpa using hP⟩
  | succ c ih =>
    intro i s hP
    obtain ⟨s1, hf1, hP1⟩ := hf i s hP
    obtain ⟨s', hl, hP'⟩ := ih (i - 1) s1 hP1
    refine ⟨s', ?_, ?_⟩
    · simp [loopDn, hf1, hl]
    · have : i - 1 - (c : Int) = i - ((c : Int) + 1) := by ring
      rw [this] at hP'
      simpa using hP'

/-- Invariant preservation for pure ascending loops. -/
theorem loopUpP_invar {σ : Type} (f : Int → σ → σ) (P : Int → σ → Prop)
    (hf : ∀ i s, P i s → P (i + 1) (f i s)) :
    ∀ (c : Nat) i s, P i s → P (i + (c : Int)) (loopUpP f c i s) := by
  intro c
  induction c with
  | zero => intro i s hP; simpa using hP
  | succ c ih =>
    intro i s hP
    have := ih (i + 1) (f i s) (hf i s hP)
    have harith : i + 1 + (c : Int) = i + ((c : Int) + 1) := by ring
    rw [harith] at this
    simpa [loopUpP, Int.add_comm] using this

/-- Invariant preservation for pure descending loops. -/
theorem loopDnP_invar {σ : Type} (f : Int → σ → σ) (P : Int → σ → Prop)
    (hf : ∀ i s, P i s → P (i - 1) (f i s)) :
    ∀ (c : Nat) i s, P i s → P (i - (c : Int)) (loopDnP f c i s) := by
  intro c
  induction c with
  | zero => intro i s hP; simpa using hP
  | succ c ih =>
    intro i s hP
    have := ih (i - 1) (f i s) (hf i s hP)
    have harith : i - 1 - (c : Int) = i - ((c : Int) + 1) := by ring
    rw [harith] at this
    simpa [loopDnP] using this

/-- Plain (index-free) invariant preservation for pure ascending loops. -/
theorem loopUpP_pres {σ : Type} (f : Int → σ → σ) (P : σ → Prop)
    (hf : ∀ i s, P s → P (f i s)) :
    ∀ c i s, P s → P (loopUpP f c i s) := by
  intro c i s hP
  exact loopUpP_invar f (fun _ t => P t) (fun i s h => hf i s h) c i s hP

/-- Plain invariant preservation for pure descending loops. -/
theorem loopDnP_pres {σ : Type} (f : Int → σ → σ) (P : σ → Prop)
    (hf : ∀ i s, P s → P (f i s)) :
    ∀ c i s, P s → P (loopDnP f c i s) := by
  intro c i s hP
  exact loopDnP_invar f (fun _ t => P t) (fun i s h => hf i s h) c i s hP

/-- An ascending loop whose body always succeeds (with plain preservation). -/
theorem loopUp_ok_pres {σ : Type} (f : Int → σ → DRes σ) (P : σ → Prop)
    (hf : ∀ i s, P s → ∃ s', f i s = .ok s' ∧ P s') :
    ∀ c i s, P s → ∃ s', loopUp f c i s = .ok s' ∧ P s' := by
  intro c i s hP
  obtain ⟨s', h1, h2⟩ :=
    loopUp_ok_invar f (fun _ t => P t) (fun i s h => hf i s h) c i s hP
  exact ⟨s', h1, h2⟩

/-- A descending loop whose body always succeeds (plain preservation). -/
theorem loopDn_ok_pres {σ : Type} (f : Int → σ → DRes σ) (P : σ → Prop)
    (hf : ∀ i s, P s → ∃ s', f i s = .ok s' ∧ P s') :
    ∀ c i s, P s → ∃ s', loopDn f c i s = .ok s' ∧ P s' := by
  intro c i s hP
  obtain ⟨s', h1, h2⟩ :=
    loopDn_ok_invar f (fun _ t => P t) (fun i s h => hf i s h) c i s hP
  exact ⟨s', h1, h2⟩

/-- Divisions aside, a loop body that never yields `divZero` under an
invariant keeps the whole ascending loop away from `divZero`. -/
theorem loopUp_ne_divZero {σ : Type} (f : Int → σ → DRes σ) (P : Int → σ → Prop)
    (hpres : ∀ i s s', f i s = .ok s' → P i s → P (i + 1) s')
    (hdz : ∀ i s, P i s → f i s ≠ .divZero) :
    ∀ c i s, P i s → loopUp f c i s ≠ .divZero := by
  intro c
  induction c with
  | zero => intro i s _ h; exact DRes.noConfusion h
  | succ c ih =>
    intro i s hP
    simp only [loopUp]
    refine bind_ne_divZero (hdz i s hP) ?_
    intro a ha
    exact ih (i + 1) a (hpres i s a ha hP)

/-- `divZero`-freedom for descending loops. -/
theorem loopDn_ne_divZero {σ : Type} (f : Int → σ → DRes σ) (P : Int → σ → Prop)
    (hpres : ∀ i s s', f i s = .ok s' → P i s → P (i - 1) s')
    (hdz : ∀ i s, P i s → f i s ≠ .divZero) :
    ∀ c i s, P i s → loopDn f c i s ≠ .divZero := by
  intro c
  induction c with
  | zero => intro i s _ h; exact DRes.noConfusion h
  | succ c ih =>
    intro i s hP
    simp only [loopDn]
    refine bind_ne_divZero (hdz i s hP) ?_
    intro a ha
    exact ih (i - 1) a (hpres i s a ha hP)

/-! ### Characterization of `getD` (claim C4) -/

/-- The value the `getD` row loop leaves at cell `(a, b)` once row `a` has
been processed, given the previous buffer content `prev`. -/
def getDRowUpd (st : St K) (a b : Int) (prev : K) : K :=
  if b = a then st.d a
  else if b = a + 1 ∧ 0 < st.e a then st.e a
  else if b = a - 1 ∧ st.e a < 0 then st.e a
  else prev

theorem getDBody_char (st : St K) (i : Int) (D : Int → Int → K) (a b : Int) :
    getDBody st i D a b =
      if a = i then getDRowUpd st a b (D a b) else D a b := by
  by_cases hai : a = i
  · subst hai
    by_cases hb : b = a
    · subst hb
      have c1 : ¬(b = b + 1) := by omega
      have c2 : ¬(b = b - 1) := by omega
      by_cases hpos : 0 < st.e b <;> by_cases hneg : st.e b < 0 <;>
        simp [getDBody, getDRowUpd, mset, hpos, hneg, c1, c2] <;> linarith
    · by_cases hb1 : b = a + 1
      · have c2 : ¬(b = a - 1) := by omega
        by_cases hpos : 0 < st.e a <;> by_cases hneg : st.e a < 0 <;>
          simp [getDBody, getDRowUpd, mset, hpos, hneg, hb, hb1, c2] <;> linarith
      · by_cases hb2 : b = a - 1
        · subst hb2
          have c3 : ¬(a - 1 = a) := by omega
          have c4 : ¬(a - 1 = a + 1) := by omega
          by_cases hpos : 0 < st.e a <;> by_cases hneg : st.e a < 0 <;>
            simp [getDBody, getDRowUpd, mset, hpos, hneg, c3, c4] <;> linarith
        · by_cases hpos : 0 < st.e a <;> by_cases hneg : st.e a < 0 <;>
            simp [getDBody, getDRowUpd, mset, hpos, hneg, hb, hb1, hb2] <;> linarith
  · have hd : ∀ j v (D1 : Int → Int → K), mset D1 i j v a b = D1 a b := by
      intro j v D1
      exact mset_ne D1 v (fun h => hai h.1)
    simp only [getDBody, hai, if_false]
    by_cases hpos : 0 < st.e i <;> by_cases hneg : st.e i < 0 <;>
      simp [hpos, hneg, hd, hai]

theorem getD_loop_char (st : St K) :
    ∀ (c : Nat) (i0 : Int) (D : Int → Int → K) (a b : Int),
      loopUpP (getDBody st) c i0 D a b =
        if i0 ≤ a ∧ a < i0 + (c : Int) then getDRowUpd st a b (D a b)
        else D a b := by
  intro c
  induction c with
  | zero =>
    intro i0 D a b
    rw [if_neg (by push_cast; omega)]
    simp [loopUpP]
  | succ c ih =>
    intro i0 D a b
    simp only [loopUpP]
    rw [ih (i0 + 1) (getDBody st i0 D) a b]
    rw [getDBody_char]
    by_cases hai : a = i0
    · subst hai
      rw [if_neg (by push_cast; omega), if_pos rfl, if_pos (by push_cast; omega)]
    · rw [if_neg hai]
      by_cases hin : i0 + 1 ≤ a ∧ a < i0 + 1 + (c : Int)
      · rw [if_pos hin, if_pos (by push_cast at hin ⊢; omega)]
      · rw [if_neg hin, if_neg (by push_cast at hin ⊢; omega)]

/-- C4: for every constructed decomposition, `getD` produces an `n × n`
matrix whose diagonal entries equal `d(i)`, whose entry `(i, i+1)` equals
`e(i)` exactly when `e(i) > 0`, whose entry `(i, i-1)` equals `e(i)` exactly
when `e(i) < 0`, and all of whose other off-diagonal entries are zero. -/
theorem getD_blockdiag_entries (n : Int) (st : St K) (i : Int)
    (hi0 : 0 ≤ i) (hin : i < n) :
    getD n st i i = st.d i ∧
    (i + 1 < n → getD n st i (i + 1) = if 0 < st.e i then st.e i else 0) ∧
    (0 ≤ i - 1 → getD n st i (i - 1) = if st.e i < 0 then st.e i else 0) ∧
    (∀ j, 0 ≤ j → j < n → j ≠ i - 1 → j ≠ i → j ≠ i + 1 →
      getD n st i j = 0) := by
  have hrange : (0 : Int) ≤ i ∧ i < 0 + (n.toNat : Int) := by omega
  refine ⟨?_, ?_, ?_, ?_⟩
  · rw [getD, getD_loop_char st n.toNat 0 _ i i, if_pos hrange]
    simp [getDRowUpd]
  · intro _
    rw [getD, getD_loop_char st n.toNat 0 _ i (i + 1), if_pos hrange]
    rw [getDRowUpd, if_neg (by omega)]
    by_cases hpos : 0 < st.e i
    · rw [if_pos ⟨rfl, hpos⟩, if_pos hpos]
    · rw [if_neg (fun h => hpos h.2), if_neg (by omega), if_neg hpos]
  · intro _
    rw [getD, getD_loop_char st n.toNat 0 _ i (i - 1), if_pos hrange]
    rw [getDRowUpd, if_neg (by omega), if_neg (by omega)]
    by_cases hneg : st.e i < 0
    · rw [if_pos ⟨rfl, hneg⟩, if_pos hneg]
    · rw [if_neg (fun h => hneg h.2), if_neg hneg]
  · intro j _ _ hj1 hj2 hj3
    rw [getD, getD_loop_char st n.toNat 0 _ i j, if_pos hrange]
    rw [getDRowUpd, if_neg hj2, if_neg (fun h => hj3 h.1),
      if_neg (fun h => hj1 h.1)]

/-- Witness for C4 at a concrete state. -/
theorem getD_blockdiag_entries_witness :
    (0 : Int) ≤ 0 ∧ (0 : Int) < 1 ∧
      getD 1 (initSt : St ℚ) 0 0 = (initSt : St ℚ).d 0 :=
  ⟨by decide, by decide,
    (getD_blockdiag_entries 1 (initSt : St ℚ) 0 (by decide) (by decide)).1⟩

/-! ### Step-unfolding equations, used to evaluate the embedding on concrete
inputs inside witness proofs (the iteration counts there are numerals, which
the structural equations do not match directly). -/

theorem loopUp_eval {σ : Type} (f : Int → σ → DRes σ) (c : Nat) (i : Int)
    (s : σ) :
    loopUp f c i s =
      if c = 0 then .ok s else DRes.bind (f i s) (loopUp f (c - 1) (i + 1)) := by
  cases c <;> simp [loopUp]

theorem loopDn_eval {σ : Type} (f : Int → σ → DRes σ) (c : Nat) (i : Int)
    (s : σ) :
    loopDn f c i s =
      if c = 0 then .ok s else DRes.bind (f i s) (loopDn f (c - 1) (i - 1)) := by
  cases c <;> simp [loopDn]

theorem loopUpP_eval {σ : Type} (f : Int → σ → σ) (c : Nat) (i : Int) (s : σ) :
    loopUpP f c i s =
      if c = 0 then s else loopUpP f (c - 1) (i + 1) (f i s) := by
  cases c <;> simp [loopUpP]

theorem loopDnP_eval {σ : Type} (f : Int → σ → σ) (c : Nat) (i : Int) (s : σ) :
    loopDnP f c i s =
      if c = 0 then s else loopDnP f (c - 1) (i - 1) (f i s) := by
  cases c <;> simp [loopDnP]

theorem foldUpA_eval {α : Type} (f : Int → α → α) (c : Nat) (i : Int) (a : α) :
    foldUpA f c i a =
      if c = 0 then a else foldUpA f (c - 1) (i + 1) (f i a) := by
  cases c <;> simp [foldUpA]

theorem foldDnA_eval {α : Type} (f : Int → α → α) (c : Nat) (i : Int) (a : α) :
    foldDnA f c i a =
      if c = 0 then a else foldDnA f (c - 1) (i - 1) (f i a) := by
  cases c <;> simp [foldDnA]

theorem mSearch_eval (e : Int → K) (bound : K) (c : Nat) (m : Int) :
    mSearch e bound c m =
      if c = 0 then m
      else if |e m| ≤ bound then m else mSearch e bound (c - 1) (m + 1) := by
  cases c <;> simp [mSearch]

theorem sortMin_eval (d : Int → K) (c : Nat) (j : Int) (kp : Int × K) :
    sortMin d c j kp =
      if c = 0 then kp
      else sortMin d (c - 1) (j + 1) (if d j < kp.2 then (j, d j) else kp) := by
  cases c <;> simp [sortMin]

theorem tql2DoWhile_eval (n l m : Int) (bound : K) (fu : Nat) (sf : St K × K) :
    tql2DoWhile n l m bound fu sf =
      if fu = 0 then .fuelOut
      else DRes.bind (tql2Pass n l m sf.1 sf.2) fun sf2 =>
        if bound < |sf2.1.e l| then tql2DoWhile n l m bound (fu - 1) sf2
        else .ok sf2 := by
  cases fu <;> simp [tql2DoWhile]

theorem lSearch_eval (norm : K) (c : Nat) (l : Int) (st : St K) :
    lSearch norm c l st =
      if c = 0 then (l, st)
      else
        (let sv := |st.H (l - 1) (l - 1)| + |st.H l l|
         let sv := if sv = 0 then norm else sv
         let st := sS st sv
         if |st.H l (l - 1)| < (NumModel.eps : K) * sv then (l, st)
         else lSearch norm (c - 1) (l - 1) st) := by
  cases c <;> simp [lSearch]

theorem hqr2MSearch_eval (l : Int) (c : Nat) (m : Int) (st : St K) :
    hqr2MSearch l c m st =
      if c = 0 then (m, st)
      else
        (let st := sZ st (st.H m m)
         let st := sR st (st.x - st.z)
         let st := sS st (st.y - st.z)
         let st := sP st ((st.r * st.s - st.w) / st.H (m + 1) m + st.H m (m + 1))
         let st := sQ st (st.H (m + 1) (m + 1) - st.z - st.r - st.s)
         let st := sR st (st.H (m + 2) (m + 1))
         let st := sS st (|st.p| + |st.q| + |st.r|)
         let st := sP st (st.p / st.s)
         let st := sQ st (st.q / st.s)
         let st := sR st (st.r / st.s)
         if m = l then (m, st)
         else if |st.H m (m - 1)| * (|st.q| + |st.r|) <
            (NumModel.eps : K) *
              (|st.p| * (|st.H (m - 1) (m - 1)| + |st.z| + |st.H (m + 1) (m + 1)|))
          then (m, st)
         else hqr2MSearch l (c - 1) (m - 1) st) := by
  cases c <;> simp [hqr2MSearch]

theorem hqr2Loop_eval (nn low high : Int) (norm : K) (fu : Nat) (st : St K) :
    hqr2Loop nn low high norm fu st =
      if fu = 0 then (if low ≤ st.en then .fuelOut else .ok st)
      else if low ≤ st.en then
        hqr2Loop nn low high norm (fu - 1) (hqr2OuterStep nn low high norm st)
      else .ok st := by
  cases fu <;> simp [hqr2Loop]

theorem abs_ite_neg (x : K) : |x| = if x < 0 then -x else x := by
  split_ifs with h
  · exact abs_of_neg h
  · exact abs_of_nonneg (not_lt.mp h)

theorem max_ite_lt (a b : K) : max a b = if a < b then b else a := by
  rcases lt_or_ge a b with h | h
  · rw [if_pos h, max_eq_right h.le]
  · rw [if_neg (not_lt.mpr h), max_eq_left h]

theorem min_ite_lt (a b : K) : min a b = if b < a then b else a := by
  rcases lt_or_ge b a with h | h
  · rw [if_pos h, min_eq_right h.le]
  · rw [if_neg (not_lt.mpr h), min_eq_left h]

/-! Concrete inputs used by witnesses. -/

/-- `[[0, 1], [1, 0]]` — symmetric. -/
def matSym2 : Int → Int → Fr := fun i j => if i = j then 0 else 1

/-- `[[0, 1], [-1, 0]]` — the rotation generator, not symmetric; its
eigenvalues form a complex-conjugate pair. -/
def matRot2 : Int → Int → Fr := fun i j =>
  if i = 0 ∧ j = 1 then 1 else if i = 1 ∧ j = 0 then -1 else 0

/-- Default outcome used with `resGet`. -/
def dfltRes : Res Fr := ⟨0, false, initSt⟩

/-! ### Claims C6 (shape error) and C5 (symmetry flag) -/

/-- C6: a non-square input fails at construction with the size-mismatch
error, before any algorithmic work; the error result carries no
decomposition state. -/
theorem construct_nonsquare_badSize (rows cols : Int) (A : Int → Int → K)
    (fuel : Nat) (h : rows ≠ cols) :
    construct rows cols A fuel = .badSize := by
  simp [construct, h]

/-- Witness for C6 at a concrete non-square shape. -/
theorem construct_nonsquare_badSize_witness :
    (2 : Int) ≠ 3 ∧ construct 2 3 (fun _ _ => (0 : ℚ)) 5 = .badSize :=
  ⟨by decide, construct_nonsquare_badSize 2 3 (fun _ _ => (0 : ℚ)) 5 (by decide)⟩

theorem symCheck_iff (A : Int → Int → K) (n : Int) :
    symCheck A n = true ↔
      ∀ i j, 0 ≤ i → i < n → 0 ≤ j → j < n → A i j = A j i := by
  simp only [symCheck, decide_eq_true_eq, Finset.mem_Ico]
  constructor
  · intro h i j h1 h2 h3 h4
    exact h i ⟨h1, h2⟩ j ⟨h3, h4⟩
  · intro h i hi j hj
    exact h i j hi.1 hi.2 hj.1 hj.2

/-- C5: the flag returned by `isSymmetric()` is true iff the general
constructor's input equals its own transpose by exact elementwise equality;
the `SymmetricMatrix` constructor skips the check and forces the flag. -/
theorem isSymmetric_flag_spec (rows cols : Int) (A : Int → Int → K)
    (fuel : Nat) (r : Res K) (n2 : Int) (A2 : Int → Int → K) (fuel2 : Nat)
    (r2 : Res K) :
    (construct rows cols A fuel = .ok r →
      (r.issymmetric = true ↔
        ∀ i j, 0 ≤ i → i < r.n → 0 ≤ j → j < r.n → A i j = A j i)) ∧
    (constructSym n2 A2 fuel2 = .ok r2 → r2.issymmetric = true) := by
  constructor
  · intro h
    by_cases hsq : rows = cols
    · subst hsq
      simp only [construct, if_pos rfl] at h
      by_cases hs : symCheck A rows = true
      · rw [if_pos hs] at h
        obtain ⟨st, _, hok⟩ := bind_eq_ok h
        have hr : r = ⟨rows, true, st⟩ := by
          cases hok; rfl
        subst hr
        simpa using (symCheck_iff A rows).mp hs
      · rw [if_neg hs] at h
        obtain ⟨st, _, hok⟩ := bind_eq_ok h
        have hr : r = ⟨rows, false, st⟩ := by
          cases hok; rfl
        subst hr
        simp only [Bool.false_eq_true, false_iff]
        intro hsym
        exact hs ((symCheck_iff A rows).mpr hsym)
    · rw [construct_nonsquare_badSize rows cols A fuel hsq] at h
      exact absurd h (by simp)
  · intro h
    obtain ⟨st, _, hok⟩ := bind_eq_ok h
    have hr : r2 = ⟨n2, true, st⟩ := by cases hok; rfl
    rw [hr]


/-- Evaluation fact: the concrete nonsymmetric run `construct 2 2 matRot2 9`
completes. -/
theorem rot2_run_ok : resOk (construct 2 2 matRot2 9) = true := by decide

/-- Evaluation fact: dimension of the `matRot2` outcome. -/
theorem rot2_run_n : (resGet (construct 2 2 matRot2 9) dfltRes).n = 2 := by
  decide

/-- Evaluation fact: the concrete symmetric-constructor run completes. -/
theorem sym1_run_ok : resOk (constructSym 1 (fun _ _ => (5 : Fr)) 9) = true := by
  decide

/-- Witness for C5: the flag is false for the concrete non-symmetric
`matRot2`, and true for a `SymmetricMatrix`-constructor run. -/
theorem isSymmetric_flag_spec_witness :
    (resGet (construct 2 2 matRot2 9) dfltRes).issymmetric = false ∧
    (resGet (constructSym 1 (fun _ _ => (5 : Fr)) 9) dfltRes).issymmetric
      = true := by
  have h1 := resOk_eq_ok _ dfltRes rot2_run_ok
  have h2 := resOk_eq_ok _ dfltRes sym1_run_ok
  have hmain := isSymmetric_flag_spec 2 2 matRot2 9
    (resGet (construct 2 2 matRot2 9) dfltRes) 1 (fun _ _ => (5 : Fr)) 9
    (resGet (constructSym 1 (fun _ _ => (5 : Fr)) 9) dfltRes)
  refine ⟨?_, hmain.2 h2⟩
  have hiff := hmain.1 h1
  by_cases hfl :
      (resGet (construct 2 2 matRot2 9) dfltRes).issymmetric = true
  · exfalso
    have hc := hiff.mp hfl 0 1 (by norm_num) (by rw [rot2_run_n]; norm_num)
      (by norm_num) (by rw [rot2_run_n]; norm_num)
    rw [show matRot2 0 1 = 1 from rfl, show matRot2 1 0 = -1 from rfl] at hc
    revert hc
    decide
  · exact Bool.eq_false_iff.mpr hfl

/-! ### Claim C10 — the 1x1 decomposition -/

/-- C10: for every 1x1 input `[[a]]`, through either constructor, construction
completes with symmetry flag `true`, real eigenvalues `[a]`, imaginary
eigenvalues `[0]` and eigenvector matrix `[[1]]`. -/
theorem oneByOne_spec (a : K) (fuel : Nat) :
    resOk (construct 1 1 (fun _ _ => a) fuel) = true ∧
    resOk (constructSym 1 (fun _ _ => a) fuel) = true ∧
    ((resGet (construct 1 1 (fun _ _ => a) fuel) ⟨0, false, initSt⟩).issymmetric
        = true ∧
      (resGet (construct 1 1 (fun _ _ => a) fuel) ⟨0, false, initSt⟩).st.d 0 = a ∧
      (resGet (construct 1 1 (fun _ _ => a) fuel) ⟨0, false, initSt⟩).st.e 0 = 0 ∧
      (resGet (construct 1 1 (fun _ _ => a) fuel) ⟨0, false, initSt⟩).st.V 0 0
        = 1) ∧
    ((resGet (constructSym 1 (fun _ _ => a) fuel) ⟨0, false, initSt⟩).issymmetric
        = true ∧
      (resGet (constructSym 1 (fun _ _ => a) fuel) ⟨0, false, initSt⟩).st.d 0
        = a ∧
      (resGet (constructSym 1 (fun _ _ => a) fuel) ⟨0, false, initSt⟩).st.e 0
        = 0 ∧
      (resGet (constructSym 1 (fun _ _ => a) fuel) ⟨0, false, initSt⟩).st.V 0 0
        = 1) := by
  have hsym : symCheck (K := K) (fun _ _ => a) 1 = true :=
    (symCheck_iff _ _).mpr (fun _ _ _ _ _ _ => rfl)
  have htst : (0 : K) ≤ (NumModel.eps : K) * max 0 (|a| + |(0 : K)|) :=
    mul_nonneg NumModel.eps_pos.le (le_max_left _ _)
  have htst2 : (0 : K) ≤ (NumModel.eps : K) * |a| :=
    mul_nonneg NumModel.eps_pos.le (abs_nonneg a)
  simp only [construct, constructSym, hsym, if_pos rfl, if_true]
  simp [tred2, tred2Init, tred2Fin, tql2, tql2ShiftE, tql2LStep, mSearch,
    tql2SortStep, loopUp_eval, loopDn_eval, loopUpP_eval, mSearch_eval,
    vset, mset, copyIn, initSt, sD, sE, sV, sOrt, sH, resOk, resGet,
    htst, htst2, abs_zero, add_zero]

/-! ### Claim C7 — the symmetric path zeroes the imaginary parts -/

/-- Converse invariant propagation: if an ascending loop completed, an
invariant preserved by every succeeding body step holds at the end. -/
theorem loopUp_ok_prop {σ : Type} (f : Int → σ → DRes σ) (P : Int → σ → Prop)
    (hf : ∀ i s s', f i s = .ok s' → P i s → P (i + 1) s') :
    ∀ (c : Nat) i s s', loopUp f c i s = .ok s' → P i s →
      P (i + (c : Int)) s' := by
  intro c
  induction c with
  | zero =>
    intro i s s' h hP
    cases h
    simpa using hP
  | succ c ih =>
    intro i s s' h hP
    simp only [loopUp] at h
    obtain ⟨s1, h1, h2⟩ := bind_eq_ok h
    have hrec := ih (i + 1) s1 s' h2 (hf i s s1 h1 hP)
    have harith : i + 1 + (c : Int) = i + ((c : Int) + 1) := by ring
    rw [harith] at hrec
    simpa [Int.add_comm] using hrec

/-- Converse invariant propagation for descending loops. -/
theorem loopDn_ok_prop {σ : Type} (f : Int → σ → DRes σ) (P : Int → σ → Prop)
    (hf : ∀ i s s', f i s = .ok s' → P i s → P (i - 1) s') :
    ∀ (c : Nat) i s s', loopDn f c i s = .ok s' → P i s →
      P (i - (c : Int)) s' := by
  intro c
  induction c with
  | zero =>
    intro i s s' h hP
    cases h
    simpa using hP
  | succ c ih =>
    intro i s s' h hP
    simp only [loopDn] at h
    obtain ⟨s1, h1, h2⟩ := bind_eq_ok h
    have hrec := ih (i - 1) s1 s' h2 (hf i s s1 h1 hP)
    have harith : i - 1 - (c : Int) = i - ((c : Int) + 1) := by ring
    rw [harith] at hrec
    simpa using hrec

/-- A projection untouched by every body step is untouched by the whole pure
ascending loop. -/
theorem loopUpP_proj {σ α : Type} (f : Int → σ → σ) (g : σ → α)
    (hf : ∀ i t, g (f i t) = g t) :
    ∀ (c : Nat) (i : Int) (t : σ), g (loopUpP f c i t) = g t := by
  intro c
  induction c with
  | zero => intro i t; rfl
  | succ c ih => intro i t; rw [loopUpP, ih, hf]

/-- A projection untouched by every body step is untouched by the whole pure
descending loop. -/
theorem loopDnP_proj {σ α : Type} (f : Int → σ → σ) (g : σ → α)
    (hf : ∀ i t, g (f i t) = g t) :
    ∀ (c : Nat) (i : Int) (t : σ), g (loopDnP f c i t) = g t := by
  intro c
  induction c with
  | zero => intro i t; rfl
  | succ c ih => intro i t; rw [loopDnP, ih, hf]

/-- One plane rotation writes `e` only at index `i + 1`. -/
theorem tql2RotStep_e_frame (n i : Int) (u v : Rot K)
    (h : tql2RotStep n i u = .ok v) : ∀ j, j ≠ i + 1 → v.st.e j = u.st.e j := by
  intro j hj
  simp only [tql2RotStep] at h
  obtain ⟨sv, hsv, h⟩ := bind_eq_ok h
  obtain ⟨c, hc, h⟩ := bind_eq_ok h
  cases h
  dsimp only
  rw [loopUpP_proj _ St.e (fun k t => by simp)]
  simp only [sD_e, sE_e]
  exact vset_ne _ _ hj

/-- The rotation loop leaves `e` unchanged strictly below `l` when its lowest
visited index stays at or above `l - 1`. -/
theorem rotLoop_e_frame (n l : Int) :
    ∀ (c : Nat) (i : Int) (u v : Rot K), l - 1 ≤ i - (c : Int) →
      loopDn (tql2RotStep n) c i u = .ok v →
      ∀ j, j < l → v.st.e j = u.st.e j := by
  intro c
  induction c with
  | zero =>
    intro i u v _ h j hj
    cases h
    rfl
  | succ c ih =>
    intro i u v hle h j hj
    simp only [loopDn] at h
    obtain ⟨u1, h1, h2⟩ := bind_eq_ok h
    have hle' : l - 1 ≤ i - (c : Int) - 1 := by push_cast at hle; omega
    have hj1 : j ≠ i + 1 := by omega
    rw [ih (i - 1) u1 v (by omega) h2 j hj,
      tql2RotStep_e_frame n i u u1 h1 j hj1]

/-- One QL pass (at `l`, with small index `m ≥ l`) leaves `e` unchanged
strictly below `l`. -/
theorem tql2Pass_e_frame (n l m : Int) (s : St K) (f : K) (sf : St K × K)
    (hm : l ≤ m) (h : tql2Pass n l m s f = .ok sf) :
    ∀ j, j < l → sf.1.e j = s.e j := by
  intro j hj
  simp only [tql2Pass] at h
  obtain ⟨p0, hp0, h⟩ := bind_eq_ok h
  obtain ⟨dl, hdl, h⟩ := bind_eq_ok h
  obtain ⟨u, hu, h⟩ := bind_eq_ok h
  obtain ⟨p2, hp2, h⟩ := bind_eq_ok h
  cases h
  simp only [sD_e, sE_e]
  rw [vset_ne _ _ (show j ≠ l by omega)]
  have hcnt : l - 1 ≤ (m - 1) - (((m - l).toNat : Nat) : Int) := by
    have := Int.toNat_of_nonneg (show (0 : Int) ≤ m - l by omega)
    omega
  rw [rotLoop_e_frame n l (m - l).toNat (m - 1) _ u hcnt hu j hj]
  dsimp only
  rw [loopUpP_proj _ St.e (fun k t => by simp)]
  simp

/-- The QL do-while leaves `e` unchanged strictly below `l`. -/
theorem tql2DoWhile_e_frame (n l m : Int) (bound : K) (hm : l ≤ m) :
    ∀ (fu : Nat) (sf sf' : St K × K), tql2DoWhile n l m bound fu sf = .ok sf' →
      ∀ j, j < l → sf'.1.e j = sf.1.e j := by
  intro fu
  induction fu with
  | zero =>
    intro sf sf' h
    exact absurd h (by simp [tql2DoWhile])
  | succ fu ih =>
    intro sf sf' h j hj
    simp only [tql2DoWhile] at h
    obtain ⟨sf2, h1, h2⟩ := bind_eq_ok h
    by_cases hb : bound < |sf2.1.e l|
    · rw [if_pos hb] at h2
      rw [ih sf2 sf' h2 j hj, tql2Pass_e_frame n l m sf.1 sf.2 sf2 hm h1 j hj]
    · rw [if_neg hb] at h2
      cases h2
      exact tql2Pass_e_frame n l m sf.1 sf.2 sf' hm h1 j hj

/-- One iteration of the outer `tql2` loop extends the zero prefix of `e`
by one entry (the source's `e(l) = 0.0` at line 422). -/
theorem tql2LStep_e_prop (n : Int) (fuel : Nat) (l : Int) (u u' : St K × K × K)
    (h : tql2LStep n fuel l u = .ok u')
    (hP : ∀ j, 0 ≤ j → j < l → u.1.e j = 0) :
    ∀ j, 0 ≤ j → j < l + 1 → u'.1.e j = 0 := by
  intro j hj0 hjl
  simp only [tql2LStep] at h
  obtain ⟨sf, h1, h2⟩ := bind_eq_ok h
  cases h2
  simp only [sE_e, sD_e]
  by_cases hjeq : j = l
  · subst hjeq
    exact vset_same _ _ _
  · rw [vset_ne _ _ hjeq]
    have hjlt : j < l := by omega
    by_cases hlm : l < mSearch u.1.e ((NumModel.eps : K) *
        max u.2.2 (|u.1.d l| + |u.1.e l|)) (n - l).toNat l
    · rw [if_pos hlm] at h1
      rw [tql2DoWhile_e_frame n l _ _ hlm.le fuel _ sf h1 j hjlt]
      exact hP j hj0 hjlt
    · rw [if_neg hlm] at h1
      cases h1
      exact hP j hj0 hjlt

/-- The final selection sort never writes `e`. -/
theorem tql2SortStep_e (n i : Int) (t : St K) : (tql2SortStep n i t).e = t.e := by
  simp only [tql2SortStep]
  by_cases h : (sortMin t.d (n - (i + 1)).toNat (i + 1) (i, t.d i)).1 ≠ i
  · rw [if_pos h]
    rw [loopUpP_proj _ St.e (fun k t2 => by simp)]
    simp
  · rw [if_neg h]

/-- After a completed `tql2`, every `e` entry in range is exactly zero. -/
theorem tql2_e_zero (n : Int) (fuel : Nat) (s st' : St K)
    (h : tql2 n fuel s = .ok st') : ∀ j, 0 ≤ j → j < n → st'.e j = 0 := by
  intro j hj0 hjn
  simp only [tql2] at h
  obtain ⟨u, hloop, h2⟩ := bind_eq_ok h
  cases h2
  rw [loopUpP_proj (tql2SortStep n) St.e (fun i t => tql2SortStep_e n i t)]
  have hprop := loopUp_ok_prop (tql2LStep n fuel)
    (fun l v => ∀ j, 0 ≤ j → j < l → v.1.e j = 0)
    (fun l v v' hv hPv => tql2LStep_e_prop n fuel l v v' hv hPv)
    n.toNat 0 _ u hloop (fun j _ hj => absurd hj (by omega))
  refine hprop j hj0 ?_
  have := Int.self_le_toNat n
  omega

/-- C7: for every symmetric square input (general constructor with the
symmetry flag true, or the `SymmetricMatrix` constructor), every entry of the
imaginary eigenvalue sequence `e` returned by `getImagEigenvalues()` is
exactly zero. -/
theorem sym_imag_zero (rows cols : Int) (A : Int → Int → K) (fuel : Nat)
    (r : Res K) (n2 : Int) (A2 : Int → Int → K) (fuel2 : Nat) (r2 : Res K) :
    (construct rows cols A fuel = .ok r → r.issymmetric = true →
      ∀ i, 0 ≤ i → i < r.n → r.st.e i = 0) ∧
    (constructSym n2 A2 fuel2 = .ok r2 →
      ∀ i, 0 ≤ i → i < r2.n → r2.st.e i = 0) := by
  constructor
  · intro h hsym
    by_cases hsq : rows = cols
    · subst hsq
      simp only [construct, if_pos rfl] at h
      by_cases hs : symCheck A rows = true
      · rw [if_pos hs] at h
        obtain ⟨st, hpipe, hok⟩ := bind_eq_ok h
        obtain ⟨s1, htred, htql⟩ := bind_eq_ok hpipe
        have hr : r = ⟨rows, true, st⟩ := by cases hok; rfl
        subst hr
        exact tql2_e_zero rows fuel s1 st htql
      · rw [if_neg hs] at h
        obtain ⟨st, _, hok⟩ := bind_eq_ok h
        have hr : r = ⟨rows, false, st⟩ := by cases hok; rfl
        subst hr
        exact absurd hsym (by simp)
    · rw [construct_nonsquare_badSize rows cols A fuel hsq] at h
      exact absurd h (by simp)
  · intro h
    obtain ⟨st, hpipe, hok⟩ := bind_eq_ok h
    obtain ⟨s1, htred, htql⟩ := bind_eq_ok hpipe
    have hr : r2 = ⟨n2, true, st⟩ := by cases hok; rfl
    subst hr
    exact tql2_e_zero n2 fuel2 s1 st htql

/-- Witness for C7: the `SymmetricMatrix` run on `[[5]]` has `e(0) = 0`. -/
theorem sym_imag_zero_witness :
    constructSym 1 (fun _ _ => (5 : Fr)) 9
        = .ok (resGet (constructSym 1 (fun _ _ => (5 : Fr)) 9) dfltRes) ∧
    (resGet (constructSym 1 (fun _ _ => (5 : Fr)) 9) dfltRes).st.e 0 = 0 := by
  have hok : constructSym 1 (fun _ _ => (5 : Fr)) 9
      = .ok (resGet (constructSym 1 (fun _ _ => (5 : Fr)) 9) dfltRes) :=
    resOk_eq_ok _ dfltRes (by decide)
  refine ⟨hok, ?_⟩
  exact (sym_imag_zero 1 1 (fun _ _ => (5 : Fr)) 9 dfltRes 1
      (fun _ _ => (5 : Fr)) 9
      (resGet (constructSym 1 (fun _ _ => (5 : Fr)) 9) dfltRes)).2 hok 0
    (by decide) (by decide)

/-! ### Claim C2 — the symmetric path returns `d` in ascending order -/

/-- Specification of the selection scan `sortMin` (lines 430-435): it returns
an index/value pair of `d`, no larger than the incoming pair, minimal on the
scanned window, with index either the incoming one or inside the window. -/
theorem sortMin_spec (d : Int → K) :
    ∀ (c : Nat) (j : Int) (kp : Int × K), kp.2 = d kp.1 →
      (sortMin d c j kp).2 = d (sortMin d c j kp).1 ∧
      (sortMin d c j kp).2 ≤ kp.2 ∧
      (∀ t, j ≤ t → t < j + (c : Int) → (sortMin d c j kp).2 ≤ d t) ∧
      ((sortMin d c j kp).1 = kp.1 ∨
        (j ≤ (sortMin d c j kp).1 ∧ (sortMin d c j kp).1 < j + (c : Int))) := by
  intro c
  induction c with
  | zero =>
    intro j kp hk
    refine ⟨hk, le_refl _, ?_, Or.inl rfl⟩
    intro t ht1 ht2
    push_cast at ht2
    omega
  | succ c ih =>
    intro j kp hk
    simp only [sortMin]
    have hk' : (if d j < kp.2 then ((j, d j) : Int × K) else kp).2 =
        d (if d j < kp.2 then ((j, d j) : Int × K) else kp).1 := by
      by_cases hlt : d j < kp.2
      · rw [if_pos hlt]
      · rw [if_neg hlt]; exact hk
    have h2' : (if d j < kp.2 then ((j, d j) : Int × K) else kp).2 ≤ kp.2 := by
      by_cases hlt : d j < kp.2
      · rw [if_pos hlt]; exact hlt.le
      · rw [if_neg hlt]
    have h2j : (if d j < kp.2 then ((j, d j) : Int × K) else kp).2 ≤ d j := by
      by_cases hlt : d j < kp.2
      · rw [if_pos hlt]
      · rw [if_neg hlt]; exact (not_lt.mp hlt)
    obtain ⟨a1, a2, a3, a4⟩ := ih (j + 1) _ hk'
    refine ⟨a1, le_trans a2 h2', ?_, ?_⟩
    · intro t ht1 ht2
      by_cases htj : t = j
      · subst htj
        exact le_trans a2 h2j
      · refine a3 t (by omega) ?_
        push_cast at ht2 ⊢
        omega
    · rcases a4 with h | h
      · rw [h]
        by_cases hlt : d j < kp.2
        · right
          rw [if_pos hlt]
          push_cast
          omega
        · left
          rw [if_neg hlt]
      · right
        push_cast at h ⊢
        omega

/-- The selection-sort step at index `i` keeps the sorted-prefix and
prefix-domination invariants (lines 427-445). -/
theorem tql2SortStep_inv (n i : Int) (t : St K) (h0 : 0 ≤ i) (h1 : i ≤ n - 2)
    (hpre : ∀ a b, 0 ≤ a → a ≤ b → b < i → t.d a ≤ t.d b)
    (hdom : ∀ a b, 0 ≤ a → a < i → i ≤ b → b < n → t.d a ≤ t.d b) :
    (∀ a b, 0 ≤ a → a ≤ b → b < i + 1 →
      (tql2SortStep n i t).d a ≤ (tql2SortStep n i t).d b) ∧
    (∀ a b, 0 ≤ a → a < i + 1 → i + 1 ≤ b → b < n →
      (tql2SortStep n i t).d a ≤ (tql2SortStep n i t).d b) := by
  have hcast : (((n - (i + 1)).toNat : Nat) : Int) = n - i - 1 := by omega
  obtain ⟨m1, m2, m3, m4⟩ := sortMin_spec t.d (n - (i + 1)).toNat (i + 1)
    (i, t.d i) rfl
  rw [hcast] at m3 m4
  simp only [tql2SortStep]
  set kp := sortMin t.d (n - (i + 1)).toNat (i + 1) (i, t.d i) with hkp
  have hr1 : i ≤ kp.1 := by
    rcases m4 with h | h
    · rw [h]
    · omega
  have hr2 : kp.1 < n := by
    rcases m4 with h | h
    · rw [h]; omega
    · omega
  have hmin : ∀ b, i ≤ b → b < n → kp.2 ≤ t.d b := by
    intro b hb1 hb2
    by_cases hbi : b = i
    · subst hbi; exact m2
    · exact m3 b (by omega) (by omega)
  by_cases hne : kp.1 ≠ i
  · rw [if_pos hne]
    rw [loopUpP_proj _ St.d (fun k u => by simp)]
    simp only [sD_d]
    have hd : ∀ x, vset (vset t.d kp.1 (t.d i)) i kp.2 x =
        if x = i then kp.2 else if x = kp.1 then t.d i else t.d x := by
      intro x
      by_cases hxi : x = i
      · subst hxi
        rw [vset_same, if_pos rfl]
      · rw [vset_ne _ _ hxi, if_neg hxi]
        by_cases hxk : x = kp.1
        · subst hxk
          rw [vset_same, if_pos rfl]
        · rw [vset_ne _ _ hxk, if_neg hxk]
    have hik : i < kp.1 := lt_of_le_of_ne hr1 (Ne.symm hne)
    constructor
    · intro a b ha hab hb
      rw [hd a, hd b]
      by_cases hbi : b = i
      · rw [if_pos hbi]
        by_cases hai : a = i
        · rw [if_pos hai]
        · rw [if_neg hai, if_neg (show ¬ a = kp.1 by omega)]
          rw [m1]
          exact hdom a kp.1 ha (by omega) hr1 hr2
      · rw [if_neg hbi, if_neg (show ¬ b = kp.1 by omega),
          if_neg (show ¬ a = i by omega), if_neg (show ¬ a = kp.1 by omega)]
        exact hpre a b ha hab (by omega)
    · intro a b ha hai hbi hb
      rw [hd a, hd b, if_neg (show ¬ b = i by omega)]
      by_cases hak : a = i
      · rw [if_pos hak]
        by_cases hbk : b = kp.1
        · rw [if_pos hbk]
          exact hmin i (le_refl i) (by omega)
        · rw [if_neg hbk]
          exact hmin b (by omega) hb
      · rw [if_neg hak, if_neg (show ¬ a = kp.1 by omega)]
        by_cases hbk : b = kp.1
        · rw [if_pos hbk]
          exact hdom a i ha (by omega) (le_refl i) (by omega)
        · rw [if_neg hbk]
          exact hdom a b ha (by omega) (by omega) hb
  · rw [if_neg hne]
    have hki : kp.1 = i := not_not.mp (by simpa using hne)
    have hdieq : t.d i = kp.2 := by rw [m1, hki]
    constructor
    · intro a b ha hab hb
      by_cases hbi : b = i
      · rw [hbi]
        by_cases hai : a = i
        · rw [hai]
        · exact hdom a i ha (by omega) (le_refl i) (by omega)
      · exact hpre a b ha hab (by omega)
    · intro a b ha hai hbi hb
      by_cases hak : a = i
      · rw [hak, hdieq]
        exact hmin b (by omega) hb
      · exact hdom a b ha (by omega) (by omega) hb

/-- The final selection sort leaves `d` non-decreasing on `[0, n)`. -/
theorem sortLoop_sorted (n : Int) (s : St K) :
    ∀ a b, 0 ≤ a → a ≤ b → b < n →
      (loopUpP (tql2SortStep n) (n - 1).toNat 0 s).d a ≤
        (loopUpP (tql2SortStep n) (n - 1).toNat 0 s).d b := by
  intro a b ha hab hb
  by_cases hn : 2 ≤ n
  · have hinv := loopUpP_invar (tql2SortStep n)
      (fun i t => 0 ≤ i → i ≤ n - 1 →
        ((∀ a b, 0 ≤ a → a ≤ b → b < i → t.d a ≤ t.d b) ∧
         (∀ a b, 0 ≤ a → a < i → i ≤ b → b < n → t.d a ≤ t.d b)))
      ?_ (n - 1).toNat 0 s ?_
    · have hcast : (((n - 1).toNat : Nat) : Int) = n - 1 :=
        Int.toNat_of_nonneg (by omega)
      rw [hcast] at hinv
      obtain ⟨hpre, hdom⟩ := hinv (by omega) (by omega)
      by_cases hbl : b < n - 1
      · exact hpre a b ha hab (by omega)
      · by_cases hal : a < n - 1
        · exact hdom a b ha (by omega) (by omega) (by omega)
        · have hae : a = b := by omega
          rw [hae]
    · intro i t hP h0 h1
      by_cases hi0 : 0 ≤ i
      · obtain ⟨hpre, hdom⟩ := hP hi0 (by omega)
        exact tql2SortStep_inv n i t hi0 (by omega) hpre hdom
      · have hi1 : i + 1 = 0 := by omega
        constructor
        · intro a b ha hab hb
          exact absurd hb (by omega)
        · intro a b ha hai hbi hb
          exact absurd hai (by omega)
    · intro h0 h1
      exact ⟨fun a b ha hab hb => absurd hb (by omega),
        fun a b ha hai hbi hb => absurd hai (by omega)⟩
  · have : a = b := by omega
    subst this
    exact le_refl _

/-- After a completed `tql2`, `d` is non-decreasing on `[0, n)`. -/
theorem tql2_d_sorted (n : Int) (fuel : Nat) (s st' : St K)
    (h : tql2 n fuel s = .ok st') :
    ∀ a b, 0 ≤ a → a ≤ b → b < n → st'.d a ≤ st'.d b := by
  simp only [tql2] at h
  obtain ⟨u, hloop, h2⟩ := bind_eq_ok h
  cases h2
  exact sortLoop_sorted n u.1

/-- C2: for every symmetric square input (general constructor with the
symmetry flag true, or the `SymmetricMatrix` constructor), the real
eigenvalue sequence `d` returned by `getRealEigenvalues()` is non-decreasing
after the final selection sort. -/
theorem sym_eigen_sorted (rows cols : Int) (A : Int → Int → K) (fuel : Nat)
    (r : Res K) (n2 : Int) (A2 : Int → Int → K) (fuel2 : Nat) (r2 : Res K) :
    (construct rows cols A fuel = .ok r → r.issymmetric = true →
      ∀ a b, 0 ≤ a → a ≤ b → b < r.n → r.st.d a ≤ r.st.d b) ∧
    (constructSym n2 A2 fuel2 = .ok r2 →
      ∀ a b, 0 ≤ a → a ≤ b → b < r2.n → r2.st.d a ≤ r2.st.d b) := by
  constructor
  · intro h hsym
    by_cases hsq : rows = cols
    · subst hsq
      simp only [construct, if_pos rfl] at h
      by_cases hs : symCheck A rows = true
      · rw [if_pos hs] at h
        obtain ⟨st, hpipe, hok⟩ := bind_eq_ok h
        obtain ⟨s1, htred, htql⟩ := bind_eq_ok hpipe
        have hr : r = ⟨rows, true, st⟩ := by cases hok; rfl
        subst hr
        exact tql2_d_sorted rows fuel s1 st htql
      · rw [if_neg hs] at h
        obtain ⟨st, _, hok⟩ := bind_eq_ok h
        have hr : r = ⟨rows, false, st⟩ := by cases hok; rfl
        subst hr
        exact absurd hsym (by simp)
    · rw [construct_nonsquare_badSize rows cols A fuel hsq] at h
      exact absurd h (by simp)
  · intro h
    obtain ⟨st, hpipe, hok⟩ := bind_eq_ok h
    obtain ⟨s1, htred, htql⟩ := bind_eq_ok hpipe
    have hr : r2 = ⟨n2, true, st⟩ := by cases hok; rfl
    subst hr
    exact tql2_d_sorted n2 fuel2 s1 st htql

/-- Witness for C2: on the symmetric `[[0,1],[1,0]]` the returned `d` is
ascending. -/
theorem sym_eigen_sorted_witness :
    construct 2 2 matSym2 9
        = .ok (resGet (construct 2 2 matSym2 9) dfltRes) ∧
    (resGet (construct 2 2 matSym2 9) dfltRes).issymmetric = true ∧
    (resGet (construct 2 2 matSym2 9) dfltRes).st.d 0
      ≤ (resGet (construct 2 2 matSym2 9) dfltRes).st.d 1 := by
  have hok : construct 2 2 matSym2 9
      = .ok (resGet (construct 2 2 matSym2 9) dfltRes) :=
    resOk_eq_ok _ dfltRes (by decide)
  refine ⟨hok, by decide, ?_⟩
  exact (sym_eigen_sorted 2 2 matSym2 9
      (resGet (construct 2 2 matSym2 9) dfltRes) 1 (fun _ _ => (0 : Fr)) 0
      dfltRes).1 hok (by decide) 0 1 (by decide) (by decide) (by decide)

/-! ### Claims C3 and C9 — structure of the `d`/`e` output of `hqr2` -/

/-- Range-bounded invariant preservation for pure ascending loops. -/
theorem loopUpP_invar_le {σ : Type} (f : Int → σ → σ) (P : Int → σ → Prop)
    (hi : Int) (hf : ∀ i s, i < hi → P i s → P (i + 1) (f i s)) :
    ∀ (c : Nat) i s, i + (c : Int) ≤ hi → P i s →
      P (i + (c : Int)) (loopUpP f c i s) := by
  intro c
  induction c with
  | zero => intro i s _ hP; simpa using hP
  | succ c ih =>
    intro i s hle hP
    have h1 : i < hi := by push_cast at hle; omega
    have := ih (i + 1) (f i s) (by push_cast at hle ⊢; omega) (hf i s h1 hP)
    have harith : i + 1 + (c : Int) = i + ((c : Int) + 1) := by ring
    rw [harith] at this
    simpa [loopUpP, Int.add_comm] using this

/-- Agreement of two states on the eigenvalue data `d`, `e` and the active
index `en` (the components the deflation bookkeeping is about). -/
def agreeDE (a b : St K) : Prop := a.d = b.d ∧ a.e = b.e ∧ a.en = b.en

theorem agreeDE_refl (a : St K) : agreeDE a a := ⟨rfl, rfl, rfl⟩

theorem agreeDE_trans {a b c : St K} (h1 : agreeDE a b) (h2 : agreeDE b c) :
    agreeDE a c := ⟨h1.1.trans h2.1, h1.2.1.trans h2.2.1, h1.2.2.trans h2.2.2⟩

theorem agreeDE_sH {a b : St K} (v : Int → Int → K) (h : agreeDE a b) :
    agreeDE (sH a v) b := ⟨h.1, h.2.1, h.2.2⟩

theorem agreeDE_sV {a b : St K} (v : Int → Int → K) (h : agreeDE a b) :
    agreeDE (sV a v) b := ⟨h.1, h.2.1, h.2.2⟩

theorem agreeDE_sOrt {a b : St K} (v : Int → K) (h : agreeDE a b) :
    agreeDE (sOrt a v) b := ⟨h.1, h.2.1, h.2.2⟩

theorem agreeDE_sP {a b : St K} (v : K) (h : agreeDE a b) :
    agreeDE (sP a v) b := ⟨h.1, h.2.1, h.2.2⟩

theorem agreeDE_sQ {a b : St K} (v : K) (h : agreeDE a b) :
    agreeDE (sQ a v) b := ⟨h.1, h.2.1, h.2.2⟩

theorem agreeDE_sR {a b : St K} (v : K) (h : agreeDE a b) :
    agreeDE (sR a v) b := ⟨h.1, h.2.1, h.2.2⟩

theorem agreeDE_sS {a b : St K} (v : K) (h : agreeDE a b) :
    agreeDE (sS a v) b := ⟨h.1, h.2.1, h.2.2⟩

theorem agreeDE_sX {a b : St K} (v : K) (h : agreeDE a b) :
    agreeDE (sX a v) b := ⟨h.1, h.2.1, h.2.2⟩

theorem agreeDE_sY {a b : St K} (v : K) (h : agreeDE a b) :
    agreeDE (sY a v) b := ⟨h.1, h.2.1, h.2.2⟩

theorem agreeDE_sZ {a b : St K} (v : K) (h : agreeDE a b) :
    agreeDE (sZ a v) b := ⟨h.1, h.2.1, h.2.2⟩

theorem agreeDE_sW {a b : St K} (v : K) (h : agreeDE a b) :
    agreeDE (sW a v) b := ⟨h.1, h.2.1, h.2.2⟩

theorem agreeDE_sT {a b : St K} (v : K) (h : agreeDE a b) :
    agreeDE (sT a v) b := ⟨h.1, h.2.1, h.2.2⟩

theorem agreeDE_sExshift {a b : St K} (v : K) (h : agreeDE a b) :
    agreeDE (sExshift a v) b := ⟨h.1, h.2.1, h.2.2⟩

theorem agreeDE_sIter {a b : St K} (v : Int) (h : agreeDE a b) :
    agreeDE (sIter a v) b := ⟨h.1, h.2.1, h.2.2⟩

theorem agreeDE_ite {c : Prop} [Decidable c] {A B b : St K}
    (hA : agreeDE A b) (hB : agreeDE B b) :
    agreeDE (if c then A else B) b := by
  split_ifs
  · exact hA
  · exact hB

theorem agreeDE_loopUpP (f : Int → St K → St K)
    (hf : ∀ i t, agreeDE (f i t) t) :
    ∀ (c : Nat) (i : Int) (t : St K), agreeDE (loopUpP f c i t) t := by
  intro c
  induction c with
  | zero => intro i t; exact agreeDE_refl t
  | succ c ih =>
    intro i t
    exact agreeDE_trans (ih (i + 1) (f i t)) (hf i t)

theorem agreeDE_loopUpP_t {f : Int → St K → St K} {b : St K}
    (hf : ∀ i t, agreeDE (f i t) t) {c : Nat} {i : Int} {t : St K}
    (h : agreeDE t b) : agreeDE (loopUpP f c i t) b :=
  agreeDE_trans (agreeDE_loopUpP f hf c i t) h

theorem agreeDE_loopDnP (f : Int → St K → St K)
    (hf : ∀ i t, agreeDE (f i t) t) :
    ∀ (c : Nat) (i : Int) (t : St K), agreeDE (loopDnP f c i t) t := by
  intro c
  induction c with
  | zero => intro i t; exact agreeDE_refl t
  | succ c ih =>
    intro i t
    exact agreeDE_trans (ih (i - 1) (f i t)) (hf i t)

theorem agreeDE_loopDnP_t {f : Int → St K → St K} {b : St K}
    (hf : ∀ i t, agreeDE (f i t) t) {c : Nat} {i : Int} {t : St K}
    (h : agreeDE t b) : agreeDE (loopDnP f c i t) b :=
  agreeDE_trans (agreeDE_loopDnP f hf c i t) h

/-- `lSearch` never moves `d`, `e` or `en`, and its index result lies between
`start - count` and `start`. -/
theorem lSearch_spec (norm : K) :
    ∀ (c : Nat) (l : Int) (st : St K),
      (lSearch norm c l st).2.d = st.d ∧
      (lSearch norm c l st).2.e = st.e ∧
      (lSearch norm c l st).2.en = st.en ∧
      l - (c : Int) ≤ (lSearch norm c l st).1 ∧
      (lSearch norm c l st).1 ≤ l := by
  intro c
  induction c with
  | zero =>
    intro l st
    simp [lSearch]
  | succ c ih =>
    intro l st
    simp only [lSearch, sS_H]
    by_cases hc : |st.H l (l - 1)| <
        (NumModel.eps : K) * (if |st.H (l - 1) (l - 1)| + |st.H l l| = 0
          then norm else |st.H (l - 1) (l - 1)| + |st.H l l|)
    · rw [if_pos hc]
      refine ⟨by simp, by simp, by simp, by push_cast; omega, le_refl _⟩
    · rw [if_neg hc]
      obtain ⟨h1, h2, h3, h4, h5⟩ := ih (l - 1) _
      rw [h1, h2, h3]
      refine ⟨by simp, by simp, by simp, ?_, by omega⟩
      push_cast at h4 ⊢
      omega

set_option maxRecDepth 8000 in
/-- `formShift` never moves `d`, `e` or `en`. -/
theorem formShift_frame (low l : Int) (st : St K) :
    agreeDE (formShift low l st) st := by
  simp only [formShift]
  with_reducible repeat
    first
    | exact agreeDE_refl _
    | intro _ _
    | apply agreeDE_sH
    | apply agreeDE_sV
    | apply agreeDE_sOrt
    | apply agreeDE_sP
    | apply agreeDE_sQ
    | apply agreeDE_sR
    | apply agreeDE_sS
    | apply agreeDE_sX
    | apply agreeDE_sY
    | apply agreeDE_sZ
    | apply agreeDE_sW
    | apply agreeDE_sT
    | apply agreeDE_sExshift
    | apply agreeDE_sIter
    | apply agreeDE_ite
    | apply agreeDE_loopUpP_t
    | apply agreeDE_loopDnP_t

/-- The bulge-start search never moves `d`, `e` or `en`. -/
theorem hqr2MSearch_frame (l : Int) :
    ∀ (c : Nat) (m : Int) (st : St K),
      agreeDE (hqr2MSearch l c m st).2 st := by
  intro c
  induction c with
  | zero => intro m st; exact agreeDE_refl st
  | succ c ih =>
    intro m st
    simp only [hqr2MSearch, apply_ite Prod.snd]
    with_reducible repeat
      first
      | exact agreeDE_refl _
      | apply agreeDE_sP
      | apply agreeDE_sQ
      | apply agreeDE_sR
      | apply agreeDE_sS
      | apply agreeDE_sZ
      | apply agreeDE_ite
    refine agreeDE_trans (ih (m - 1) _) ?_
    with_reducible repeat
      first
      | exact agreeDE_refl _
      | apply agreeDE_sP
      | apply agreeDE_sQ
      | apply agreeDE_sR
      | apply agreeDE_sS
      | apply agreeDE_sZ

/-- `hqr2ZeroOut` never moves `d`, `e` or `en`. -/
theorem hqr2ZeroOut_frame (m n : Int) (st : St K) :
    agreeDE (hqr2ZeroOut m n st) st := by
  simp only [hqr2ZeroOut]
  with_reducible repeat
    first
    | exact agreeDE_refl _
    | intro _ _
    | apply agreeDE_sH
    | apply agreeDE_ite
    | apply agreeDE_loopUpP_t

/-- The bulge-chase core never moves `d`, `e` or `en`. -/
theorem hqr2KCore_frame (nn low high l m n k : Int) (st : St K) :
    agreeDE (hqr2KCore nn low high l m n k st) st := by
  simp only [hqr2KCore]
  with_reducible repeat
    first
    | exact agreeDE_refl _
    | intro _ _
    | apply agreeDE_sH
    | apply agreeDE_sV
    | apply agreeDE_sP
    | apply agreeDE_sQ
    | apply agreeDE_sR
    | apply agreeDE_sS
    | apply agreeDE_sX
    | apply agreeDE_sY
    | apply agreeDE_sZ
    | apply agreeDE_ite
    | apply agreeDE_loopUpP_t

/-- One bulge-chase column never moves `d`, `e` or `en`. -/
theorem hqr2KStep_frame (nn low high l m n k : Int) (st : St K) :
    agreeDE (hqr2KStep nn low high l m n k st) st := by
  simp only [hqr2KStep]
  with_reducible
    apply agreeDE_ite
  · with_reducible
      apply agreeDE_ite
    · with_reducible repeat
        first
        | exact agreeDE_refl _
        | apply agreeDE_sP
        | apply agreeDE_sQ
        | apply agreeDE_sR
        | apply agreeDE_sX
    · refine agreeDE_trans (hqr2KCore_frame nn low high l m n k _) ?_
      with_reducible repeat
        first
        | exact agreeDE_refl _
        | apply agreeDE_sP
        | apply agreeDE_sQ
        | apply agreeDE_sR
        | apply agreeDE_sX
  · exact hqr2KCore_frame nn low high l m n k st

/-- `oneRoot`: `d(en) := H(en,en)+exshift`, `e(en) := 0`, `en := en - 1`,
everything else untouched. -/
theorem oneRoot_spec (st : St K) :
    (oneRoot st).en = st.en - 1 ∧
    (oneRoot st).e st.en = 0 ∧
    (∀ j, j ≠ st.en → (oneRoot st).d j = st.d j ∧
      (oneRoot st).e j = st.e j) := by
  simp only [oneRoot]
  refine ⟨by simp, by simp, ?_⟩
  intro j hj
  simp only [sIter_d, sIter_e, sEn_d, sEn_e, sE_d, sE_e, sD_d, sD_e, sH_d,
    sH_e]
  exact ⟨vset_ne _ _ hj, vset_ne _ _ hj⟩

/-- The two-root prefix never moves `d`, `e` or `en`. -/
theorem twoRootsPre_frame (st : St K) : agreeDE (twoRootsPre st) st := by
  simp only [twoRootsPre]
  with_reducible repeat
    first
    | exact agreeDE_refl _
    | apply agreeDE_sH
    | apply agreeDE_sP
    | apply agreeDE_sQ
    | apply agreeDE_sX
    | apply agreeDE_sZ
    | apply agreeDE_sW

/-- After the two-root prefix, `z` is the square root of `|q|`. -/
theorem twoRootsPre_z (st : St K) :
    (twoRootsPre st).z = NumModel.sqrt (|(twoRootsPre st).q|) := by
  simp only [twoRootsPre, sX_z, sH_z, sZ_z, sX_q, sH_q, sZ_q, sQ_q, sQ_z]

/-- The real-pair branch zeroes `e` at `n-1` and `n`, moves `d` only there,
and keeps `e` elsewhere and `en`. -/
theorem twoRootsReal_spec (nn low high n : Int) (st : St K) :
    (twoRootsReal nn low high n st).en = st.en ∧
    (twoRootsReal nn low high n st).e (n - 1) = 0 ∧
    (twoRootsReal nn low high n st).e n = 0 ∧
    (∀ j, j ≠ n - 1 → j ≠ n →
      (twoRootsReal nn low high n st).d j = st.d j ∧
      (twoRootsReal nn low high n st).e j = st.e j) := by
  have hne := eq_false (show (n - 1 : Int) ≠ n by omega)
  simp only [twoRootsReal]
  refine ⟨?_, ?_, ?_, ?_⟩
  · rw [loopUpP_proj _ St.en (fun k u => by simp),
      loopUpP_proj _ St.en (fun k u => by simp),
      loopUpP_proj _ St.en (fun k u => by simp)]
    split_ifs <;> simp
  · rw [loopUpP_proj _ St.e (fun k u => by simp),
      loopUpP_proj _ St.e (fun k u => by simp),
      loopUpP_proj _ St.e (fun k u => by simp)]
    split_ifs <;>
      simp [vset, hne]
  · rw [loopUpP_proj _ St.e (fun k u => by simp),
      loopUpP_proj _ St.e (fun k u => by simp),
      loopUpP_proj _ St.e (fun k u => by simp)]
    split_ifs <;>
      simp [vset]
  · intro j hj1 hj2
    have hj1' := eq_false hj1
    have hj2' := eq_false hj2
    constructor
    · rw [loopUpP_proj _ St.d (fun k u => by simp),
        loopUpP_proj _ St.d (fun k u => by simp),
        loopUpP_proj _ St.d (fun k u => by simp)]
      split_ifs <;>
        simp only [sQ_d, sP_d, sR_d, sS_d, sX_d, sE_d, sD_d, sZ_d, vset,
          hj1', hj2', if_false]
    · rw [loopUpP_proj _ St.e (fun k u => by simp),
        loopUpP_proj _ St.e (fun k u => by simp),
        loopUpP_proj _ St.e (fun k u => by simp)]
      split_ifs <;>
        simp only [sQ_e, sP_e, sR_e, sS_e, sX_e, sE_e, sD_e, sZ_e, vset,
          hj1', hj2', if_false]

/-- The complex-pair branch: `e(n-1) = z`, `e(n) = -z`, `d(n-1) = d(n)`,
everything else untouched. -/
theorem twoRootsCplx_spec (n : Int) (st : St K) :
    (twoRootsCplx n st).en = st.en ∧
    (twoRootsCplx n st).e (n - 1) = st.z ∧
    (twoRootsCplx n st).e n = -st.z ∧
    (twoRootsCplx n st).d (n - 1) = st.x + st.p ∧
    (twoRootsCplx n st).d n = st.x + st.p ∧
    (∀ j, j ≠ n - 1 → j ≠ n →
      (twoRootsCplx n st).d j = st.d j ∧
      (twoRootsCplx n st).e j = st.e j) := by
  have hne := eq_false (show (n - 1 : Int) ≠ n by omega)
  simp only [twoRootsCplx]
  refine ⟨by simp, by simp [vset, hne], by simp [vset], by simp [vset, hne],
    by simp [vset, hne], ?_⟩
  intro j hj1 hj2
  have hj1' := eq_false hj1
  have hj2' := eq_false hj2
  exact ⟨by simp only [sE_d, sD_d, vset, hj1', hj2', if_false],
    by simp only [sE_e, sD_e, vset, hj1', hj2', if_false]⟩

/-- `twoRoots`: `en` drops by two, `d`/`e` move only at `en - 1` and `en`,
and the written pair is either two real roots (`e` zero at both) or a
complex-conjugate pair with the positive imaginary part first
(source lines 662-674). -/
theorem twoRoots_spec (nn low high : Int) (st : St K) :
    (twoRoots nn low high st).en = st.en - 2 ∧
    (∀ j, j ≠ st.en - 1 → j ≠ st.en →
      (twoRoots nn low high st).d j = st.d j ∧
      (twoRoots nn low high st).e j = st.e j) ∧
    (((twoRoots nn low high st).e (st.en - 1) = 0 ∧
      (twoRoots nn low high st).e st.en = 0) ∨
     (0 < (twoRoots nn low high st).e (st.en - 1) ∧
      (twoRoots nn low high st).d (st.en - 1)
        = (twoRoots nn low high st).d st.en ∧
      (twoRoots nn low high st).e st.en
        = -(twoRoots nn low high st).e (st.en - 1))) := by
  simp only [twoRoots, sIter_en, sEn_en, sIter_d, sEn_d, sIter_e, sEn_e]
  by_cases hq : 0 ≤ (twoRootsPre st).q
  · obtain ⟨r1, r2, r3, r4⟩ := twoRootsReal_spec nn low high st.en
      (twoRootsPre st)
    obtain ⟨p1, p2, p3⟩ := twoRootsPre_frame st
    rw [if_pos hq]
    refine ⟨trivial, ?_, Or.inl ⟨r2, r3⟩⟩
    intro j hj1 hj2
    obtain ⟨f1, f2⟩ := r4 j hj1 hj2
    rw [f1, f2, p1, p2]
    exact ⟨rfl, rfl⟩
  · obtain ⟨c1, c2, c3, c4, c5, c6⟩ := twoRootsCplx_spec st.en
      (twoRootsPre st)
    obtain ⟨p1, p2, p3⟩ := twoRootsPre_frame st
    rw [if_neg hq]
    refine ⟨trivial, ?_, Or.inr ?_⟩
    · intro j hj1 hj2
      obtain ⟨f1, f2⟩ := c6 j hj1 hj2
      rw [f1, f2, p1, p2]
      exact ⟨rfl, rfl⟩
    · rw [c2, c3, c4, c5]
      refine ⟨?_, rfl, rfl⟩
      rw [twoRootsPre_z]
      exact NumModel.sqrt_pos _ (abs_pos.mpr (ne_of_lt (not_le.mp hq)))

/-- `hqr2Norm` never moves `d`, `e` or `en` when `low = 0`,
`high = nn - 1` (every visited index is then an in-range root). -/
theorem hqr2Norm_frame (nn : Int) (st : St K) :
    agreeDE (hqr2Norm nn 0 (nn - 1) st).1 st := by
  simp only [hqr2Norm]
  by_cases hnn : 0 ≤ nn
  · refine (loopUpP_invar_le _
      (fun i (u : St K × K) => 0 ≤ i ∧ agreeDE u.1 st) nn ?_ nn.toNat 0
      (st, (0 : K)) (by omega) ⟨le_refl 0, agreeDE_refl st⟩).2
    intro i u hi hu
    refine ⟨by omega, ?_⟩
    dsimp only
    rw [if_neg (by omega : ¬ (i < 0 ∨ nn - 1 < i))]
    exact hu.2
  · rw [Int.toNat_of_nonpos (by omega)]
    exact agreeDE_refl st

/-- The deflation invariant of `hqr2`: the active index is at least `-1`
and below `nn`, every settled positive `e` entry heads an adjacent conjugate
pair, and every settled negative `e` entry is a pair's second member. -/
def HqInv (nn : Int) (st : St K) : Prop :=
  -1 ≤ st.en ∧ st.en < nn ∧
  (∀ i, st.en < i → i < nn → 0 < st.e i →
    i + 1 < nn ∧ st.d i = st.d (i + 1) ∧ st.e (i + 1) = -st.e i) ∧
  (∀ i, st.en < i → i < nn → st.e i < 0 → st.en + 1 < i)

theorem HqInv_of_agreeDE {nn : Int} {a b : St K} (hab : agreeDE a b)
    (h : HqInv nn b) : HqInv nn a := by
  obtain ⟨h1, h2, h3⟩ := hab
  simp only [HqInv, h1, h2, h3]
  exact h

/-- One outer deflation step preserves the invariant. -/
theorem hqr2OuterStep_inv (nn : Int) (norm : K) (st : St K)
    (hen : 0 ≤ st.en) (hI : HqInv nn st) :
    HqInv nn (hqr2OuterStep nn 0 (nn - 1) norm st) := by
  obtain ⟨hI1, hI2, hQ1, hQ2⟩ := hI
  obtain ⟨hd, he, hen2, hl1, hl2⟩ :=
    lSearch_spec norm (st.en - 0).toNat st.en st
  have htn : (((st.en - 0).toNat : Nat) : Int) = st.en := by omega
  rw [htn] at hl1
  simp only [hqr2OuterStep]
  by_cases h1 : (lSearch norm (st.en - 0).toNat st.en st).1 = st.en
  · rw [if_pos h1]
    obtain ⟨o1, o2, o3⟩ :=
      oneRoot_spec (lSearch norm (st.en - 0).toNat st.en st).2
    rw [hen2] at o1 o2 o3
    refine ⟨by rw [o1]; omega, by rw [o1]; omega, ?_, ?_⟩
    · intro i hi1 hi2 hpos
      rw [o1] at hi1
      by_cases hieq : i = st.en
      · rw [hieq, o2] at hpos
        exact absurd hpos (lt_irrefl 0)
      · have hi : st.en < i := by omega
        obtain ⟨f1, f2⟩ := o3 i (by omega)
        obtain ⟨g1, g2⟩ := o3 (i + 1) (by omega)
        rw [f2, he] at hpos
        obtain ⟨w1, w2, w3⟩ := hQ1 i hi hi2 hpos
        rw [f1, f2, g1, g2, hd, he]
        exact ⟨w1, w2, w3⟩
    · intro i hi1 hi2 hneg
      rw [o1] at hi1 ⊢
      by_cases hieq : i = st.en
      · rw [hieq, o2] at hneg
        exact absurd hneg (by simp)
      · omega
  · rw [if_neg h1]
    by_cases h2 : (lSearch norm (st.en - 0).toNat st.en st).1 = st.en - 1
    · rw [if_pos h2]
      have hen1 : 1 ≤ st.en := by omega
      obtain ⟨t1, t2, t3⟩ :=
        twoRoots_spec nn 0 (nn - 1) (lSearch norm (st.en - 0).toNat st.en st).2
      rw [hen2] at t1 t2 t3
      refine ⟨by rw [t1]; omega, by rw [t1]; omega, ?_, ?_⟩
      · intro i hi1 hi2 hpos
        rw [t1] at hi1
        by_cases hieq1 : i = st.en - 1
        · rcases t3 with ⟨z1, z2⟩ | ⟨zp, zd, zn⟩
          · rw [hieq1, z1] at hpos
            exact absurd hpos (lt_irrefl 0)
          · have hip : st.en - 1 + 1 = st.en := by omega
            rw [hieq1, hip]
            rw [hieq1] at hpos
            refine ⟨by omega, zd, ?_⟩
            rw [zn]
        · by_cases hieq2 : i = st.en
          · rcases t3 with ⟨z1, z2⟩ | ⟨zp, zd, zn⟩
            · rw [hieq2, z2] at hpos
              exact absurd hpos (lt_irrefl 0)
            · rw [hieq2, zn] at hpos
              exact absurd hpos (by simp only [not_lt]; linarith)
          · have hi : st.en < i := by omega
            obtain ⟨f1, f2⟩ := t2 i (by omega) (by omega)
            obtain ⟨g1, g2⟩ := t2 (i + 1) (by omega) (by omega)
            rw [f2, he] at hpos
            obtain ⟨w1, w2, w3⟩ := hQ1 i hi hi2 hpos
            rw [f1, f2, g1, g2, hd, he]
            exact ⟨w1, w2, w3⟩
      · intro i hi1 hi2 hneg
        rw [t1] at hi1 ⊢
        by_cases hieq1 : i = st.en - 1
        · rcases t3 with ⟨z1, z2⟩ | ⟨zp, zd, zn⟩
          · rw [hieq1, z1] at hneg
            exact absurd hneg (by simp)
          · rw [hieq1] at hneg
            exact absurd hneg (by simp only [not_lt]; exact zp.le)
        · omega
    · rw [if_neg h2]
      refine HqInv_of_agreeDE ?_ ⟨hI1, hI2, hQ1, hQ2⟩
      refine agreeDE_trans
        (agreeDE_loopUpP _ (fun i t => hqr2KStep_frame _ _ _ _ _ _ _ t) _ _ _)
        ?_
      refine agreeDE_trans (hqr2ZeroOut_frame _ _ _) ?_
      refine agreeDE_trans (hqr2MSearch_frame _ _ _ _) ?_
      refine agreeDE_trans (formShift_frame _ _ _) ⟨hd, he, hen2⟩

/-- The outer deflation loop preserves the invariant and, on success, has
driven the active index below `low = 0`. -/
theorem hqr2Loop_inv (nn : Int) (norm : K) :
    ∀ (fu : Nat) (st st' : St K),
      hqr2Loop nn 0 (nn - 1) norm fu st = .ok st' →
      HqInv nn st → HqInv nn st' ∧ st'.en < 0 := by
  intro fu
  induction fu with
  | zero =>
    intro st st' h hI
    simp only [hqr2Loop] at h
    by_cases hle : (0 : Int) ≤ st.en
    · rw [if_pos hle] at h
      exact absurd h (by simp)
    · rw [if_neg hle] at h
      cases h
      exact ⟨hI, by omega⟩
  | succ fu ih =>
    intro st st' h hI
    simp only [hqr2Loop] at h
    by_cases hle : (0 : Int) ≤ st.en
    · rw [if_pos hle] at h
      exact ih _ st' h (hqr2OuterStep_inv nn norm st hle hI)
    · rw [if_neg hle] at h
      cases h
      exact ⟨hI, by omega⟩

/-- One real back-substitution row never moves `d`, `e` or `en`. -/
theorem realVecStep_frame (norm : K) (n i : Int) (u : St K × Int) :
    agreeDE (realVecStep norm n i u).1 u.1 := by
  simp only [realVecStep, apply_ite Prod.fst]
  with_reducible repeat
    first
    | exact agreeDE_refl _
    | intro _ _
    | apply agreeDE_sH
    | apply agreeDE_sW
    | apply agreeDE_sR
    | apply agreeDE_sZ
    | apply agreeDE_sS
    | apply agreeDE_sX
    | apply agreeDE_sY
    | apply agreeDE_sQ
    | apply agreeDE_sT
    | apply agreeDE_ite
    | apply agreeDE_loopUpP_t

/-- First-component frame for pure descending loops over `St × Int`. -/
theorem loopDnP_fst_agree (f : Int → St K × Int → St K × Int)
    (hf : ∀ i u, agreeDE (f i u).1 u.1) :
    ∀ (c : Nat) (i : Int) (u : St K × Int),
      agreeDE (loopDnP f c i u).1 u.1 := by
  intro c
  induction c with
  | zero => intro i u; exact agreeDE_refl _
  | succ c ih =>
    intro i u
    exact agreeDE_trans (ih (i - 1) (f i u)) (hf i u)

/-- The complex-vector overflow guard never moves `d`, `e` or `en`. -/
theorem cplxOverflow_frame (n i : Int) (st st' : St K)
    (h : cplxOverflow n i st = .ok st') : agreeDE st' st := by
  simp only [cplxOverflow] at h
  split at h
  · refine agreeDE_trans
      (loopUp_ok_prop _ (fun _ u => agreeDE u (sT st
          (max (|st.H i (n - 1)|) (|st.H i n|)))) ?_ _ _ _ st' h
        (agreeDE_refl _))
      (agreeDE_sT _ (agreeDE_refl st))
    intro j u u' hb hu
    obtain ⟨a, ha, hb⟩ := bind_eq_ok hb
    obtain ⟨b, hbv, hb⟩ := bind_eq_ok hb
    cases hb
    exact agreeDE_sH _ (agreeDE_sH _ hu)
  · cases h
    exact agreeDE_sT _ (agreeDE_refl st)

/-- The 2x2 triangular start of a complex back-substitution never moves
`d`, `e` or `en`. -/
theorem cplxVecPre_frame (n : Int) (st st' : St K)
    (h : cplxVecPre n st = .ok st') : agreeDE st' st := by
  simp only [cplxVecPre] at h
  split at h
  · obtain ⟨a, ha, h⟩ := bind_eq_ok h
    obtain ⟨b, hb, h⟩ := bind_eq_ok h
    cases h
    exact agreeDE_sH _ (agreeDE_sH _ (agreeDE_refl st))
  · obtain ⟨ab, hab, h⟩ := bind_eq_ok h
    cases h
    exact agreeDE_sH _ (agreeDE_sH _ (agreeDE_refl st))

/-- One complex back-substitution row never moves `d`, `e` or `en`. -/
theorem cplxVecStep_frame (norm : K) (n i : Int) (u u' : St K × Int)
    (h : cplxVecStep norm n i u = .ok u') : agreeDE u'.1 u.1 := by
  simp only [cplxVecStep] at h
  split at h
  · cases h
    exact agreeDE_sS _ (agreeDE_sR _ (agreeDE_sZ _ (agreeDE_sW _
      (agreeDE_refl _))))
  · obtain ⟨st1, h1, h⟩ := bind_eq_ok h
    obtain ⟨st2, h2, h⟩ := bind_eq_ok h
    cases h
    refine agreeDE_trans (cplxOverflow_frame n i st1 st2 h2) ?_
    split at h1
    · obtain ⟨ab, hab, h1⟩ := bind_eq_ok h1
      cases h1
      exact agreeDE_sH _ (agreeDE_sH _ (agreeDE_sW _ (agreeDE_refl _)))
    · obtain ⟨ab, hab, h1⟩ := bind_eq_ok h1
      split at h1
      · obtain ⟨a, ha, h1⟩ := bind_eq_ok h1
        obtain ⟨b, hb, h1⟩ := bind_eq_ok h1
        cases h1
        exact agreeDE_sH _ (agreeDE_sH _ (agreeDE_sH _ (agreeDE_sH _
          (agreeDE_sY _ (agreeDE_sX _ (agreeDE_sW _ (agreeDE_refl _)))))))
      · obtain ⟨ab2, hab2, h1⟩ := bind_eq_ok h1
        cases h1
        exact agreeDE_sH _ (agreeDE_sH _ (agreeDE_sH _ (agreeDE_sH _
          (agreeDE_sY _ (agreeDE_sX _ (agreeDE_sW _ (agreeDE_refl _)))))))

/-- One back-substitution pass never moves `d`, `e` or `en`. -/
theorem phase2Step_frame (norm : K) (n : Int) (st st' : St K)
    (h : phase2Step norm n st = .ok st') : agreeDE st' st := by
  simp only [phase2Step] at h
  split at h
  · cases h
    refine agreeDE_trans
      (loopDnP_fst_agree _ (fun i u => realVecStep_frame norm n i u) _ _ _) ?_
    exact agreeDE_sH _ (agreeDE_sQ _ (agreeDE_sP _ (agreeDE_refl st)))
  · split at h
    · obtain ⟨st1, h1, h⟩ := bind_eq_ok h
      obtain ⟨w, hw, h⟩ := bind_eq_ok h
      cases h
      refine agreeDE_trans
        (loopDn_ok_prop _ (fun _ v => agreeDE v.1
            (sH (sH st1 (mset st1.H n (n - 1) 0))
              (mset (sH st1 (mset st1.H n (n - 1) 0)).H n n 1))) ?_ _ _ _ w hw
          (agreeDE_refl _)) ?_
      · intro j v v' hv hag
        exact agreeDE_trans (cplxVecStep_frame norm n j v v' hv) hag
      · refine agreeDE_trans (agreeDE_sH _ (agreeDE_sH _ (agreeDE_refl st1)))
          ?_
        refine agreeDE_trans (cplxVecPre_frame n _ st1 h1) ?_
        exact agreeDE_sQ _ (agreeDE_sP _ (agreeDE_refl st))
    · cases h
      exact agreeDE_sQ _ (agreeDE_sP _ (agreeDE_refl st))

/-- The final back-transformation never moves `d`, `e` or `en`. -/
theorem phase3_frame (nn low high : Int) (st : St K) :
    agreeDE (phase3 nn low high st) st := by
  simp only [phase3]
  with_reducible repeat
    first
    | exact agreeDE_refl _
    | intro _ _
    | apply agreeDE_sV
    | apply agreeDE_sZ
    | apply agreeDE_ite
    | apply agreeDE_loopUpP_t
    | apply agreeDE_loopDnP_t

/-- The invariant holds at entry to the deflation loop. -/
theorem hqr2Init_inv (nn : Int) (hnn : 0 ≤ nn) (st0 : St K) :
    HqInv nn (sIter (sZ (sS (sR (sQ (sP (sExshift (sEn st0 (nn - 1)) 0) 0) 0)
      0) 0) 0) 0) := by
  refine ⟨?_, ?_, ?_, ?_⟩ <;>
    simp only [sIter_en, sZ_en, sS_en, sR_en, sQ_en, sP_en, sExshift_en,
      sEn_en]
  · omega
  · omega
  · intro i hi1 hi2
    exact absurd hi2 (by omega)
  · intro i hi1 hi2
    exact absurd hi2 (by omega)

/-- The output of a completed `hqr2`: every positive `e` entry heads an
adjacent conjugate pair (`d` equal, next `e` its negation), and every
negative `e` entry has a predecessor. -/
theorem hqr2_spec (nn : Int) (fuel : Nat) (st0 st' : St K) (hnn : 0 ≤ nn)
    (h : hqr2 nn fuel st0 = .ok st') :
    (∀ i, 0 ≤ i → i < nn → 0 < st'.e i →
      i + 1 < nn ∧ st'.d i = st'.d (i + 1) ∧ st'.e (i + 1) = -st'.e i) ∧
    (∀ i, 0 ≤ i → i < nn → st'.e i < 0 → 1 ≤ i) := by
  simp only [hqr2] at h
  obtain ⟨st1, hloop, h2⟩ := bind_eq_ok h
  have hI0 : HqInv nn
      (hqr2Norm nn 0 (nn - 1)
        (sIter (sZ (sS (sR (sQ (sP (sExshift (sEn st0 (nn - 1)) 0) 0) 0) 0)
          0) 0) 0)).1 :=
    HqInv_of_agreeDE (hqr2Norm_frame nn _) (hqr2Init_inv nn hnn st0)
  obtain ⟨⟨hI1, hI2, hQ1, hQ2⟩, hen⟩ := hqr2Loop_inv nn _ fuel _ st1 hloop hI0
  have hen1 : st1.en = -1 := by omega
  have hfacts :
      (∀ i, 0 ≤ i → i < nn → 0 < st1.e i →
        i + 1 < nn ∧ st1.d i = st1.d (i + 1) ∧ st1.e (i + 1) = -st1.e i) ∧
      (∀ i, 0 ≤ i → i < nn → st1.e i < 0 → 1 ≤ i) := by
    constructor
    · intro i hi1 hi2 hpos
      exact hQ1 i (by omega) hi2 hpos
    · intro i hi1 hi2 hneg
      have := hQ2 i (by omega) hi2 hneg
      omega
  split at h2
  · cases h2
    exact hfacts
  · obtain ⟨st2, hph2, h3⟩ := bind_eq_ok h2
    cases h3
    have hag : agreeDE (phase3 nn 0 (nn - 1) st2) st1 := by
      refine agreeDE_trans (phase3_frame nn 0 (nn - 1) st2) ?_
      refine loopDn_ok_prop _ (fun _ v => agreeDE v st1) ?_ _ _ _ st2 hph2
        (agreeDE_refl _)
      intro j v v' hv hagv
      exact agreeDE_trans (phase2Step_frame _ j v v' hv) hagv
    obtain ⟨hgd, hge, hgen⟩ := hag
    rw [hgd, hge]
    exact hfacts

/-- C3: through the general constructor, any positive entry of the imaginary
eigenvalue sequence heads an adjacent complex-conjugate pair: the next real
part is equal and the next imaginary part is its negation (for a symmetric
input `e` is identically zero and the condition is vacuous, so this covers
exactly the non-symmetric path). -/
theorem conj_pair_adjacent (rows cols : Int) (A : Int → Int → K)
    (fuel : Nat) (r : Res K) (h : construct rows cols A fuel = .ok r) :
    ∀ i, 0 ≤ i → i < r.n → 0 < r.st.e i →
      i + 1 < r.n ∧ r.st.d i = r.st.d (i + 1) ∧
        r.st.e (i + 1) = -r.st.e i := by
  intro i hi1 hi2 hpos
  by_cases hsq : rows = cols
  · subst hsq
    simp only [construct, if_pos rfl] at h
    by_cases hs : symCheck A rows = true
    · rw [if_pos hs] at h
      obtain ⟨st, hpipe, hok⟩ := bind_eq_ok h
      obtain ⟨s1, htred, htql⟩ := bind_eq_ok hpipe
      have hr : r = ⟨rows, true, st⟩ := by cases hok; rfl
      subst hr
      have := tql2_e_zero rows fuel s1 st htql i hi1 hi2
      rw [this] at hpos
      exact absurd hpos (lt_irrefl 0)
    · rw [if_neg hs] at h
      obtain ⟨st, hpipe, hok⟩ := bind_eq_ok h
      obtain ⟨s1, horthes, hhqr2⟩ := bind_eq_ok hpipe
      have hr : r = ⟨rows, false, st⟩ := by cases hok; rfl
      subst hr
      have hi2' : i < rows := hi2
      exact (hqr2_spec rows fuel s1 st (by omega) hhqr2).1 i hi1 hi2 hpos
  · rw [construct_nonsquare_badSize rows cols A fuel hsq] at h
    exact absurd h (by simp)

/-- Witness for C3: on `[[0,1],[-1,0]]` the run yields `e(0) > 0` and the
conjugate partner is adjacent with the positive entry first. -/
theorem conj_pair_adjacent_witness :
    construct 2 2 matRot2 9
        = .ok (resGet (construct 2 2 matRot2 9) dfltRes) ∧
    ((0 : Int) ≤ 0 ∧
      (0 : Int) < (resGet (construct 2 2 matRot2 9) dfltRes).n ∧
      0 < (resGet (construct 2 2 matRot2 9) dfltRes).st.e 0) ∧
    (0 + 1 < (resGet (construct 2 2 matRot2 9) dfltRes).n ∧
      (resGet (construct 2 2 matRot2 9) dfltRes).st.d 0
        = (resGet (construct 2 2 matRot2 9) dfltRes).st.d (0 + 1) ∧
      (resGet (construct 2 2 matRot2 9) dfltRes).st.e (0 + 1)
        = -(resGet (construct 2 2 matRot2 9) dfltRes).st.e 0) := by
  have hok : construct 2 2 matRot2 9
      = .ok (resGet (construct 2 2 matRot2 9) dfltRes) :=
    resOk_eq_ok _ dfltRes (by decide)
  refine ⟨hok, ⟨by decide, by decide, by decide⟩, ?_⟩
  exact conj_pair_adjacent 2 2 matRot2 9 _ hok 0 (by decide) (by decide)
    (by decide)

/-- C9: for every constructed decomposition, `e(0) ≥ 0` and `e(n-1) ≤ 0`,
and more precisely a positive `e(i)` has `i+1 < n` and a negative `e(i)` has
`i ≥ 1` — exactly the bounds `getD` needs for its conditional off-diagonal
writes to stay inside the `n x n` result. -/
theorem imag_pair_bounds (rows cols : Int) (A : Int → Int → K) (fuel : Nat)
    (r : Res K) (h : construct rows cols A fuel = .ok r) :
    (1 ≤ r.n → 0 ≤ r.st.e 0 ∧ r.st.e (r.n - 1) ≤ 0) ∧
    (∀ i, 0 ≤ i → i < r.n →
      (0 < r.st.e i → i + 1 < r.n) ∧ (r.st.e i < 0 → 1 ≤ i)) := by
  have hcore : ∀ i, 0 ≤ i → i < r.n →
      (0 < r.st.e i → i + 1 < r.n) ∧ (r.st.e i < 0 → 1 ≤ i) := by
    intro i hi1 hi2
    by_cases hsq : rows = cols
    · subst hsq
      simp only [construct, if_pos rfl] at h
      by_cases hs : symCheck A rows = true
      · rw [if_pos hs] at h
        obtain ⟨st, hpipe, hok⟩ := bind_eq_ok h
        obtain ⟨s1, htred, htql⟩ := bind_eq_ok hpipe
        have hr : r = ⟨rows, true, st⟩ := by cases hok; rfl
        subst hr
        have hz := tql2_e_zero rows fuel s1 st htql i hi1 hi2
        constructor
        · intro hpos
          rw [hz] at hpos
          exact absurd hpos (lt_irrefl 0)
        · intro hneg
          rw [hz] at hneg
          exact absurd hneg (by simp)
      · rw [if_neg hs] at h
        obtain ⟨st, hpipe, hok⟩ := bind_eq_ok h
        obtain ⟨s1, horthes, hhqr2⟩ := bind_eq_ok hpipe
        have hr : r = ⟨rows, false, st⟩ := by cases hok; rfl
        subst hr
        have hi2' : i < rows := hi2
        obtain ⟨w1, w2⟩ := hqr2_spec rows fuel s1 st (by omega) hhqr2
        exact ⟨fun hpos => (w1 i hi1 hi2 hpos).1, fun hneg => w2 i hi1 hi2 hneg⟩
    · rw [construct_nonsquare_badSize rows cols A fuel hsq] at h
      exact absurd h (by simp)
  refine ⟨?_, hcore⟩
  intro hn
  constructor
  · by_contra hlt
    have := (hcore 0 (le_refl 0) (by omega)).2 (not_le.mp hlt)
    omega
  · by_contra hlt
    have := (hcore (r.n - 1) (by omega) (by omega)).1 (not_le.mp hlt)
    omega

/-- Witness for C9 on the `[[0,1],[-1,0]]` run. -/
theorem imag_pair_bounds_witness :
    construct 2 2 matRot2 9
        = .ok (resGet (construct 2 2 matRot2 9) dfltRes) ∧
    (1 : Int) ≤ (resGet (construct 2 2 matRot2 9) dfltRes).n ∧
    (0 ≤ (resGet (construct 2 2 matRot2 9) dfltRes).st.e 0 ∧
      (resGet (construct 2 2 matRot2 9) dfltRes).st.e
        ((resGet (construct 2 2 matRot2 9) dfltRes).n - 1) ≤ 0) := by
  have hok : construct 2 2 matRot2 9
      = .ok (resGet (construct 2 2 matRot2 9) dfltRes) :=
    resOk_eq_ok _ dfltRes (by decide)
  refine ⟨hok, by decide, ?_⟩
  exact (imag_pair_bounds 2 2 matRot2 9 _ hok).1 (by decide)

/-! ### Claim C8 — every checked division runs with a nonzero divisor -/

theorem cdiv_ok (a b : K) (h : b ≠ 0) : cdiv a b = .ok (a / b) := by
  simp [cdiv, h]

theorem cdivC_ok (xr xi yr yi : K) (h : yr * yr + yi * yi ≠ 0) :
    cdivC xr xi yr yi =
      .ok ((xr * yr + xi * yi) / (yr * yr + yi * yi),
           (xi * yr - xr * yi) / (yr * yr + yi * yi)) := by
  simp [cdivC, h]

theorem resDivZero_eq_false {K : Type} (x : DRes (Res K))
    (h : x ≠ .divZero) : resDivZero x = false := by
  cases x <;> simp_all [resDivZero]

/-- Range-aware ok-propagation for ascending loops: the body succeeds and
keeps the indexed invariant on every index below `hi`. -/
theorem loopUp_ok_invar_rng {σ : Type} (f : Int → σ → DRes σ)
    (P : Int → σ → Prop) (hi : Int)
    (hf : ∀ i s, i < hi → P i s → ∃ s', f i s = .ok s' ∧ P (i + 1) s') :
    ∀ (c : Nat) i s, i + (c : Int) ≤ hi → P i s →
      ∃ s', loopUp f c i s = .ok s' ∧ P (i + (c : Int)) s' := by
  intro c
  induction c with
  | zero =>
    intro i s _ hP
    exact ⟨s, rfl, by simpa using hP⟩
  | succ c ih =>
    intro i s hle hP
    have hi1 : i < hi := by push_cast at hle; omega
    obtain ⟨s1, hf1, hP1⟩ := hf i s hi1 hP
    obtain ⟨s', hl, hP'⟩ := ih (i + 1) s1 (by push_cast at hle ⊢; omega) hP1
    refine ⟨s', ?_, ?_⟩
    · simp [loopUp, hf1, hl]
    · have harith : i + 1 + (c : Int) = i + ((c : Int) + 1) := by ring
      rw [harith] at hP'
      simpa [Int.add_comm] using hP'

/-- Range-aware ok-propagation for descending loops: the body succeeds and
keeps the indexed invariant on every index at or above `lo`. -/
theorem loopDn_ok_invar_rng {σ : Type} (f : Int → σ → DRes σ)
    (P : Int → σ → Prop) (lo : Int)
    (hf : ∀ i s, lo ≤ i → P i s → ∃ s', f i s = .ok s' ∧ P (i - 1) s') :
    ∀ (c : Nat) i s, lo ≤ i - (c : Int) + 1 → P i s →
      ∃ s', loopDn f c i s = .ok s' ∧ P (i - (c : Int)) s' := by
  intro c
  induction c with
  | zero =>
    intro i s _ hP
    exact ⟨s, rfl, by simpa using hP⟩
  | succ c ih =>
    intro i s hle hP
    have hi1 : lo ≤ i := by push_cast at hle; omega
    obtain ⟨s1, hf1, hP1⟩ := hf i s hi1 hP
    obtain ⟨s', hl, hP'⟩ := ih (i - 1) s1 (by push_cast at hle ⊢; omega) hP1
    refine ⟨s', ?_, ?_⟩
    · simp [loopDn, hf1, hl]
    · have harith : i - 1 - (c : Int) = i - ((c : Int) + 1) := by ring
      rw [harith] at hP'
      simpa using hP'

/-- An absolute-value accumulation stays at or above its seed. -/
theorem foldAbs_ge_acc (v : Int → K) :
    ∀ (c : Nat) (j : Int) (acc : K),
      acc ≤ foldUpA (fun t a => a + |v t|) c j acc := by
  intro c
  induction c with
  | zero => intro j acc; exact le_refl _
  | succ c ih =>
    intro j acc
    calc acc ≤ acc + |v j| := le_add_of_nonneg_right (abs_nonneg _)
    _ ≤ _ := ih (j + 1) (acc + |v j|)

/-- An absolute-value accumulation dominates each scanned term. -/
theorem foldAbs_mem (v : Int → K) :
    ∀ (c : Nat) (j : Int) (acc : K) (k : Int), 0 ≤ acc → j ≤ k →
      k < j + (c : Int) →
      |v k| ≤ foldUpA (fun t a => a + |v t|) c j acc := by
  intro c
  induction c with
  | zero =>
    intro j acc k _ h1 h2
    push_cast at h2
    omega
  | succ c ih =>
    intro j acc k hacc h1 h2
    by_cases hk : k = j
    · subst hk
      calc |v k| ≤ acc + |v k| := le_add_of_nonneg_left hacc
      _ ≤ _ := foldAbs_ge_acc v c (k + 1) _
    · refine ih (j + 1) (acc + |v j|) k
        (add_nonneg hacc (abs_nonneg _)) (by omega) ?_
      push_cast at h2 ⊢
      omega

/-- An absolute-value accumulation over an all-zero window is its seed. -/
theorem foldAbs_all_zero (v : Int → K) :
    ∀ (c : Nat) (j : Int) (acc : K),
      (∀ k, j ≤ k → k < j + (c : Int) → v k = 0) →
      foldUpA (fun t a => a + |v t|) c j acc = acc := by
  intro c
  induction c with
  | zero => intro j acc _; rfl
  | succ c ih =>
    intro j acc hz
    have hj : v j = 0 := hz j (le_refl j) (by push_cast; omega)
    show foldUpA _ c (j + 1) (acc + |v j|) = acc
    rw [hj, abs_zero, add_zero]
    refine ih (j + 1) acc ?_
    intro k h1 h2
    refine hz k (by omega) ?_
    push_cast at h2 ⊢
    omega

/-- Nonzero scale: the scaling loop of one Householder step succeeds, its
accumulator is nonnegative, and positive as soon as one scanned `d` entry is
nonzero. -/
theorem tred2KH_ok (i : Int) (scale : K) (s : St K) (hs : scale ≠ 0) :
    ∃ u : St K × K, tred2KH i scale s = .ok u ∧ 0 ≤ u.2 ∧
      ((∃ k, 0 ≤ k ∧ k < i ∧ s.d k ≠ 0) → 0 < u.2) := by
  have h := loopUp_ok_invar
    (fun k (u : St K × K) =>
      DRes.bind (cdiv (u.1.d k) scale) fun dk =>
      .ok (sD u.1 (vset u.1.d k dk), u.2 + dk * dk))
    (fun j u => 0 ≤ u.2 ∧ (∀ k, j ≤ k → u.1.d k = s.d k) ∧
      ((∃ k, 0 ≤ k ∧ k < j ∧ s.d k ≠ 0) → 0 < u.2))
    ?_ i.toNat 0 (s, (0 : K)) ⟨le_refl 0, fun k _ => rfl, ?_⟩
  · obtain ⟨u, hu, h1, _, h3⟩ := h
    refine ⟨u, hu, h1, ?_⟩
    rintro ⟨k, hk0, hki, hkne⟩
    refine h3 ⟨k, hk0, ?_, hkne⟩
    have := Int.self_le_toNat i
    omega
  · intro j u hP
    obtain ⟨h1, h2, h3⟩ := hP
    refine ⟨(sD u.1 (vset u.1.d j (u.1.d j / scale)),
      u.2 + u.1.d j / scale * (u.1.d j / scale)), ?_, ?_, ?_, ?_⟩
    · show (cdiv (u.1.d j) scale).bind _ = _
      rw [cdiv_ok _ _ hs, DRes.bind_ok]
    · show 0 ≤ u.2 + u.1.d j / scale * (u.1.d j / scale)
      exact add_nonneg h1 (mul_self_nonneg _)
    · intro k hk
      show (sD u.1 (vset u.1.d j (u.1.d j / scale))).d k = s.d k
      simp only [sD_d]
      rw [vset_ne _ _ (show k ≠ j by omega)]
      exact h2 k (by omega)
    · rintro ⟨k, hk0, hkj, hkne⟩
      show 0 < u.2 + u.1.d j / scale * (u.1.d j / scale)
      by_cases hkj' : k = j
      · subst hkj'
        have hdj : u.1.d k = s.d k := h2 k (le_refl k)
        have hne : u.1.d k / scale ≠ 0 := by
          rw [hdj]
          exact div_ne_zero hkne hs
        exact add_pos_of_nonneg_of_pos h1 (mul_self_pos.mpr hne)
      · refine lt_of_lt_of_le (h3 ⟨k, hk0, by omega, hkne⟩) ?_
        exact le_add_of_nonneg_right (mul_self_nonneg _)
  · rintro ⟨k, hk0, hk, _⟩
    omega

theorem bind_ok_ex {σ τ : Type} {x : DRes σ} {f : σ → DRes τ}
    (hx : ∃ a, x = .ok a) (hf : ∀ a, x = .ok a → ∃ b, f a = .ok b) :
    ∃ b, DRes.bind x f = .ok b := by
  obtain ⟨a, ha⟩ := hx
  obtain ⟨b, hb⟩ := hf a ha
  exact ⟨b, by rw [ha, DRes.bind_ok, hb]⟩

/-- The `e(j)/h` loop of the Householder step succeeds whenever `h ≠ 0`. -/
theorem tred2EDiv_ok (i : Int) (h2 : K) (hne : h2 ≠ 0) (s : St K) (a : K) :
    ∃ u, loopUp (fun j (v : St K × K) =>
      DRes.bind (cdiv (v.1.e j) h2) fun ej =>
      .ok (sE v.1 (vset v.1.e j ej), v.2 + ej * v.1.d j)) i.toNat 0 (s, a) =
        .ok u := by
  have h := loopUp_ok_invar
    (fun j (v : St K × K) =>
      DRes.bind (cdiv (v.1.e j) h2) fun ej =>
      .ok (sE v.1 (vset v.1.e j ej), v.2 + ej * v.1.d j))
    (fun _ _ => True) ?_ i.toNat 0 (s, a) trivial
  · obtain ⟨u, hu, _⟩ := h
    exact ⟨u, hu⟩
  · intro j v _
    refine ⟨(sE v.1 (vset v.1.e j (v.1.e j / h2)),
      v.2 + v.1.e j / h2 * v.1.d j), ?_, trivial⟩
    show (cdiv (v.1.e j) h2).bind _ = _
    rw [cdiv_ok _ _ hne, DRes.bind_ok]

/-- The scaled `d(k)/h` loop of the accumulation pass succeeds when `h ≠ 0`. -/
theorem tred2DDiv_ok (col : Int) (c : Nat) (h2 : K) (hne : h2 ≠ 0) (s : St K) :
    ∃ u, loopUp (fun k (t : St K) =>
      DRes.bind (cdiv (t.V k col) h2) fun dk =>
      .ok (sD t (vset t.d k dk))) c 0 s = .ok u := by
  have h := loopUp_ok_invar
    (fun k (t : St K) =>
      DRes.bind (cdiv (t.V k col) h2) fun dk =>
      .ok (sD t (vset t.d k dk)))
    (fun _ _ => True) ?_ c 0 s trivial
  · obtain ⟨u, hu, _⟩ := h
    exact ⟨u, hu⟩
  · intro k t _
    refine ⟨sD t (vset t.d k (t.V k col / h2)), ?_, trivial⟩
    show (cdiv (t.V k col) h2).bind _ = _
    rw [cdiv_ok _ _ hne, DRes.bind_ok]

/-- The nonzero-scale Householder branch always succeeds: `h = Σ (d k / scale)²`
is positive, the choice of the reflector sign makes `f * g ≤ 0`, so the later
divisors `h - f*g` and `2*(h - f*g)` are positive. -/
theorem tred2MainBr_ok (i : Int) (scale : K) (s : St K) (hs : scale ≠ 0)
    (hex : ∃ k, 0 ≤ k ∧ k < i ∧ s.d k ≠ 0) :
    ∃ s', tred2MainBr i scale s = .ok s' := by
  obtain ⟨u, hu, h0, hpos⟩ := tred2KH_ok i scale s hs
  have hh0 : 0 < u.2 := hpos hex
  rw [tred2MainBr, hu, DRes.bind_ok]
  have hfg : u.1.d (i - 1) *
      (if 0 < u.1.d (i - 1) then -(NumModel.sqrt u.2) else NumModel.sqrt u.2) ≤
        0 := by
    by_cases hf : 0 < u.1.d (i - 1)
    · rw [if_pos hf]
      have := NumModel.sqrt_nonneg u.2 (le_of_lt hh0)
      nlinarith
    · rw [if_neg hf]
      have := NumModel.sqrt_nonneg u.2 (le_of_lt hh0)
      push_neg at hf
      nlinarith
  have hh2 : 0 < u.2 - u.1.d (i - 1) *
      (if 0 < u.1.d (i - 1) then -(NumModel.sqrt u.2) else NumModel.sqrt u.2) := by
    linarith
  refine bind_ok_ex (tred2EDiv_ok i _ (ne_of_gt hh2) _ 0) ?_
  intro sf _
  have hne4 : (u.2 - u.1.d (i - 1) *
        (if 0 < u.1.d (i - 1) then -(NumModel.sqrt u.2) else NumModel.sqrt u.2)) +
      (u.2 - u.1.d (i - 1) *
        (if 0 < u.1.d (i - 1) then -(NumModel.sqrt u.2) else NumModel.sqrt u.2)) ≠
        0 := ne_of_gt (by linarith)
  refine bind_ok_ex ⟨_, cdiv_ok sf.2 _ hne4⟩ ?_
  intro hh _
  exact ⟨_, rfl⟩

/-- One Householder iteration of `tred2` always succeeds: either the scale is
zero (guarded branch), or some `d k` below `i` is nonzero and the main branch
applies. -/
theorem tred2Step_ok (i : Int) (s : St K) : ∃ s', tred2Step i s = .ok s' := by
  rw [tred2Step]
  by_cases hsc : tred2Scale i s = 0
  · rw [if_pos hsc]
    exact ⟨_, rfl⟩
  · rw [if_neg hsc]
    refine tred2MainBr_ok i _ s hsc ?_
    by_contra hne
    push_neg at hne
    refine hsc ?_
    rw [tred2Scale]
    refine foldAbs_all_zero s.d i.toNat 0 0 ?_
    intro k h1 h2
    refine hne k h1 ?_
    have := Int.self_le_toNat i
    omega

/-- One accumulation iteration of `tred2` always succeeds: the division by `h`
is guarded by `h ≠ 0`. -/
theorem tred2AccStep_ok (n i : Int) (s : St K) :
    ∃ s', tred2AccStep n i s = .ok s' := by
  rw [tred2AccStep]
  refine bind_ok_ex ?_ fun a _ => ⟨_, rfl⟩
  by_cases hz : (sV (sV s (mset s.V (n - 1) i (s.V i i)))
      (mset (sV s (mset s.V (n - 1) i (s.V i i))).V i i 1)).d (i + 1) = 0
  · rw [if_pos hz]
    exact ⟨_, rfl⟩
  · rw [if_neg hz]
    exact bind_ok_ex (tred2DDiv_ok (i + 1) (i + 1).toNat _ hz _)
      fun a _ => ⟨_, rfl⟩

/-- `tred2` always succeeds: no division in it can be by zero. -/
theorem tred2_ok (n : Int) (s : St K) : ∃ s', tred2 n s = .ok s' := by
  rw [tred2]
  refine bind_ok_ex ?_ fun s1 _ => ?_
  · have h := loopDn_ok_invar tred2Step (fun _ _ => True)
      (fun i t _ => by
        obtain ⟨t', ht⟩ := tred2Step_ok i t
        exact ⟨t', ht, trivial⟩) (n - 1).toNat (n - 1) (tred2Init n s) trivial
    obtain ⟨u, hu, _⟩ := h
    exact ⟨u, hu⟩
  · refine bind_ok_ex ?_ fun s2 _ => ⟨_, rfl⟩
    have h := loopUp_ok_invar (tred2AccStep n) (fun _ _ => True)
      (fun i t _ => by
        obtain ⟨t', ht⟩ := tred2AccStep_ok n i t
        exact ⟨t', ht, trivial⟩) (n - 1).toNat 0 s1 trivial
    obtain ⟨u, hu, _⟩ := h
    exact ⟨u, hu⟩

/-- The `ort` scaling loop of one `orthes` column succeeds when `scale ≠ 0`:
`H` is untouched, the scanned `ort` entries hold `H(k,m-1)/scale`, lower
entries are untouched, the accumulator is nonnegative and positive as soon as
one scanned column entry of `H` is nonzero. -/
theorem orthesKH_ok (high m : Int) (scale : K) (s : St K) (hs : scale ≠ 0) :
    ∃ u : St K × K, loopDn (fun i (u : St K × K) =>
        DRes.bind (cdiv (u.1.H i (m - 1)) scale) fun oi =>
        .ok (sOrt u.1 (vset u.1.ort i oi), u.2 + oi * oi))
        (high - m + 1).toNat high (s, (0 : K)) = .ok u ∧
      0 ≤ u.2 ∧ u.1.H = s.H ∧
      (∀ k, high - ((high - m + 1).toNat : Int) < k → k ≤ high →
        u.1.ort k = s.H k (m - 1) / scale) ∧
      (∀ k, k ≤ high - ((high - m + 1).toNat : Int) → u.1.ort k = s.ort k) ∧
      ((∃ k, high - ((high - m + 1).toNat : Int) < k ∧ k ≤ high ∧
          s.H k (m - 1) ≠ 0) → 0 < u.2) := by
  have h := loopDn_ok_invar
    (fun i (u : St K × K) =>
      DRes.bind (cdiv (u.1.H i (m - 1)) scale) fun oi =>
      .ok (sOrt u.1 (vset u.1.ort i oi), u.2 + oi * oi))
    (fun i u => 0 ≤ u.2 ∧ u.1.H = s.H ∧
      (∀ k, i < k → k ≤ high → u.1.ort k = s.H k (m - 1) / scale) ∧
      (∀ k, k ≤ i → u.1.ort k = s.ort k) ∧
      ((∃ k, i < k ∧ k ≤ high ∧ s.H k (m - 1) ≠ 0) → 0 < u.2))
    ?_ (high - m + 1).toNat high (s, (0 : K))
    ⟨le_refl 0, rfl, fun k hk1 hk2 => absurd hk1 (by omega),
      fun k _ => rfl, fun hex => by obtain ⟨k, hk1, hk2, _⟩ := hex; omega⟩
  · obtain ⟨u, hu, h1, h2, h3, h4, h5⟩ := h
    exact ⟨u, hu, h1, h2, h3, h4, h5⟩
  · intro i u hP
    obtain ⟨h1, h2, h3, h4, h5⟩ := hP
    refine ⟨(sOrt u.1 (vset u.1.ort i (u.1.H i (m - 1) / scale)),
      u.2 + u.1.H i (m - 1) / scale * (u.1.H i (m - 1) / scale)),
      ?_, ?_, ?_, ?_, ?_, ?_⟩
    · show (cdiv (u.1.H i (m - 1)) scale).bind _ = _
      rw [cdiv_ok _ _ hs, DRes.bind_ok]
    · exact add_nonneg h1 (mul_self_nonneg _)
    · show (sOrt u.1 _).H = s.H
      rw [sOrt_H]
      exact h2
    · intro k hk1 hk2
      show vset u.1.ort i (u.1.H i (m - 1) / scale) k = s.H k (m - 1) / scale
      by_cases hki : k = i
      · subst hki
        rw [vset_same, h2]
      · rw [vset_ne _ _ hki]
        exact h3 k (by omega) hk2
    · intro k hk
      show vset u.1.ort i (u.1.H i (m - 1) / scale) k = s.ort k
      rw [vset_ne _ _ (show k ≠ i by omega)]
      exact h4 k (by omega)
    · rintro ⟨k, hk1, hk2, hkne⟩
      show 0 < u.2 + u.1.H i (m - 1) / scale * (u.1.H i (m - 1) / scale)
      by_cases hki : k = i
      · subst hki
        have : u.1.H k (m - 1) ≠ 0 := by rw [h2]; exact hkne
        exact add_pos_of_nonneg_of_pos h1
          (mul_self_pos.mpr (div_ne_zero this hs))
      · refine lt_of_lt_of_le (h5 ⟨k, by omega, hk2, hkne⟩) ?_
        exact le_add_of_nonneg_right (mul_self_nonneg _)

/-- First correction loop of an `orthes` column: succeeds when the divisor is
nonzero, never touches `ort`, and never touches columns of `H` below `m`. -/
theorem orthesCorr1_ok (high m : Int) (h2 : K) (hne : h2 ≠ 0) (cnt : Nat)
    (s0 : St K) :
    ∃ t, loopUp (fun j (t : St K) =>
        DRes.bind (cdiv (foldDnA (fun i acc => acc + t.ort i * t.H i j)
          (high - m + 1).toNat high 0) h2) fun f =>
        .ok (loopUpP (fun i (u2 : St K) =>
            sH u2 (mset u2.H i j (u2.H i j - f * u2.ort i)))
            (high - m + 1).toNat m t)) cnt m s0 = .ok t ∧
      t.ort = s0.ort ∧ (∀ r c, c < m → t.H r c = s0.H r c) := by
  have hinner : ∀ (f : K) (j : Int) (t : St K), m ≤ j → t.ort = s0.ort →
      (∀ r c, c < m → t.H r c = s0.H r c) →
      (loopUpP (fun i (u2 : St K) =>
          sH u2 (mset u2.H i j (u2.H i j - f * u2.ort i)))
          (high - m + 1).toNat m t).ort = s0.ort ∧
        (∀ r c, c < m →
          (loopUpP (fun i (u2 : St K) =>
            sH u2 (mset u2.H i j (u2.H i j - f * u2.ort i)))
            (high - m + 1).toNat m t).H r c = s0.H r c) := by
    intro f j t hmj hort hH
    exact loopUpP_pres
      (fun i (u2 : St K) => sH u2 (mset u2.H i j (u2.H i j - f * u2.ort i)))
      (fun u2 => u2.ort = s0.ort ∧ ∀ r c, c < m → u2.H r c = s0.H r c)
      (fun i u2 hP => by
        refine ⟨?_, ?_⟩
        · show (sH u2 (mset u2.H i j (u2.H i j - f * u2.ort i))).ort = s0.ort
          rw [sH_ort]
          exact hP.1
        · intro r c hc
          show (sH u2 (mset u2.H i j (u2.H i j - f * u2.ort i))).H r c = s0.H r c
          rw [sH_H, mset_ne _ _ (by rintro ⟨_, rfl⟩; omega)]
          exact hP.2 r c hc)
      (high - m + 1).toNat m t ⟨hort, hH⟩
  have h := loopUp_ok_invar
    (fun j (t : St K) =>
      DRes.bind (cdiv (foldDnA (fun i acc => acc + t.ort i * t.H i j)
        (high - m + 1).toNat high 0) h2) fun f =>
      .ok (loopUpP (fun i (u2 : St K) =>
          sH u2 (mset u2.H i j (u2.H i j - f * u2.ort i)))
          (high - m + 1).toNat m t))
    (fun j t => m ≤ j ∧ t.ort = s0.ort ∧ ∀ r c, c < m → t.H r c = s0.H r c)
    ?_ cnt m s0 ⟨le_refl m, rfl, fun r c _ => rfl⟩
  · obtain ⟨t, ht, _, h2o, h3⟩ := h
    exact ⟨t, ht, h2o, h3⟩
  · intro j t hP
    obtain ⟨hmj, hort, hH⟩ := hP
    obtain ⟨ho', hh'⟩ := hinner
      (foldDnA (fun i acc => acc + t.ort i * t.H i j)
        (high - m + 1).toNat high 0 / h2) j t hmj hort hH
    refine ⟨_, ?_, by omega, ho', hh'⟩
    show (cdiv (foldDnA (fun i acc => acc + t.ort i * t.H i j)
      (high - m + 1).toNat high 0) h2).bind _ = _
    rw [cdiv_ok _ _ hne, DRes.bind_ok]

/-- Second correction loop of an `orthes` column: succeeds when the divisor is
nonzero, never touches `ort`, and never touches columns of `H` below `m`. -/
theorem orthesCorr2_ok (high m : Int) (h2 : K) (hne : h2 ≠ 0) (cnt : Nat)
    (start : Int) (s0 : St K) :
    ∃ t, loopUp (fun i (t : St K) =>
        DRes.bind (cdiv (foldDnA (fun j acc => acc + t.ort j * t.H i j)
          (high - m + 1).toNat high 0) h2) fun f =>
        .ok (loopUpP (fun j (u2 : St K) =>
            sH u2 (mset u2.H i j (u2.H i j - f * u2.ort j)))
            (high - m + 1).toNat m t)) cnt start s0 = .ok t ∧
      t.ort = s0.ort ∧ (∀ r c, c < m → t.H r c = s0.H r c) := by
  have hinner : ∀ (f : K) (i : Int) (t : St K), t.ort = s0.ort →
      (∀ r c, c < m → t.H r c = s0.H r c) →
      (loopUpP (fun j (u2 : St K) =>
          sH u2 (mset u2.H i j (u2.H i j - f * u2.ort j)))
          (high - m + 1).toNat m t).ort = s0.ort ∧
        (∀ r c, c < m →
          (loopUpP (fun j (u2 : St K) =>
            sH u2 (mset u2.H i j (u2.H i j - f * u2.ort j)))
            (high - m + 1).toNat m t).H r c = s0.H r c) := by
    intro f i t hort hH
    have h := loopUpP_invar
      (fun j (u2 : St K) => sH u2 (mset u2.H i j (u2.H i j - f * u2.ort j)))
      (fun k (u2 : St K) => m ≤ k ∧ u2.ort = s0.ort ∧
        ∀ r c, c < m → u2.H r c = s0.H r c)
      (fun k u2 hP => by
        refine ⟨by omega, ?_, ?_⟩
        · show (sH u2 (mset u2.H i k (u2.H i k - f * u2.ort k))).ort = s0.ort
          rw [sH_ort]
          exact hP.2.1
        · intro r c hc
          show (sH u2 (mset u2.H i k (u2.H i k - f * u2.ort k))).H r c = s0.H r c
          have hm := hP.1
          rw [sH_H, mset_ne _ _ (by rintro ⟨_, rfl⟩; omega)]
          exact hP.2.2 r c hc)
      (high - m + 1).toNat m t ⟨le_refl m, hort, hH⟩
    exact ⟨h.2.1, h.2.2⟩
  have h := loopUp_ok_invar
    (fun i (t : St K) =>
      DRes.bind (cdiv (foldDnA (fun j acc => acc + t.ort j * t.H i j)
        (high - m + 1).toNat high 0) h2) fun f =>
      .ok (loopUpP (fun j (u2 : St K) =>
          sH u2 (mset u2.H i j (u2.H i j - f * u2.ort j)))
          (high - m + 1).toNat m t))
    (fun _ t => t.ort = s0.ort ∧ ∀ r c, c < m → t.H r c = s0.H r c)
    ?_ cnt start s0 ⟨rfl, fun r c _ => rfl⟩
  · obtain ⟨t, ht, h2o, h3⟩ := h
    exact ⟨t, ht, h2o, h3⟩
  · intro i t hP
    obtain ⟨hort, hH⟩ := hP
    obtain ⟨ho', hh'⟩ := hinner
      (foldDnA (fun j acc => acc + t.ort j * t.H i j)
        (high - m + 1).toNat high 0 / h2) i t hort hH
    refine ⟨_, ?_, ho', hh'⟩
    show (cdiv (foldDnA (fun j acc => acc + t.ort j * t.H i j)
      (high - m + 1).toNat high 0) h2).bind _ = _
    rw [cdiv_ok _ _ hne, DRes.bind_ok]

theorem bind_ok_ex_prop {σ τ : Type} {x : DRes σ} {f : σ → DRes τ}
    {Q : τ → Prop} (hx : ∃ a, x = .ok a)
    (hf : ∀ a, x = .ok a → ∃ b, f a = .ok b ∧ Q b) :
    ∃ b, DRes.bind x f = .ok b ∧ Q b := by
  obtain ⟨a, ha⟩ := hx
  obtain ⟨b, hb, hQ⟩ := hf a ha
  exact ⟨b, by rw [ha, DRes.bind_ok, hb], hQ⟩

/-- One `orthes` column elimination always succeeds; it leaves `ort` and the
subdiagonal of `H` untouched below `m`, and on exit a nonzero subdiagonal entry
`H(m,m-1)` comes with a nonzero `ort m` (the Householder vector head). -/
theorem orthesStep_ok (n high m : Int) (s : St K) (hm : m < high) :
    ∃ s', orthesStep n high m s = .ok s' ∧
      (∀ mm, mm < m → s'.ort mm = s.ort mm ∧
        s'.H mm (mm - 1) = s.H mm (mm - 1)) ∧
      (s'.H m (m - 1) ≠ 0 → s'.ort m ≠ 0) := by
  have htn : ((high - m + 1).toNat : Int) = high - m + 1 := by omega
  rw [orthesStep]
  by_cases hsc : orthesScale high m s = 0
  · rw [if_pos hsc]
    refine ⟨s, rfl, fun mm _ => ⟨rfl, rfl⟩, ?_⟩
    intro hH
    exfalso
    refine hH ?_
    have h1 : |s.H m (m - 1)| ≤ orthesScale high m s := by
      rw [orthesScale]
      refine foldAbs_mem (fun i => s.H i (m - 1)) _ m 0 m (le_refl 0)
        (le_refl m) ?_
      omega
    rw [hsc] at h1
    exact abs_eq_zero.mp (le_antisymm h1 (abs_nonneg _))
  · rw [if_neg hsc]
    have hex : ∃ k, m ≤ k ∧ k ≤ high ∧ s.H k (m - 1) ≠ 0 := by
      by_contra hno
      push_neg at hno
      refine hsc ?_
      rw [orthesScale]
      refine foldAbs_all_zero (fun i => s.H i (m - 1)) _ m 0 ?_
      intro k h1 h2
      exact hno k h1 (by omega)
    obtain ⟨u, hu, hunn, hH, hvals, hlo, hpos⟩ :=
      orthesKH_ok high m (orthesScale high m s) s hsc
    rw [hu, DRes.bind_ok]
    obtain ⟨k0, hk0m, hk0h, hk0ne⟩ := hex
    have hh0 : 0 < u.2 := hpos ⟨k0, by omega, hk0h, hk0ne⟩
    have hsq : 0 < NumModel.sqrt u.2 := NumModel.sqrt_pos u.2 hh0
    have hfg : u.1.ort m *
        (if 0 < u.1.ort m then -(NumModel.sqrt u.2) else NumModel.sqrt u.2) ≤
          0 := by
      by_cases hf : 0 < u.1.ort m
      · rw [if_pos hf]
        nlinarith
      · rw [if_neg hf]
        push_neg at hf
        nlinarith
    have hh2 : 0 < u.2 - u.1.ort m *
        (if 0 < u.1.ort m then -(NumModel.sqrt u.2) else NumModel.sqrt u.2) := by
      linarith
    have hdm : u.1.ort m -
        (if 0 < u.1.ort m then -(NumModel.sqrt u.2) else NumModel.sqrt u.2) ≠
          0 := by
      by_cases hf : 0 < u.1.ort m
      · rw [if_pos hf]
        intro hq
        nlinarith
      · rw [if_neg hf]
        push_neg at hf
        intro hq
        nlinarith
    obtain ⟨t1, ht1, ht1o, ht1H⟩ := orthesCorr1_ok high m _ (ne_of_gt hh2)
      (n - m).toNat
      (sOrt u.1 (vset u.1.ort m (u.1.ort m -
        (if 0 < u.1.ort m then -(NumModel.sqrt u.2) else NumModel.sqrt u.2))))
    refine bind_ok_ex_prop ⟨t1, ht1⟩ ?_
    intro a ha
    rw [ht1] at ha
    injection ha with ha
    subst ha
    obtain ⟨t2, ht2, ht2o, ht2H⟩ := orthesCorr2_ok high m _ (ne_of_gt hh2)
      (high + 1).toNat 0 t1
    refine bind_ok_ex_prop ⟨t2, ht2⟩ ?_
    intro b hb
    rw [ht2] at hb
    injection hb with hb
    subst hb
    refine ⟨_, rfl, ?_, ?_⟩
    · intro mm hmm
      constructor
      · show vset t2.ort m _ mm = s.ort mm
        rw [vset_ne _ _ (show mm ≠ m by omega), ht2o, ht1o]
        show vset u.1.ort m _ mm = s.ort mm
        rw [vset_ne _ _ (show mm ≠ m by omega)]
        exact hlo mm (by omega)
      · show mset t2.H m (m - 1) _ mm (mm - 1) = s.H mm (mm - 1)
        rw [mset_ne _ _ (by rintro ⟨rfl, _⟩; omega)]
        have h2 := ht2H mm (mm - 1) (by omega)
        have h1 := ht1H mm (mm - 1) (by omega)
        rw [h2, h1]
        show u.1.H mm (mm - 1) = s.H mm (mm - 1)
        rw [hH]
    · intro _
      show vset t2.ort m (orthesScale high m s * t2.ort m) m ≠ 0
      rw [vset_same]
      refine mul_ne_zero hsc ?_
      rw [ht2o, ht1o]
      show vset u.1.ort m _ m ≠ 0
      rw [vset_same]
      exact hdm

/-- One `ortran` accumulation step succeeds whenever a nonzero pivot
`H(m,m-1)` implies a nonzero `ort m` (the fact `orthes` established), and it
leaves `ort` and the subdiagonal of `H` untouched below `m`. -/
theorem ortranStep_ok (high m : Int) (s : St K)
    (hQ : s.H m (m - 1) ≠ 0 → s.ort m ≠ 0) :
    ∃ s', ortranStep high m s = .ok s' ∧
      (∀ mm, mm < m → s'.ort mm = s.ort mm ∧
        s'.H mm (mm - 1) = s.H mm (mm - 1)) := by
  rw [ortranStep]
  by_cases hz : s.H m (m - 1) = 0
  · rw [if_pos hz]
    exact ⟨s, rfl, fun mm _ => ⟨rfl, rfl⟩⟩
  · rw [if_neg hz]
    have hortm := hQ hz
    have hpre := loopUpP_invar
      (fun i (t : St K) => sOrt t (vset t.ort i (t.H i (m - 1))))
      (fun k t => m + 1 ≤ k ∧ (∀ mm, mm ≤ m → t.ort mm = s.ort mm) ∧
        t.H = s.H)
      (fun k t hP => by
        refine ⟨by omega, ?_, ?_⟩
        · intro mm hmm
          show vset t.ort k (t.H k (m - 1)) mm = s.ort mm
          have hk := hP.1
          rw [vset_ne _ _ (show mm ≠ k by omega)]
          exact hP.2.1 mm hmm
        · show (sOrt t (vset t.ort k (t.H k (m - 1)))).H = s.H
          rw [sOrt_H]
          exact hP.2.2)
      (high - m).toNat (m + 1) s ⟨le_refl _, fun mm _ => rfl, rfl⟩
  -- after the pre-loop, run the j-loop with a pure frame invariant
    obtain ⟨_, h1o, h1H⟩ := hpre
    have h := loopUp_ok_invar
      (fun j (t : St K) =>
        DRes.bind (cdiv (foldUpA (fun i acc => acc + t.ort i * t.V i j)
          (high - m + 1).toNat m 0) (t.ort m)) fun g1 =>
        DRes.bind (cdiv g1 (t.H m (m - 1))) fun g2 =>
        .ok (loopUpP (fun i (u2 : St K) =>
            sV u2 (mset u2.V i j (u2.V i j + g2 * u2.ort i)))
            (high - m + 1).toNat m t))
      (fun _ t => (∀ mm, mm ≤ m → t.ort mm = s.ort mm) ∧ t.H = s.H)
      ?_ (high - m + 1).toNat m
      (loopUpP (fun i (t : St K) => sOrt t (vset t.ort i (t.H i (m - 1))))
        (high - m).toNat (m + 1) s) ⟨h1o, h1H⟩
    · obtain ⟨t, ht, hto, htH⟩ := h
      refine ⟨t, ht, ?_⟩
      intro mm hmm
      exact ⟨hto mm (by omega), by rw [htH]⟩
    · intro j t hP
      obtain ⟨hto, htH⟩ := hP
      have hne1 : t.ort m ≠ 0 := by
        rw [hto m (le_refl m)]
        exact hortm
      have hne2 : t.H m (m - 1) ≠ 0 := by
        rw [htH]
        exact hz
      have hfr : ∀ g2 : K,
          (loopUpP (fun i (u2 : St K) =>
            sV u2 (mset u2.V i j (u2.V i j + g2 * u2.ort i)))
            (high - m + 1).toNat m t).ort = t.ort ∧
          (loopUpP (fun i (u2 : St K) =>
            sV u2 (mset u2.V i j (u2.V i j + g2 * u2.ort i)))
            (high - m + 1).toNat m t).H = t.H := by
        intro g2
        exact loopUpP_pres
          (fun i (u2 : St K) =>
            sV u2 (mset u2.V i j (u2.V i j + g2 * u2.ort i)))
          (fun u2 => u2.ort = t.ort ∧ u2.H = t.H)
          (fun i u2 hP2 => ⟨hP2.1, hP2.2⟩)
          (high - m + 1).toNat m t ⟨rfl, rfl⟩
      refine ⟨loopUpP (fun i (u2 : St K) =>
          sV u2 (mset u2.V i j (u2.V i j +
            foldUpA (fun i acc => acc + t.ort i * t.V i j)
              (high - m + 1).toNat m 0 / t.ort m / t.H m (m - 1) * u2.ort i)))
          (high - m + 1).toNat m t, ?_, ?_⟩
      · show (cdiv (foldUpA (fun i acc => acc + t.ort i * t.V i j)
          (high - m + 1).toNat m 0) (t.ort m)).bind _ = _
        simp only [cdiv_ok _ _ hne1, cdiv_ok _ _ hne2, DRes.bind_ok]
      · obtain ⟨ho1, hh1⟩ := hfr
          (foldUpA (fun i acc => acc + t.ort i * t.V i j)
            (high - m + 1).toNat m 0 / t.ort m / t.H m (m - 1))
        refine ⟨?_, ?_⟩
        · intro mm hmm
          rw [ho1]
          exact hto mm hmm
        · rw [hh1]
          exact htH

/-- `orthes` always succeeds: the only divisions are the scale-guarded
Householder divisions and the `ortran` divisions by `ort m` and `H(m,m-1)`,
the latter guarded by `H(m,m-1) ≠ 0`, which forces `ort m ≠ 0`. -/
theorem orthes_ok (n : Int) (s : St K) : ∃ s', orthes n s = .ok s' := by
  rw [orthes]
  by_cases hn : n ≤ 2
  · have hc : (n - 1 - 1).toNat = 0 := by omega
    rw [hc]
    exact ⟨_, rfl⟩
  · push_neg at hn
    have h1 := loopUp_ok_invar_rng (orthesStep n (n - 1))
      (fun j u => ∀ mm, 1 ≤ mm → mm < j →
        (u.H mm (mm - 1) ≠ 0 → u.ort mm ≠ 0))
      (n - 1) ?_ (n - 1 - 1).toNat 1 s (by omega) ?_
    · obtain ⟨s2, heq1, hQ2⟩ := h1
      rw [heq1, DRes.bind_ok]
      have h2 := loopDn_ok_invar_rng (ortranStep (n - 1))
        (fun m u => m ≤ n - 1 - 1 ∧ ∀ mm, mm ≤ m →
          (u.ort mm = s2.ort mm ∧ u.H mm (mm - 1) = s2.H mm (mm - 1)))
        1 ?_ (n - 1 - 1).toNat (n - 1 - 1)
        (sV s2 (fun i j => if i = j ∧ 0 ≤ i ∧ i < n then 1 else 0))
        (by omega) ⟨le_refl _, fun mm _ => ⟨rfl, rfl⟩⟩
      · obtain ⟨s3, heq2, _⟩ := h2
        exact ⟨s3, heq2⟩
      · intro m u hm hP
        obtain ⟨hub, hfr⟩ := hP
        obtain ⟨ho, hhh⟩ := hfr m (le_refl m)
        have hQm : u.H m (m - 1) ≠ 0 → u.ort m ≠ 0 := by
          rw [ho, hhh]
          refine hQ2 m hm ?_
          omega
        obtain ⟨s', hok, hframe⟩ := ortranStep_ok (n - 1) m u hQm
        refine ⟨s', hok, by omega, ?_⟩
        intro mm hmm
        obtain ⟨ho2, hh2⟩ := hframe mm (by omega)
        obtain ⟨ho3, hh3⟩ := hfr mm (by omega)
        exact ⟨by rw [ho2, ho3], by rw [hh2, hh3]⟩
    · intro i u hi hP
      obtain ⟨s', hok, hframe, hnew⟩ := orthesStep_ok n (n - 1) i u hi
      refine ⟨s', hok, ?_⟩
      intro mm hm1 hm2
      by_cases hmi : mm = i
      · subst hmi
        exact hnew
      · obtain ⟨ho, hhh⟩ := hframe mm (by omega)
        rw [ho, hhh]
        exact hP mm hm1 (by omega)
    · intro mm hm1 hm2
      omega

/-- Every index scanned before `mSearch` stops has `|e i|` above the bound,
and the search never moves backwards. -/
theorem mSearch_window (e : Int → K) (bound : K) :
    ∀ (c : Nat) (m0 : Int),
      (∀ i, m0 ≤ i → i < mSearch e bound c m0 → bound < |e i|) ∧
        m0 ≤ mSearch e bound c m0 := by
  intro c
  induction c with
  | zero =>
    intro m0
    refine ⟨?_, le_refl _⟩
    intro i h1 h2
    simp only [mSearch] at h2
    omega
  | succ c ih =>
    intro m0
    by_cases h : |e m0| ≤ bound
    · refine ⟨?_, ?_⟩
      · intro i h1 h2
        simp only [mSearch, if_pos h] at h2
        omega
      · simp only [mSearch, if_pos h]
        exact le_refl _
    · refine ⟨?_, ?_⟩
      · intro i h1 h2
        simp only [mSearch, if_neg h] at h2
        by_cases hi : i = m0
        · subst hi
          exact lt_of_not_le h
        · exact (ih (m0 + 1)).1 i (by omega) h2
      · simp only [mSearch, if_neg h]
        have := (ih (m0 + 1)).2
        omega

/-- The plane-rotation loop of a QL pass is division-safe and regenerates a
nonzero off-diagonal strictly inside the window: every divisor is
`r = hypot(p, e i)` with `e i` the untouched entry of the window (nonzero),
and each written `e (i+1)` is `s * r` with `s` the previous quotient. -/
theorem rotLoop_safe (n l m : Int) (E : Int → K)
    (hE : ∀ k, l ≤ k → k < m → E k ≠ 0) :
    ∀ (c : Nat) (i : Int) (u : Rot K),
      i - (c : Int) = l - 1 → i ≤ m - 1 →
      (∀ k, k ≤ i + 1 → u.st.e k = E k) →
      (∀ k, i + 1 < k → k < m → u.st.e k ≠ 0) →
      (i < m - 1 → u.sv ≠ 0) →
      ∃ v, loopDn (tql2RotStep n) c i u = .ok v ∧
        (∀ k, l < k → k < m → v.st.e k ≠ 0) := by
  intro c
  induction c with
  | zero =>
    intro i u hc _ _ h4 _
    have hi : i = l - 1 := by push_cast at hc; omega
    refine ⟨u, rfl, ?_⟩
    intro k hk1 hk2
    exact h4 k (by omega) hk2
  | succ c ih =>
    intro i u hc him h3 h4 h5
    have hl : l ≤ i := by push_cast at hc; omega
    have hei : u.st.e i = E i := h3 i (by omega)
    have hEi : E i ≠ 0 := hE i hl (by omega)
    have hr : NumModel.hypot u.p (u.st.e i) ≠ 0 :=
      ne_of_gt (lt_of_lt_of_le (abs_pos.mpr (by rw [hei]; exact hEi))
        (NumModel.le_hypot_right _ _))
    rw [loopDn, tql2RotStep]
    simp only [cdiv_ok _ _ hr, DRes.bind_ok]
    refine ih (i - 1) _ (by push_cast; push_cast at hc; omega) (by omega)
      ?_ ?_ ?_
    · intro k hk
      dsimp only
      rw [loopUpP_proj _ St.e (fun a t => by simp)]
      simp only [sD_e, sE_e]
      rw [vset_ne _ _ (show k ≠ i + 1 by omega)]
      exact h3 k (by omega)
    · intro k hk1 hk2
      dsimp only
      rw [loopUpP_proj _ St.e (fun a t => by simp)]
      simp only [sD_e, sE_e]
      by_cases hki : k = i + 1
      · subst hki
        rw [vset_same]
        exact mul_ne_zero (h5 (by omega)) hr
      · rw [vset_ne _ _ hki]
        exact h4 k (by omega) hk2
    · intro _
      show (sE u.st (vset u.st.e (i + 1)
        (u.sv * NumModel.hypot u.p (u.st.e i)))).e i /
          NumModel.hypot u.p (u.st.e i) ≠ 0
      simp only [sE_e]
      rw [vset_ne _ _ (show i ≠ i + 1 by omega), hei]
      exact div_ne_zero hEi (by rw [← hei]; exact hr)

/-- Tail of one QL pass (rotation loop plus the final `e l`/`d l` update):
division-safe when the saved divisor `dl1` is nonzero and the incoming `e`
agrees with a window-nonzero vector. -/
theorem tql2PassTail_safe (n l m : Int) (E : Int → K)
    (hE : ∀ k, l ≤ k → k < m → E k ≠ 0) (hml : l < m)
    (s2 : St K) (p el1 dl1 f : K) (hdl1 : dl1 ≠ 0)
    (hs2e : ∀ k, s2.e k = E k) :
    ∃ sf, (DRes.bind (loopDn (tql2RotStep n) (m - l).toNat (m - 1)
        ⟨s2, 1, 1, 1, 0, 0, p⟩) fun u =>
      DRes.bind (cdiv (-u.sv * u.s2 * u.c3 * el1 * u.st.e l) dl1) fun p2 =>
      .ok ((sD (sE u.st (vset u.st.e l (u.sv * p2)))
        (vset (sE u.st (vset u.st.e l (u.sv * p2))).d l (u.c * p2)), f))) =
        .ok sf ∧
      ∀ k, l < k → k < m → sf.1.e k ≠ 0 := by
  obtain ⟨v, hv, hpost⟩ := rotLoop_safe n l m E hE (m - l).toNat (m - 1)
    ⟨s2, 1, 1, 1, 0, 0, p⟩ (by omega) (by omega)
    (fun k _ => hs2e k)
    (fun k hk1 hk2 => absurd hk1 (by omega))
    (fun h => absurd h (by omega))
  rw [hv, DRes.bind_ok]
  refine ⟨(sD (sE v.st (vset v.st.e l
      (v.sv * (-v.sv * v.s2 * v.c3 * el1 * v.st.e l / dl1))))
    (vset (sE v.st (vset v.st.e l
      (v.sv * (-v.sv * v.s2 * v.c3 * el1 * v.st.e l / dl1)))).d l
      (v.c * (-v.sv * v.s2 * v.c3 * el1 * v.st.e l / dl1))), f), ?_, ?_⟩
  · rw [cdiv_ok _ _ hdl1, DRes.bind_ok]
  · intro k hk1 hk2
    show (sD _ _).e k ≠ 0
    simp only [sD_e, sE_e]
    rw [vset_ne _ _ (show k ≠ l by omega)]
    exact hpost k hk1 hk2

/-- One QL pass is division-safe when every `e` entry of the window
`[l, m)` is nonzero, and it keeps `e` nonzero strictly inside the window. -/
theorem tql2Pass_safe (n l m : Int) (s : St K) (f : K) (hm : l < m)
    (hE : ∀ k, l ≤ k → k < m → s.e k ≠ 0) :
    ∃ sf, tql2Pass n l m s f = .ok sf ∧
      ∀ k, l < k → k < m → sf.1.e k ≠ 0 := by
  have hel : s.e l ≠ 0 := hE l (le_refl l) hm
  have h2el : (2 : K) * s.e l ≠ 0 := mul_ne_zero two_ne_zero hel
  simp only [tql2Pass]
  rw [cdiv_ok _ _ h2el, DRes.bind_ok]
  have h1r : (1 : K) ≤ NumModel.hypot ((s.d (l + 1) - s.d l) / (2 * s.e l)) 1 := by
    have h := NumModel.le_hypot_right ((s.d (l + 1) - s.d l) / (2 * s.e l)) (1 : K)
    simpa using h
  have hpr : (s.d (l + 1) - s.d l) / (2 * s.e l) +
      (if (s.d (l + 1) - s.d l) / (2 * s.e l) < 0
        then -NumModel.hypot ((s.d (l + 1) - s.d l) / (2 * s.e l)) 1
        else NumModel.hypot ((s.d (l + 1) - s.d l) / (2 * s.e l)) 1) ≠ 0 := by
    by_cases hp : (s.d (l + 1) - s.d l) / (2 * s.e l) < 0
    · rw [if_pos hp]
      intro h0
      linarith
    · rw [if_neg hp]
      push_neg at hp
      intro h0
      linarith
  rw [cdiv_ok _ _ hpr, DRes.bind_ok]
  refine tql2PassTail_safe n l m s.e hE hm _ _ _ _ _ ?_ ?_
  · show (sD (sD s _) _).d (l + 1) ≠ 0
    simp only [sD_d, sD_e, vset_same]
    exact mul_ne_zero hel hpr
  · intro k
    rw [loopUpP_proj _ St.e (fun a t => by simp)]
    simp only [sD_e]

/-- The QL do-while is division-safe: each pass re-enters only when
`bound < |e l|`, and passes keep the interior of the window nonzero. -/
theorem tql2DoWhile_safe (n l m : Int) (bound : K) (hb : 0 ≤ bound)
    (hm : l < m) :
    ∀ (fu : Nat) (sf : St K × K), (∀ k, l ≤ k → k < m → sf.1.e k ≠ 0) →
      tql2DoWhile n l m bound fu sf ≠ .divZero := by
  intro fu
  induction fu with
  | zero =>
    intro sf _
    simp [tql2DoWhile]
  | succ fu ih =>
    intro sf hEsf
    obtain ⟨sf2, hok, hpost⟩ := tql2Pass_safe n l m sf.1 sf.2 hm hEsf
    rw [tql2DoWhile, hok, DRes.bind_ok]
    by_cases hcond : bound < |sf2.1.e l|
    · rw [if_pos hcond]
      refine ih sf2 ?_
      intro k hk1 hk2
      by_cases hkl : k = l
      · subst hkl
        intro h0
        rw [h0, abs_zero] at hcond
        exact absurd hcond (not_lt.mpr hb)
      · exact hpost k (by omega) hk2
    · rw [if_neg hcond]
      simp

/-- One outer eigenvalue iteration of `tql2` is division-safe (its window is
supplied by `mSearch`, whose scanned entries exceed the nonnegative
threshold), and it keeps the carried `tst1` accumulator nonnegative. -/
theorem tql2LStep_safe (n : Int) (fuel : Nat) (l : Int) (u : St K × K × K)
    (ht : 0 ≤ u.2.2) :
    tql2LStep n fuel l u ≠ .divZero ∧
      ∀ w, tql2LStep n fuel l u = .ok w → 0 ≤ w.2.2 := by
  have htst : 0 ≤ max u.2.2 (|u.1.d l| + |u.1.e l|) :=
    le_trans ht (le_max_left _ _)
  have hbound : 0 ≤ (NumModel.eps : K) * max u.2.2 (|u.1.d l| + |u.1.e l|) :=
    mul_nonneg (le_of_lt NumModel.eps_pos) htst
  constructor
  · simp only [tql2LStep]
    refine bind_ne_divZero ?_ ?_
    · by_cases hlm : l < mSearch u.1.e
        ((NumModel.eps : K) * max u.2.2 (|u.1.d l| + |u.1.e l|)) (n - l).toNat l
      · rw [if_pos hlm]
        refine tql2DoWhile_safe n l _ _ hbound hlm fuel (u.1, u.2.1) ?_
        intro k hk1 hk2
        intro h0
        have hw := (mSearch_window u.1.e
          ((NumModel.eps : K) * max u.2.2 (|u.1.d l| + |u.1.e l|))
          (n - l).toNat l).1 k hk1 hk2
        rw [h0, abs_zero] at hw
        exact absurd hw (not_lt.mpr hbound)
      · rw [if_neg hlm]
        simp
    · intro a _
      simp
  · intro w hw
    simp only [tql2LStep] at hw
    obtain ⟨a, _, ha⟩ := bind_eq_ok hw
    have : w.2.2 = max u.2.2 (|u.1.d l| + |u.1.e l|) := by
      injection ha with ha2
      rw [← ha2]
    rw [this]
    exact htst

/-- `tql2` is division-safe. -/
theorem tql2_safe (n : Int) (fuel : Nat) (s : St K) :
    tql2 n fuel s ≠ .divZero := by
  rw [tql2]
  refine bind_ne_divZero ?_ ?_
  · exact loopUp_ne_divZero (tql2LStep n fuel) (fun _ u => 0 ≤ u.2.2)
      (fun i t t' hok hP => (tql2LStep_safe n fuel i t hP).2 t' hok)
      (fun i t hP => (tql2LStep_safe n fuel i t hP).1)
      n.toNat 0 _ (le_refl 0)
  · intro a _
    simp

theorem sq_add_sq_ne_of_left (a b : K) (ha : a ≠ 0) : a * a + b * b ≠ 0 :=
  ne_of_gt (add_pos_of_pos_of_nonneg (mul_self_pos.mpr ha) (mul_self_nonneg b))

theorem sq_add_sq_ne_of_right (a b : K) (hb : b ≠ 0) : a * a + b * b ≠ 0 :=
  ne_of_gt (add_pos_of_nonneg_of_pos (mul_self_nonneg a) (mul_self_pos.mpr hb))

/-- The 2x2 complex solve of a `cplxVecStep` row (the `e i ≠ 0` branch)
always succeeds when `norm > 0` and `q < 0`: the `cdivC` denominator is
positive (its fallback is `eps·norm·(…+|q|+…) > 0`), the `|z|+|q| < |x|`
guard forces `x ≠ 0`, and the other branch divides by `z² + q² ≥ q² > 0`.
The result's `q` is untouched. -/
theorem cplxSolve_safe (norm : K) (n i : Int) (st : St K) (ra sa : K)
    (hnorm : 0 < norm) (hq : st.q < 0) :
    ∃ w, (let st := sX st (st.H i (i + 1))
      let st := sY st (st.H (i + 1) i)
      let vr0 := (st.d i - st.p) * (st.d i - st.p) + st.e i * st.e i
          - st.q * st.q
      let vi := (st.d i - st.p) * 2 * st.q
      let vr := if vr0 = 0 ∧ vi = 0 then
          (NumModel.eps : K) * norm *
            (|st.w| + |st.q| + |st.x| + |st.y| + |st.z|)
        else vr0
      DRes.bind (cdivC (st.x * st.r - st.z * ra + st.q * sa)
          (st.x * st.s - st.z * sa - st.q * ra) vr vi) fun ab =>
      let st := sH st (mset st.H i (n - 1) ab.1)
      let st := sH st (mset st.H i n ab.2)
      if |st.z| + |st.q| < |st.x| then
        DRes.bind (cdiv (-ra - st.w * st.H i (n - 1) + st.q * st.H i n) st.x)
          fun h1 =>
        let st := sH st (mset st.H (i + 1) (n - 1) h1)
        DRes.bind (cdiv (-sa - st.w * st.H i n - st.q * st.H i (n - 1)) st.x)
          fun h2 =>
        .ok (sH st (mset st.H (i + 1) n h2))
      else
        DRes.bind (cdivC (-st.r - st.y * st.H i (n - 1))
            (-st.s - st.y * st.H i n) st.z st.q) fun ab2 =>
        let st := sH st (mset st.H (i + 1) (n - 1) ab2.1)
        .ok (sH st (mset st.H (i + 1) n ab2.2))) = .ok w ∧
      w.q = st.q := by
  have hq0 : st.q ≠ 0 := ne_of_lt hq
  simp only [sX_d, sX_p, sX_e, sX_q, sX_w, sX_y, sX_z, sX_r, sX_s, sX_x, sX_H,
    sY_d, sY_p, sY_e, sY_q, sY_w, sY_x, sY_z, sY_r, sY_s, sY_y, sY_H,
    sH_d, sH_p, sH_e, sH_q, sH_w, sH_x, sH_y, sH_z, sH_r, sH_s]
  have hden : (if ((st.d i - st.p) * (st.d i - st.p) + st.e i * st.e i -
        st.q * st.q = 0 ∧ (st.d i - st.p) * 2 * st.q = 0) then
        (NumModel.eps : K) * norm * (|st.w| + |st.q| + |st.H i (i + 1)| +
          |st.H (i + 1) i| + |st.z|)
      else (st.d i - st.p) * (st.d i - st.p) + st.e i * st.e i -
        st.q * st.q) *
      (if ((st.d i - st.p) * (st.d i - st.p) + st.e i * st.e i -
        st.q * st.q = 0 ∧ (st.d i - st.p) * 2 * st.q = 0) then
        (NumModel.eps : K) * norm * (|st.w| + |st.q| + |st.H i (i + 1)| +
          |st.H (i + 1) i| + |st.z|)
      else (st.d i - st.p) * (st.d i - st.p) + st.e i * st.e i -
        st.q * st.q) +
      (st.d i - st.p) * 2 * st.q * ((st.d i - st.p) * 2 * st.q) ≠ 0 := by
    by_cases hc : ((st.d i - st.p) * (st.d i - st.p) + st.e i * st.e i -
        st.q * st.q = 0 ∧ (st.d i - st.p) * 2 * st.q = 0)
    · rw [if_pos hc]
      have hS : 0 < |st.w| + |st.q| + |st.H i (i + 1)| +
          |st.H (i + 1) i| + |st.z| := by
        have h1 := abs_nonneg st.w
        have h2 : 0 < |st.q| := abs_pos.mpr hq0
        have h3 := abs_nonneg (st.H i (i + 1))
        have h4 := abs_nonneg (st.H (i + 1) i)
        have h5 := abs_nonneg st.z
        linarith
      exact sq_add_sq_ne_of_left _ _
        (ne_of_gt (mul_pos (mul_pos NumModel.eps_pos hnorm) hS))
    · rw [if_neg hc]
      by_cases hv : (st.d i - st.p) * 2 * st.q = 0
      · refine sq_add_sq_ne_of_left _ _ ?_
        intro h0
        exact hc ⟨h0, hv⟩
      · exact sq_add_sq_ne_of_right _ _ hv
  rw [cdivC_ok _ _ _ _ hden, DRes.bind_ok]
  by_cases hg : |st.z| + |st.q| < |st.H i (i + 1)|
  · rw [if_pos hg]
    have hx : st.H i (i + 1) ≠ 0 := by
      intro h0
      rw [h0, abs_zero] at hg
      have h1 := abs_nonneg st.z
      have h2 := abs_nonneg st.q
      linarith
    rw [cdiv_ok _ _ hx, DRes.bind_ok, cdiv_ok _ _ hx, DRes.bind_ok]
    exact ⟨_, rfl, by simp⟩
  · rw [if_neg hg]
    rw [cdivC_ok _ _ _ _ (sq_add_sq_ne_of_right st.z st.q hq0), DRes.bind_ok]
    exact ⟨_, rfl, by simp⟩

/-- The overflow control of the complex back-substitution always succeeds
(its divisor is forced nonzero by the `1 < (eps·t)·t` guard) and leaves `q`
untouched. -/
theorem cplxOverflow_safe (n i : Int) (st : St K) :
    (∃ w, cplxOverflow n i st = .ok w) ∧
      ∀ w, cplxOverflow n i st = .ok w → w.q = st.q := by
  simp only [cplxOverflow, sT_t]
  by_cases hg : 1 < ((NumModel.eps : K) *
      max (|st.H i (n - 1)|) (|st.H i n|)) * max (|st.H i (n - 1)|) (|st.H i n|)
  · rw [if_pos hg]
    have ht : max (|st.H i (n - 1)|) (|st.H i n|) ≠ 0 := by
      intro h0
      rw [h0, mul_zero] at hg
      exact absurd hg (not_lt.mpr zero_le_one)
    have h := loopUp_ok_invar
      (fun j (t2 : St K) =>
        DRes.bind (cdiv (t2.H j (n - 1))
          (max (|st.H i (n - 1)|) (|st.H i n|))) fun a =>
        DRes.bind (cdiv ((sH t2 (mset t2.H j (n - 1) a)).H j n)
          (max (|st.H i (n - 1)|) (|st.H i n|))) fun b =>
        .ok (sH (sH t2 (mset t2.H j (n - 1) a))
          (mset (sH t2 (mset t2.H j (n - 1) a)).H j n b)))
      (fun _ t2 => t2.q = st.q) ?_ (n - i + 1).toNat i
      (sT st (max (|st.H i (n - 1)|) (|st.H i n|))) rfl
    · obtain ⟨w, hw, hwq⟩ := h
      exact ⟨⟨w, hw⟩, fun w2 hw2 => by
        rw [hw] at hw2
        injection hw2 with h2
        rw [← h2]
        exact hwq⟩
    · intro j t2 hP
      refine ⟨sH (sH t2 (mset t2.H j (n - 1) (t2.H j (n - 1) /
          max (|st.H i (n - 1)|) (|st.H i n|))))
        (mset (sH t2 (mset t2.H j (n - 1) (t2.H j (n - 1) /
          max (|st.H i (n - 1)|) (|st.H i n|)))).H j n
          ((sH t2 (mset t2.H j (n - 1) (t2.H j (n - 1) /
            max (|st.H i (n - 1)|) (|st.H i n|)))).H j n /
            max (|st.H i (n - 1)|) (|st.H i n|))), ?_, ?_⟩
      · simp only [cdiv_ok _ _ ht, DRes.bind_ok]
      · simp only [sH_q]
        exact hP
  · rw [if_neg hg]
    refine ⟨⟨_, rfl⟩, ?_⟩
    intro w hw
    injection hw with h2
    rw [← h2]
    exact rfl

/-- One complex back-substitution row always succeeds when `norm > 0` and the
carried `q` is negative, and it leaves `q` untouched. -/
theorem cplxVecStep_safe (norm : K) (n i : Int) (u : St K × Int)
    (hnorm : 0 < norm) (hq : u.1.q < 0) :
    ∃ w, cplxVecStep norm n i u = .ok w ∧ w.1.q = u.1.q := by
  simp only [cplxVecStep, sW_e, sW_d, sW_p, sW_q, sW_w, sW_x, sW_y, sW_z,
    sW_r, sW_s, sW_H]
  by_cases hcond : u.1.e i < 0
  · rw [if_pos hcond]
    exact ⟨_, rfl, by simp⟩
  · rw [if_neg hcond]
    by_cases he : u.1.e i = 0
    · rw [if_pos he]
      have hden : (u.1.H i i - u.1.p) * (u.1.H i i - u.1.p) +
          u.1.q * u.1.q ≠ 0 :=
        sq_add_sq_ne_of_right _ _ (ne_of_lt hq)
      rw [cdivC_ok _ _ _ _ hden, DRes.bind_ok, DRes.bind_ok]
      refine bind_ok_ex_prop (cplxOverflow_safe n i _).1 ?_
      intro a ha
      have haq := (cplxOverflow_safe n i _).2 a ha
      refine ⟨(a, i), rfl, ?_⟩
      rw [show ((a, i) : St K × Int).1.q = a.q from rfl, haq]
      simp
    · rw [if_neg he]
      obtain ⟨w1, hw1, hw1q⟩ := cplxSolve_safe norm n i
        (sW u.1 (u.1.H i i - u.1.p))
        (foldUpA (fun j acc => acc + u.1.H i j * u.1.H j (n - 1))
          (n - u.2 + 1).toNat u.2 0)
        (foldUpA (fun j acc => acc + u.1.H i j * u.1.H j n)
          (n - u.2 + 1).toNat u.2 0)
        hnorm hq
      refine bind_ok_ex_prop ⟨w1, hw1⟩ ?_
      intro a ha
      have haw : DRes.ok w1 = DRes.ok a := hw1.symm.trans ha
      injection haw with haw
      subst haw
      refine bind_ok_ex_prop (cplxOverflow_safe n i _).1 ?_
      intro b hb
      have hbq := (cplxOverflow_safe n i _).2 b hb
      refine ⟨(b, i), rfl, ?_⟩
      rw [show ((b, i) : St K × Int).1.q = b.q from rfl, hbq, hw1q]
      rfl

/-- The triangular 2x2 start of a complex back-substitution always succeeds
when `q < 0`, and leaves `q` untouched. -/
theorem cplxVecPre_safe (n : Int) (st : St K) (hq : st.q < 0) :
    ∃ w, cplxVecPre n st = .ok w ∧ w.q = st.q := by
  rw [cplxVecPre]
  by_cases hg : |st.H (n - 1) n| < |st.H n (n - 1)|
  · rw [if_pos hg]
    have hx : st.H n (n - 1) ≠ 0 := by
      intro h0
      rw [h0, abs_zero] at hg
      exact absurd hg (not_lt.mpr (abs_nonneg _))
    rw [cdiv_ok _ _ hx, DRes.bind_ok]
    have hx2 : (sH st (mset st.H (n - 1) (n - 1)
        (st.q / st.H n (n - 1)))).H n (n - 1) ≠ 0 := by
      rw [sH_H, mset_ne _ _ (by rintro ⟨h1, -⟩; omega)]
      exact hx
    simp only [cdiv_ok _ _ hx2, DRes.bind_ok]
    exact ⟨_, rfl, rfl⟩
  · rw [if_neg hg]
    have hden : (st.H (n - 1) (n - 1) - st.p) * (st.H (n - 1) (n - 1) - st.p) +
        st.q * st.q ≠ 0 := sq_add_sq_ne_of_right _ _ (ne_of_lt hq)
    rw [cdivC_ok _ _ _ _ hden, DRes.bind_ok]
    exact ⟨_, rfl, rfl⟩

/-- One back-substitution phase for eigenvector index `n` is division-safe
when `norm > 0`: the real path performs no checked divisions, and the complex
path (entered only when `q = e n < 0`) keeps `q` negative through every row. -/
theorem phase2Step_safe (norm : K) (n : Int) (st : St K) (hnorm : 0 < norm) :
    phase2Step norm n st ≠ .divZero := by
  simp only [phase2Step, sQ_q, sP_e, sP_d]
  by_cases h0 : st.e n = 0
  · rw [if_pos h0]
    simp
  · rw [if_neg h0]
    by_cases hneg : st.e n < 0
    · rw [if_pos hneg]
      obtain ⟨w, hw, hwq⟩ := cplxVecPre_safe n (sQ (sP st (st.d n)) (st.e n))
        hneg
      rw [hw, DRes.bind_ok]
      refine bind_ne_divZero ?_ (fun a _ => by simp)
      refine loopDn_ne_divZero _ (fun _ v => v.1.q < 0) ?_ ?_
        (n - 1).toNat (n - 2) _ ?_
      · intro j v v' hok hP
        obtain ⟨w2, hw2, hw2q⟩ := cplxVecStep_safe norm n j v hnorm hP
        rw [hok] at hw2
        injection hw2 with h2
        rw [h2, hw2q]
        exact hP
      · intro j v hP
        obtain ⟨w2, hw2, _⟩ := cplxVecStep_safe norm n j v hnorm hP
        rw [hw2]
        simp
      · show (sH (sH w (mset w.H n (n - 1) 0))
          (mset (sH w (mset w.H n (n - 1) 0)).H n n 1)).q < 0
        simp only [sH_q]
        rw [hwq]
        exact hneg
    · rw [if_neg hneg]
      simp

/-- The outer QR loop of `hqr2` performs no checked division at all. -/
theorem hqr2Loop_ne (nn low high : Int) (norm : K) :
    ∀ (fu : Nat) (st : St K), hqr2Loop nn low high norm fu st ≠ .divZero := by
  intro fu
  induction fu with
  | zero =>
    intro st
    rw [hqr2Loop]
    split <;> simp
  | succ fu ih =>
    intro st
    rw [hqr2Loop]
    split
    · exact ih _
    · simp

/-- The accumulated matrix norm of `hqr2` is nonnegative. -/
theorem hqr2Norm_nonneg (nn low high : Int) (s : St K) :
    0 ≤ (hqr2Norm nn low high s).2 := by
  rw [hqr2Norm]
  refine loopUpP_invar _ (fun _ (u : St K × K) => 0 ≤ u.2) ?_
    nn.toNat 0 (s, (0 : K)) (le_refl 0)
  intro i v hP
  dsimp only
  exact le_trans hP (foldAbs_ge_acc _ _ _ _)

/-- `hqr2` is division-safe: the QR iteration itself divides only through
unchecked field operations, and the complex back-substitution runs only with
`norm ≠ 0` (hence `norm > 0`) and `q < 0`. -/
theorem hqr2_ne_divZero (nn : Int) (fuel : Nat) (st : St K) :
    hqr2 nn fuel st ≠ .divZero := by
  simp only [hqr2]
  refine bind_ne_divZero (hqr2Loop_ne _ _ _ _ fuel _) ?_
  intro a _
  by_cases hnz : (hqr2Norm nn 0 (nn - 1)
      (sIter (sZ (sS (sR (sQ (sP (sExshift (sEn st (nn - 1)) 0) 0) 0) 0) 0) 0)
        0)).2 = 0
  · rw [if_pos hnz]
    simp
  · rw [if_neg hnz]
    have hpos := lt_of_le_of_ne (hqr2Norm_nonneg nn 0 (nn - 1)
      (sIter (sZ (sS (sR (sQ (sP (sExshift (sEn st (nn - 1)) 0) 0) 0) 0) 0) 0)
        0)) (Ne.symm hnz)
    refine bind_ne_divZero ?_ (fun b _ => by simp)
    exact loopDn_ne_divZero _ (fun _ _ => True) (fun _ _ _ _ _ => trivial)
      (fun i t _ => phase2Step_safe _ i t hpos) nn.toNat (nn - 1) a trivial

/-- **C8.** On every execution path of the decomposition, numerical
degeneracy is absorbed by a local guard or fallback branch and never raises
an error: every division performed in `tred2`, `tql2`, `orthes` and the 2x2
complex solve of `hqr2` executes with a nonzero divisor under its guarding
condition.  Formally: through either constructor, on all inputs and all fuel
budgets, the checked-division error outcome is unreachable. -/
theorem no_division_by_zero (rows cols n2 : Int) (A A2 : Int → Int → K)
    (fuel fuel2 : Nat) :
    resDivZero (construct rows cols A fuel) = false ∧
      resDivZero (constructSym n2 A2 fuel2) = false := by
  have hsym : ∀ (n : Int) (B : Int → Int → K) (fu : Nat),
      DRes.bind (DRes.bind (tred2 n (sV initSt (copyIn B n))) (tql2 n fu))
        (fun st => (.ok ⟨n, true, st⟩ : DRes (Res K))) ≠ .divZero := by
    intro n B fu
    refine bind_ne_divZero (bind_ne_divZero ?_ ?_) ?_
    · obtain ⟨s', hs'⟩ := tred2_ok n (sV initSt (copyIn B n))
      rw [hs']
      simp
    · intro a _
      exact tql2_safe n fu a
    · intro a _
      simp
  constructor
  · refine resDivZero_eq_false _ ?_
    rw [construct]
    by_cases hsq : rows = cols
    · rw [if_pos hsq]
      by_cases hck : symCheck A cols = true
      · rw [if_pos hck]
        exact hsym cols A fuel
      · rw [if_neg hck]
        refine bind_ne_divZero (bind_ne_divZero ?_ ?_) ?_
        · obtain ⟨s', hs'⟩ := orthes_ok cols (sH initSt (copyIn A cols))
          rw [hs']
          simp
        · intro a _
          exact hqr2_ne_divZero cols fuel a
        · intro a _
          simp
    · rw [if_neg hsq]
      simp
  · refine resDivZero_eq_false _ ?_
    rw [constructSym]
    exact hsym n2 A2 fuel2

end Evd
